import Mathlib

/-!
Verification of the interprocedural control-flow-graph construction of
`cwe_checker_rs` (`src/analysis/graph.rs`).

The Rust module is shallowly embedded here:
* the IR term tree (`Program`/`Sub`/`Blk`/`Jmp` wrapped in `Term`) becomes plain
  inductive data; payload types that the graph construction never inspects
  (expressions, def lists, interrupt payloads) are kept as opaque placeholders;
* the petgraph `DiGraph` becomes a pair of lists, `add_node`/`add_edge` append
  and the index of a fresh node is the current length of the node list;
* Rust `HashMap`s become association lists: insertion conses a binding in
  front, lookup returns the first binding with the requested key (this is
  observationally the overwrite semantics of `HashMap`), and
  `entry(..).and_modify(..).or_insert_with(..)` is `pushReturnAddress`;
* every Rust construct that can panic (`map[key]` indexing, slice patterns with
  a `panic` arm, `Option::unwrap`) is modelled as an `Option`-valued function
  returning `none` on the panicking path;
* `for` loops become structural recursions through the generic `optFold`.
-/

namespace CweGraph

/-- Stable, globally unique term identifier (`Tid`).  Only equality and
hashing of `Tid`s are used by the graph construction, so it is modelled as a
string. -/
abbrev Tid := String

/-- Placeholder for the expression type of the IR.  Expressions are never
inspected by the graph construction. -/
abbrev Expression := String

/-- A jump target: either a statically known identifier or an unresolved
expression. -/
inductive Label where
  | direct (tid : Tid)
  | indirect (exp : Expression)
deriving DecidableEq, Repr

/-- The payload of a call jump: call target and optional return target. -/
structure Call where
  target : Label
  return_ : Option Label
deriving DecidableEq, Repr

/-- The jump kinds of the IR.  The payloads of `interrupt` are never inspected
by the graph construction and are modelled as opaque numbers. -/
inductive JmpKind where
  | goto (label : Label)
  | call (c : Call)
  | interrupt (value : Int) (returnAddr : Int)
  | ret (label : Label)
deriving DecidableEq, Repr

/-- A term of the IR: a stable identifier together with a payload. -/
structure Term (T : Type) where
  tid : Tid
  term : T
deriving DecidableEq, Repr

/-- A jump instruction: optional condition expression plus jump kind. -/
structure Jmp where
  condition : Option Expression
  kind : JmpKind
deriving DecidableEq, Repr

/-- A basic block: non-branching operations (opaque here) plus the terminating
jump sequence. -/
structure Blk where
  defs : List Expression
  jmps : List (Term Jmp)
deriving DecidableEq, Repr

/-- A subroutine: name plus ordered basic blocks. -/
structure Sub where
  name : String
  blocks : List (Term Blk)
deriving DecidableEq, Repr

/-- A program: subroutines plus (opaque to this module) external symbols and
entry points. -/
structure Program where
  subs : List (Term Sub)
  extern_symbols : List Tid
  entry_points : List Tid
deriving DecidableEq, Repr

/-- The node type of the interprocedural control flow graph. -/
inductive Node where
  | blkStart (b : Term Blk)
  | blkEnd (b : Term Blk)
  | callReturn (b : Term Blk)
deriving DecidableEq, Repr

/-- Get the block corresponding to the node (`Node::get_block`). -/
def Node.get_block : Node → Term Blk
  | .blkStart b => b
  | .blkEnd b => b
  | .callReturn b => b

def Node.isBlkStart : Node → Bool
  | .blkStart _ => true
  | _ => false

def Node.isBlkEnd : Node → Bool
  | .blkEnd _ => true
  | _ => false

def Node.isCallReturn : Node → Bool
  | .callReturn _ => true
  | _ => false

/-- The edge type of the interprocedural control flow graph. -/
inductive Edge where
  | block
  | jump (j : Term Jmp) (untaken : Option (Term Jmp))
  | call (j : Term Jmp)
  | externCallStub (j : Term Jmp)
  | crCallStub
  | crReturnStub
  | crCombine (j : Term Jmp)
deriving DecidableEq, Repr

def Edge.isBlock : Edge → Bool
  | .block => true
  | _ => false

def Edge.isJump : Edge → Bool
  | .jump _ _ => true
  | _ => false

def Edge.isCallEdge : Edge → Bool
  | .call _ => true
  | _ => false

def Edge.isExternCallStub : Edge → Bool
  | .externCallStub _ => true
  | _ => false

def Edge.isCRCallStub : Edge → Bool
  | .crCallStub => true
  | _ => false

def Edge.isCRReturnStub : Edge → Bool
  | .crReturnStub => true
  | _ => false

def Edge.isCRCombine : Edge → Bool
  | .crCombine _ => true
  | _ => false

/-- A directed graph edge: source node index, destination node index, label. -/
structure GEdge where
  src : Nat
  dst : Nat
  label : Edge
deriving DecidableEq, Repr

/-- The graph (petgraph `DiGraph`): nodes and edges in insertion order.  The
index of a node is its position in `nodes`. -/
structure Graph where
  nodes : List Node
  edges : List GEdge
deriving DecidableEq, Repr

def JmpKind.isCall : JmpKind → Bool
  | .call _ => true
  | _ => false

def JmpKind.isReturn : JmpKind → Bool
  | .ret _ => true
  | _ => false

/-- Association-list lookup modelling `HashMap::get`: first binding with the
requested key. -/
def hmGet {A : Type} (k : Tid) (m : List (Tid × A)) : Option A :=
  (m.find? (fun kv => kv.1 == k)).map (fun kv => kv.2)

/-- The builder state (`GraphBuilder`), without the borrowed program (the
program is passed to each phase explicitly). -/
structure St where
  externSubs : List Tid
  nodes : List Node
  edges : List GEdge
  jumpTargets : List (Tid × (Nat × Nat))
  returnAddresses : List (Tid × List (Nat × Nat))
deriving DecidableEq, Repr

/-- `GraphBuilder::new`: an empty builder over the given external symbols. -/
def GraphBuilder.new (ext : List Tid) : St :=
  { externSubs := ext, nodes := [], edges := [], jumpTargets := [], returnAddresses := [] }

/-- Generic `Option`-valued left fold; every `for` loop of the builder is one
of these. -/
def optFold {S A : Type} (f : S → A → Option S) : S → List A → Option S
  | st, [] => some st
  | st, x :: xs =>
    match f st x with
    | none => none
    | some st' => optFold f st' xs

/-- `GraphBuilder::add_block`: add the start node, the end node, the
`jump_targets` binding and the `Block` edge for one block. -/
def addBlock (st : St) (block : Term Blk) : St :=
  let start := st.nodes.length
  let stop := st.nodes.length + 1
  { st with
      nodes := st.nodes ++ [Node.blkStart block, Node.blkEnd block],
      jumpTargets := (block.tid, (start, stop)) :: st.jumpTargets,
      edges := st.edges ++ [{ src := start, dst := stop, label := Edge.block }] }

/-- All blocks of the program in subroutine order
(`subs.map(|sub| sub.term.blocks.iter()).flatten()`). -/
def allBlocks (p : Term Program) : List (Term Blk) :=
  p.term.subs.flatMap (fun sub => sub.term.blocks)

/-- `GraphBuilder::add_program_blocks`. -/
def addProgramBlocks (p : Term Program) (st : St) : St :=
  (allBlocks p).foldl addBlock st

/-- Loop body of `GraphBuilder::add_subs_to_jump_targets`: for a subroutine
with at least one block, look up the node pair of its first block (`HashMap`
indexing, hence failure on a missing key) and bind it to the subroutine's
identifier. -/
def subStep (st : St) (sub : Term Sub) : Option St :=
  match sub.term.blocks with
  | [] => some st
  | startBlock :: _ =>
    match hmGet startBlock.tid st.jumpTargets with
    | none => none
    | some targetIndex =>
      some { st with jumpTargets := (sub.tid, targetIndex) :: st.jumpTargets }

/-- `GraphBuilder::add_subs_to_jump_targets`. -/
def addSubsToJumpTargets (p : Term Program) (st : St) : Option St :=
  optFold subStep st p.term.subs

/-- `return_addresses.entry(t).and_modify(|v| v.push(pr)).or_insert_with(|| vec![pr])`. -/
def pushReturnAddress (t : Tid) (pr : Nat × Nat) (m : List (Tid × List (Nat × Nat))) :
    List (Tid × List (Nat × Nat)) :=
  match hmGet t m with
  | some v => (t, v ++ [pr]) :: m
  | none => (t, [pr]) :: m

/-- `GraphBuilder::add_jump_edge`.  `HashMap` indexing on a missing key is a
panic, modelled as `none`; `HashMap::get` misses are tolerated. -/
def addJumpEdge (st : St) (source : Nat) (jump : Term Jmp)
    (untakenConditional : Option (Term Jmp)) : Option St :=
  match jump.term.kind with
  | .goto (.direct tid) =>
    match hmGet tid st.jumpTargets with
    | none => none
    | some target =>
      some { st with
        edges := st.edges ++
          [{ src := source, dst := target.1, label := Edge.jump jump untakenConditional }] }
  | .goto (.indirect _) => some st
  | .call c =>
    match c.target with
    | .direct targetTid =>
      if st.externSubs.contains targetTid then
        match c.return_ with
        | some (.direct returnTid) =>
          match hmGet returnTid st.jumpTargets with
          | none => none
          | some target =>
            some { st with
              edges := st.edges ++
                [{ src := source, dst := target.1, label := Edge.externCallStub jump }] }
        | _ => some st
      else
        let st1 :=
          match hmGet targetTid st.jumpTargets with
          | some target =>
            { st with
              edges := st.edges ++
                [{ src := source, dst := target.1, label := Edge.call jump }] }
          | none => st
        match c.return_ with
        | some (.direct returnTid) =>
          match hmGet returnTid st1.jumpTargets with
          | none => none
          | some target =>
            some { st1 with
              returnAddresses :=
                pushReturnAddress targetTid (source, target.1) st1.returnAddresses }
        | _ => some st1
    | .indirect _ => some st
  | .interrupt _ _ => some st
  | .ret _ => some st

/-- `GraphBuilder::add_outgoing_edges`: dispatch on the jump list of the block
of the given node.  More than two jumps is the panicking arm. -/
def addOutgoingEdges (st : St) (node : Nat) : Option St :=
  match st.nodes[node]? with
  | none => none
  | some nd =>
    match nd.get_block.term.jmps with
    | [] => some st
    | [jump] => addJumpEdge st node jump none
    | [ifJump, elseJump] =>
      match addJumpEdge st node ifJump none with
      | none => none
      | some st1 => addJumpEdge st1 node elseJump (some ifJump)
    | _ => none

/-- Loop body of `GraphBuilder::add_jump_and_call_edges`: only `BlkEnd` nodes
get outgoing edges. -/
def outgoingStep (st : St) (node : Nat) : Option St :=
  match st.nodes[node]? with
  | some (Node.blkEnd _) => addOutgoingEdges st node
  | _ => some st

/-- `GraphBuilder::add_jump_and_call_edges`: iterate over all node indices. -/
def addJumpAndCallEdges (st : St) : Option St :=
  optFold outgoingStep st (List.range st.nodes.length)

/-- Loop body of `GraphBuilder::add_call_return_node_and_edges` for one
recorded (callsite, return-target) pair: find the call term of the callsite
block (`unwrap`, hence `none` when there is none), add the `CallReturn` node
and its three edges. -/
def crStep (returnSource : Nat) (st : St) (pr : Nat × Nat) : Option St :=
  match st.nodes[pr.1]? with
  | none => none
  | some nd =>
    let callBlock := nd.get_block
    match callBlock.term.jmps.find? (fun j => j.term.kind.isCall) with
    | none => none
    | some callTerm =>
      let crCombineNode := st.nodes.length
      some { st with
        nodes := st.nodes ++ [Node.callReturn callBlock],
        edges := st.edges ++
          [{ src := pr.1, dst := crCombineNode, label := Edge.crCallStub },
           { src := returnSource, dst := crCombineNode, label := Edge.crReturnStub },
           { src := crCombineNode, dst := pr.2, label := Edge.crCombine callTerm }] }

/-- `GraphBuilder::add_call_return_node_and_edges`. -/
def addCallReturnNodeAndEdges (st : St) (returnFromSub : Term Sub) (returnSource : Nat) :
    Option St :=
  match hmGet returnFromSub.tid st.returnAddresses with
  | none => some st
  | some pairs => optFold (crStep returnSource) st pairs

/-- Inner loop body of `GraphBuilder::add_return_edges`: a block containing at
least one return jump contributes call-return machinery, with its `BlkEnd`
node (`HashMap` indexing) as the return source. -/
def returnBlockStep (sub : Term Sub) (st : St) (block : Term Blk) : Option St :=
  if block.term.jmps.any (fun j => j.term.kind.isReturn) then
    match hmGet block.tid st.jumpTargets with
    | none => none
    | some target => addCallReturnNodeAndEdges st sub target.2
  else some st

/-- `GraphBuilder::add_return_edges`. -/
def addReturnEdges (p : Term Program) (st : St) : Option St :=
  optFold (fun st sub => optFold (returnBlockStep sub) st sub.term.blocks) st p.term.subs

/-- Phases 1 and 2 of `GraphBuilder::build`. -/
def buildPhase12 (p : Term Program) (ext : List Tid) : Option St :=
  addSubsToJumpTargets p (addProgramBlocks p (GraphBuilder.new ext))

/-- Phases 1 to 3 of `GraphBuilder::build`. -/
def buildPhase123 (p : Term Program) (ext : List Tid) : Option St :=
  (buildPhase12 p ext).bind addJumpAndCallEdges

/-- `GraphBuilder::build`: the four phases in order. -/
def build (p : Term Program) (ext : List Tid) : Option Graph :=
  match buildPhase123 p ext with
  | none => none
  | some st3 =>
    match addReturnEdges p st3 with
    | none => none
    | some st4 => some { nodes := st4.nodes, edges := st4.edges }

/-- `get_program_cfg`. -/
def get_program_cfg (p : Term Program) (ext : List Tid) : Option Graph :=
  build p ext

/-- `graph.neighbors(n).next()`: petgraph iterates the outgoing edges of a
node starting from the most recently added one. -/
def firstNeighbor (g : Graph) (n : Nat) : Option Nat :=
  (g.edges.reverse.find? (fun e => e.src == n)).map (fun e => e.dst)

/-- Loop body of `get_indices_of_block_nodes` for one node index. -/
def indicesStep (g : Graph) (blockTids : List Tid) (m : List (Tid × (Nat × Nat)))
    (i : Nat) : Option (List (Tid × (Nat × Nat))) :=
  match g.nodes[i]? with
  | none => none
  | some nd =>
    if blockTids.contains nd.get_block.tid then
      match nd with
      | Node.blkStart _ =>
        match firstNeighbor g i with
        | none => none
        | some stop => some ((nd.get_block.tid, (i, stop)) :: m)
      | _ => some m
    else some m

/-- `get_indices_of_block_nodes`: map block identifiers of interest to their
(BlkStart, BlkEnd) index pairs.  The `unwrap` on the first neighbor is
modelled as `Option` failure. -/
def get_indices_of_block_nodes (g : Graph) (blockTids : List Tid) :
    Option (List (Tid × (Nat × Nat))) :=
  optFold (indicesStep g blockTids) [] (List.range g.nodes.length)

/-! ## The mock program of the module's test -/

def tidSub1 : Tid := "sub1"
def tidSub2 : Tid := "sub2"
def tidSub1Blk1 : Tid := "sub1_blk1"
def tidSub1Blk2 : Tid := "sub1_blk2"
def tidSub2Blk1 : Tid := "sub2_blk1"
def tidCall : Tid := "call"
def tidReturn : Tid := "return"
def tidJump : Tid := "jump"

def mockCallTerm : Term Jmp :=
  { tid := tidCall,
    term := { condition := none,
              kind := JmpKind.call { target := Label.direct tidSub2,
                                     return_ := some (Label.direct tidSub1Blk2) } } }

def mockReturnTerm : Term Jmp :=
  { tid := tidReturn,
    term := { condition := none, kind := JmpKind.ret (Label.direct tidSub1Blk2) } }

def mockJmpTerm : Term Jmp :=
  { tid := tidJump,
    term := { condition := none, kind := JmpKind.goto (Label.direct tidSub1Blk1) } }

def mockSub1Blk1 : Term Blk :=
  { tid := tidSub1Blk1, term := { defs := [], jmps := [mockCallTerm] } }

def mockSub1Blk2 : Term Blk :=
  { tid := tidSub1Blk2, term := { defs := [], jmps := [mockJmpTerm] } }

def mockSub2Blk1 : Term Blk :=
  { tid := tidSub2Blk1, term := { defs := [], jmps := [mockReturnTerm] } }

def mockSub1 : Term Sub :=
  { tid := tidSub1, term := { name := "sub1", blocks := [mockSub1Blk1, mockSub1Blk2] } }

def mockSub2 : Term Sub :=
  { tid := tidSub2, term := { name := "sub2", blocks := [mockSub2Blk1] } }

def mockProgram : Term Program :=
  { tid := "program",
    term := { subs := [mockSub1, mockSub2], extern_symbols := [], entry_points := [] } }

/-- The module's own unit test `create_program_cfg`: the mock program yields
7 nodes and 8 edges. -/
theorem create_program_cfg :
    (get_program_cfg mockProgram []).map (fun g => (g.nodes.length, g.edges.length)) =
      some (7, 8) := by
  decide

/-! ## Generic lemmas about `optFold` -/

theorem optFold_append {S A : Type} (f : S → A → Option S) (st : S) (l1 l2 : List A) :
    optFold f st (l1 ++ l2) =
      match optFold f st l1 with
      | none => none
      | some st' => optFold f st' l2 := by
  induction l1 generalizing st with
  | nil => simp [optFold]
  | cons x xs ih =>
    simp only [List.cons_append, optFold]
    cases f st x with
    | none => rfl
    | some st' => exact ih st'

theorem optFold_some_decomp {S A : Type} {f : S → A → Option S} {st st2 : S}
    {l1 l2 : List A} {x : A}
    (h : optFold f st (l1 ++ x :: l2) = some st2) :
    ∃ stA stB, optFold f st l1 = some stA ∧ f stA x = some stB ∧
      optFold f stB l2 = some st2 := by
  rw [optFold_append] at h
  cases hA : optFold f st l1 with
  | none => rw [hA] at h; exact absurd h (by simp)
  | some stA =>
    rw [hA] at h
    simp only [optFold] at h
    cases hB : f stA x with
    | none => rw [hB] at h; exact absurd h (by simp)
    | some stB =>
      rw [hB] at h
      exact ⟨stA, stB, rfl, hB, h⟩

theorem optFold_preserve {S A : Type} {f : S → A → Option S} {P : S → Prop}
    {l : List A} {st st' : S}
    (hstep : ∀ s x s', x ∈ l → P s → f s x = some s' → P s')
    (h : optFold f st l = some st') (hP : P st) : P st' := by
  induction l generalizing st with
  | nil => simp only [optFold, Option.some.injEq] at h; exact h ▸ hP
  | cons x xs ih =>
    simp only [optFold] at h
    cases hx : f st x with
    | none => rw [hx] at h; exact absurd h (by simp)
    | some stm =>
      rw [hx] at h
      exact ih (fun s y s' hy => hstep s y s' (List.mem_cons_of_mem _ hy)) h
        (hstep st x stm (List.mem_cons_self _ _) hP hx)

theorem optFold_total {S A : Type} {f : S → A → Option S} {P : S → Prop}
    {l : List A} {st : S}
    (hstep : ∀ s x, x ∈ l → P s → ∃ s', f s x = some s' ∧ P s')
    (hP : P st) : ∃ st', optFold f st l = some st' ∧ P st' := by
  induction l generalizing st with
  | nil => exact ⟨st, rfl, hP⟩
  | cons x xs ih =>
    obtain ⟨s', hs', hP'⟩ := hstep st x (List.mem_cons_self _ _) hP
    obtain ⟨st', hfold, hPf⟩ :=
      ih (fun s y hy => hstep s y (List.mem_cons_of_mem _ hy)) hP'
    exact ⟨st', by simp only [optFold, hs']; exact hfold, hPf⟩

theorem optFold_none {S A : Type} {f : S → A → Option S} {P : S → Prop}
    {l1 l2 : List A} {x : A} {st : S}
    (hpres : ∀ s y s', y ∈ l1 → P s → f s y = some s' → P s')
    (hfail : ∀ s, P s → f s x = none)
    (hP : P st) : optFold f st (l1 ++ x :: l2) = none := by
  rw [optFold_append]
  cases hA : optFold f st l1 with
  | none => rfl
  | some stA =>
    have hPA : P stA := optFold_preserve hpres hA hP
    simp only [optFold, hfail stA hPA]

/-! ## Generic lemmas about `hmGet` -/

theorem hmGet_nil {A : Type} (k : Tid) : hmGet k ([] : List (Tid × A)) = none := rfl

theorem hmGet_cons {A : Type} (k k' : Tid) (v : A) (m : List (Tid × A)) :
    hmGet k ((k', v) :: m) = if k' = k then some v else hmGet k m := by
  simp only [hmGet, List.find?_cons]
  by_cases h : k' = k
  · simp [h]
  · have hb : (k' == k) = false := by simp [h]
    simp [h, hb]

theorem hmGet_append {A : Type} (k : Tid) (m1 m2 : List (Tid × A)) :
    hmGet k (m1 ++ m2) = (hmGet k m1).or (hmGet k m2) := by
  simp only [hmGet, List.find?_append]
  cases List.find? (fun kv => kv.1 == k) m1 <;> simp

theorem hmGet_mem {A : Type} {k : Tid} {v : A} {m : List (Tid × A)}
    (h : hmGet k m = some v) : (k, v) ∈ m := by
  simp only [hmGet, Option.map_eq_some'] at h
  obtain ⟨kv, hfind, hv⟩ := h
  have h1 := List.find?_some hfind
  have h2 := List.mem_of_find?_eq_some hfind
  rw [beq_iff_eq] at h1
  have : kv = (k, v) := by
    obtain ⟨a, b⟩ := kv
    simp only at h1 hv
    rw [h1, hv]
  exact this ▸ h2

theorem hmGet_isSome_iff {A : Type} {k : Tid} {m : List (Tid × A)} :
    (hmGet k m).isSome = true ↔ ∃ v, (k, v) ∈ m := by
  constructor
  · intro h
    obtain ⟨v, hv⟩ := Option.isSome_iff_exists.mp h
    exact ⟨v, hmGet_mem hv⟩
  · intro ⟨v, hv⟩
    have hf : (List.find? (fun kv => kv.1 == k) m).isSome = true :=
      List.find?_isSome.mpr ⟨(k, v), hv, by simp⟩
    obtain ⟨kv, hkv⟩ := Option.isSome_iff_exists.mp hf
    simp [hmGet, hkv]

theorem hmGet_eq_none_iff {A : Type} {k : Tid} {m : List (Tid × A)} :
    hmGet k m = none ↔ ∀ v, (k, v) ∉ m := by
  constructor
  · intro h v hv
    have : (hmGet k m).isSome = true := hmGet_isSome_iff.mpr ⟨v, hv⟩
    rw [h] at this
    exact absurd this (by simp)
  · intro h
    cases hg : hmGet k m with
    | none => rfl
    | some v => exact absurd (hmGet_mem hg) (h v)

theorem hmGet_eq_some_of_unique {A : Type} {k : Tid} {v : A} {m : List (Tid × A)}
    (hmem : (k, v) ∈ m) (huniq : ∀ w, (k, w) ∈ m → w = v) :
    hmGet k m = some v := by
  have h1 : (hmGet k m).isSome = true := hmGet_isSome_iff.mpr ⟨v, hmem⟩
  obtain ⟨w, hw⟩ := Option.isSome_iff_exists.mp h1
  rw [hw]
  exact congrArg some (huniq w (hmGet_mem hw))

/-! ## Closed forms for Phase 1 (`add_program_blocks`) -/

/-- The node list created by Phase 1: a `BlkStart`/`BlkEnd` pair per block. -/
def blockNodes : List (Term Blk) → List Node
  | [] => []
  | b :: bs => Node.blkStart b :: Node.blkEnd b :: blockNodes bs

/-- The edge list created by Phase 1 when the node list already has `k`
entries: one `Block` edge per block. -/
def blockEdges : Nat → List (Term Blk) → List GEdge
  | _, [] => []
  | k, _ :: bs => { src := k, dst := k + 1, label := Edge.block } :: blockEdges (k + 2) bs

/-- The `jump_targets` bindings created by Phase 1, in block order. -/
def blockTargets : Nat → List (Term Blk) → List (Tid × (Nat × Nat))
  | _, [] => []
  | k, b :: bs => (b.tid, (k, k + 1)) :: blockTargets (k + 2) bs

theorem foldl_addBlock_spec (bs : List (Term Blk)) (st : St) :
    List.foldl addBlock st bs =
      { st with
          nodes := st.nodes ++ blockNodes bs,
          edges := st.edges ++ blockEdges st.nodes.length bs,
          jumpTargets := (blockTargets st.nodes.length bs).reverse ++ st.jumpTargets } := by
  induction bs generalizing st with
  | nil => simp [blockNodes, blockEdges, blockTargets]
  | cons b bs ih =>
    rw [List.foldl_cons, ih]
    simp [addBlock, blockNodes, blockEdges, blockTargets, List.append_assoc]

theorem length_blockNodes (bs : List (Term Blk)) :
    (blockNodes bs).length = 2 * bs.length := by
  induction bs with
  | nil => rfl
  | cons b bs ih => simp [blockNodes, ih]; omega

theorem blockNodes_getElem?_even (bs : List (Term Blk)) (i : Nat) :
    (blockNodes bs)[2 * i]? = (bs[i]?).map Node.blkStart := by
  induction bs generalizing i with
  | nil => simp [blockNodes]
  | cons b bs ih =>
    cases i with
    | zero => simp [blockNodes]
    | succ j =>
      have h2 : 2 * (j + 1) = 2 * j + 1 + 1 := by omega
      rw [h2]
      simp only [blockNodes, List.getElem?_cons_succ]
      exact ih j

theorem blockNodes_getElem?_odd (bs : List (Term Blk)) (i : Nat) :
    (blockNodes bs)[2 * i + 1]? = (bs[i]?).map Node.blkEnd := by
  induction bs generalizing i with
  | nil => simp [blockNodes]
  | cons b bs ih =>
    cases i with
    | zero => simp [blockNodes]
    | succ j =>
      have h2 : 2 * (j + 1) + 1 = 2 * j + 1 + 1 + 1 := by omega
      rw [h2]
      simp only [blockNodes, List.getElem?_cons_succ]
      exact ih j

theorem blockNodes_getElem?_cases (bs : List (Term Blk)) (k : Nat) (x : Node)
    (h : (blockNodes bs)[k]? = some x) :
    ∃ i, ∃ hi : i < bs.length,
      (k = 2 * i ∧ x = Node.blkStart bs[i]) ∨ (k = 2 * i + 1 ∧ x = Node.blkEnd bs[i]) := by
  induction bs generalizing k with
  | nil => simp [blockNodes] at h
  | cons b bs ih =>
    match k with
    | 0 =>
      simp only [blockNodes, List.getElem?_cons_zero, Option.some.injEq] at h
      exact ⟨0, by simp, Or.inl ⟨rfl, h.symm⟩⟩
    | 1 =>
      simp only [blockNodes, List.getElem?_cons_succ, List.getElem?_cons_zero,
        Option.some.injEq] at h
      exact ⟨0, by simp, Or.inr ⟨rfl, h.symm⟩⟩
    | k + 2 =>
      simp only [blockNodes, List.getElem?_cons_succ] at h
      obtain ⟨i, hi, hcase⟩ := ih k h
      refine ⟨i + 1, by simp only [List.length_cons]; omega, ?_⟩
      rcases hcase with ⟨hk, hx⟩ | ⟨hk, hx⟩
      · refine Or.inl ⟨by omega, ?_⟩
        rw [List.getElem_cons_succ]
        exact hx
      · refine Or.inr ⟨by omega, ?_⟩
        rw [List.getElem_cons_succ]
        exact hx

theorem blockNodes_filter_blkStart (bs : List (Term Blk)) :
    (blockNodes bs).filter Node.isBlkStart = bs.map Node.blkStart := by
  induction bs with
  | nil => rfl
  | cons b bs ih => simp [blockNodes, List.filter_cons, Node.isBlkStart, ih]

theorem blockNodes_filter_blkEnd (bs : List (Term Blk)) :
    (blockNodes bs).filter Node.isBlkEnd = bs.map Node.blkEnd := by
  induction bs with
  | nil => rfl
  | cons b bs ih => simp [blockNodes, List.filter_cons, Node.isBlkEnd, ih]

theorem blockNodes_filter_callReturn (bs : List (Term Blk)) :
    (blockNodes bs).filter Node.isCallReturn = [] := by
  induction bs with
  | nil => rfl
  | cons b bs ih => simp [blockNodes, List.filter_cons, Node.isCallReturn, ih]

theorem blockEdges_eq_map (bs : List (Term Blk)) (k : Nat) :
    blockEdges k bs =
      (List.range bs.length).map
        (fun i => { src := k + 2 * i, dst := k + 2 * i + 1, label := Edge.block }) := by
  induction bs generalizing k with
  | nil => rfl
  | cons b bs ih =>
    simp only [blockEdges, List.length_cons, List.range_succ_eq_map, List.map_cons,
      List.map_map]
    refine List.cons_eq_cons.mpr ⟨by simp, ?_⟩
    rw [ih (k + 2)]
    apply List.map_congr_left
    intro i _
    simp only [Function.comp_apply, Nat.succ_eq_add_one, GEdge.mk.injEq, and_true]
    omega

theorem mem_blockEdges {e : GEdge} {k : Nat} {bs : List (Term Blk)} :
    e ∈ blockEdges k bs ↔
      ∃ i, i < bs.length ∧ e = { src := k + 2 * i, dst := k + 2 * i + 1, label := Edge.block } := by
  rw [blockEdges_eq_map]
  simp only [List.mem_map, List.mem_range]
  constructor
  · rintro ⟨i, hi, rfl⟩; exact ⟨i, hi, rfl⟩
  · rintro ⟨i, hi, rfl⟩; exact ⟨i, hi, rfl⟩

theorem mem_blockTargets {kv : Tid × (Nat × Nat)} {k : Nat} {bs : List (Term Blk)} :
    kv ∈ blockTargets k bs ↔
      ∃ i, ∃ _ : i < bs.length, kv = (bs[i].tid, (k + 2 * i, k + 2 * i + 1)) := by
  induction bs generalizing k with
  | nil => simp [blockTargets]
  | cons b bs ih =>
    simp only [blockTargets, List.mem_cons, ih]
    constructor
    · rintro (rfl | ⟨i, hi, rfl⟩)
      · exact ⟨0, by simp, by simp⟩
      · refine ⟨i + 1, by simpa using Nat.succ_lt_succ hi, ?_⟩
        simp only [List.getElem_cons_succ, Prod.mk.injEq, true_and]
        constructor <;> omega
    · rintro ⟨i, hi, rfl⟩
      cases i with
      | zero => exact Or.inl (by simp)
      | succ j =>
        refine Or.inr ⟨j, by simpa using Nat.lt_of_succ_lt_succ hi, ?_⟩
        simp only [List.getElem_cons_succ, Prod.mk.injEq, true_and]
        constructor <;> omega

/-! ## Phase 2 (`add_subs_to_jump_targets`) lemmas -/

theorem subStep_some_spec {st st' : St} {sub : Term Sub}
    (h : subStep st sub = some st') :
    st'.externSubs = st.externSubs ∧ st'.nodes = st.nodes ∧ st'.edges = st.edges ∧
      st'.returnAddresses = st.returnAddresses ∧
      ((sub.term.blocks = [] ∧ st'.jumpTargets = st.jumpTargets) ∨
        (∃ b rest v, sub.term.blocks = b :: rest ∧ hmGet b.tid st.jumpTargets = some v ∧
          st'.jumpTargets = (sub.tid, v) :: st.jumpTargets)) := by
  cases hb : sub.term.blocks with
  | nil =>
    simp only [subStep, hb, Option.some.injEq] at h
    subst h
    exact ⟨rfl, rfl, rfl, rfl, Or.inl ⟨rfl, rfl⟩⟩
  | cons b rest =>
    simp only [subStep, hb] at h
    cases hg : hmGet b.tid st.jumpTargets with
    | none => rw [hg] at h; simp at h
    | some v =>
      rw [hg] at h
      simp only [Option.some.injEq] at h
      subst h
      exact ⟨rfl, rfl, rfl, rfl, Or.inr ⟨b, rest, v, rfl, hg, rfl⟩⟩

theorem addSubs_fields {p : Term Program} {st st' : St}
    (h : addSubsToJumpTargets p st = some st') :
    st'.externSubs = st.externSubs ∧ st'.nodes = st.nodes ∧ st'.edges = st.edges ∧
      st'.returnAddresses = st.returnAddresses ∧
      ∃ pre, st'.jumpTargets = pre ++ st.jumpTargets ∧
        ∀ kv ∈ pre, ∃ sub ∈ p.term.subs, sub.term.blocks ≠ [] ∧ kv.1 = sub.tid := by
  unfold addSubsToJumpTargets at h
  refine optFold_preserve (P := fun s =>
    s.externSubs = st.externSubs ∧ s.nodes = st.nodes ∧ s.edges = st.edges ∧
      s.returnAddresses = st.returnAddresses ∧
      ∃ pre, s.jumpTargets = pre ++ st.jumpTargets ∧
        ∀ kv ∈ pre, ∃ sub ∈ p.term.subs, sub.term.blocks ≠ [] ∧ kv.1 = sub.tid)
    ?_ h ⟨rfl, rfl, rfl, rfl, [], rfl, by simp⟩
  rintro s sub s' hmem ⟨he, hn, hed, hra, pre, hjt, hpre⟩ hstep
  obtain ⟨he', hn', hed', hra', hcase⟩ := subStep_some_spec hstep
  refine ⟨he' ▸ he, hn' ▸ hn, hed' ▸ hed, hra' ▸ hra, ?_⟩
  rcases hcase with ⟨_, hsame⟩ | ⟨b, rest, v, hblocks, _, hnew⟩
  · exact ⟨pre, hsame ▸ hjt, hpre⟩
  · refine ⟨(sub.tid, v) :: pre, by rw [hnew, hjt]; rfl, ?_⟩
    intro kv hkv
    rcases List.mem_cons.mp hkv with heq | hkv'
    · subst heq
      exact ⟨sub, hmem, by simp [hblocks], rfl⟩
    · exact hpre kv hkv'

/-- All values ever stored in `jump_targets` are `(BlkStart, BlkEnd)` index
pairs of the form `(2i, 2i+1)`. -/
def jtValuesOk (n : Nat) (jt : List (Tid × (Nat × Nat))) : Prop :=
  ∀ kv ∈ jt, ∃ i, i < n ∧ kv.2 = (2 * i, 2 * i + 1)

theorem addSubs_valuesOk {p : Term Program} {st st' : St} {n : Nat}
    (h : addSubsToJumpTargets p st = some st')
    (hv : jtValuesOk n st.jumpTargets) : jtValuesOk n st'.jumpTargets := by
  unfold addSubsToJumpTargets at h
  exact optFold_preserve (P := fun s => jtValuesOk n s.jumpTargets)
    (by
      rintro s sub s' _ hP hstep
      obtain ⟨_, _, _, _, hcase⟩ := subStep_some_spec hstep
      rcases hcase with ⟨_, hsame⟩ | ⟨b, rest, v, _, hg, hnew⟩
      · exact hsame ▸ hP
      · rw [hnew]
        intro kv hkv
        rcases List.mem_cons.mp hkv with heq | hkv'
        · subst heq
          obtain ⟨i, hi, hval⟩ := hP _ (hmGet_mem hg)
          exact ⟨i, hi, hval⟩
        · exact hP kv hkv')
    h hv

theorem addSubs_total {p : Term Program} {st : St}
    (hkeys : ∀ sub ∈ p.term.subs, ∀ b rest, sub.term.blocks = b :: rest →
      ∃ v, (b.tid, v) ∈ st.jumpTargets) :
    ∃ st', addSubsToJumpTargets p st = some st' := by
  unfold addSubsToJumpTargets
  have hstep : ∀ s : St, ∀ sub : Term Sub, sub ∈ p.term.subs →
      (∃ pre, s.jumpTargets = pre ++ st.jumpTargets) →
      ∃ s', subStep s sub = some s' ∧ ∃ pre, s'.jumpTargets = pre ++ st.jumpTargets := by
    rintro s sub hmem ⟨pre, hjt⟩
    cases hb : sub.term.blocks with
    | nil => exact ⟨s, by simp [subStep, hb], pre, hjt⟩
    | cons b rest =>
      obtain ⟨v, hv⟩ := hkeys sub hmem b rest hb
      have hsome : (hmGet b.tid s.jumpTargets).isSome = true := by
        rw [hmGet_isSome_iff]
        exact ⟨v, by rw [hjt]; exact List.mem_append_right _ hv⟩
      obtain ⟨w, hw⟩ := Option.isSome_iff_exists.mp hsome
      refine ⟨{ s with jumpTargets := (sub.tid, w) :: s.jumpTargets }, ?_, ?_⟩
      · simp [subStep, hb, hw]
      · exact ⟨(sub.tid, w) :: pre, by simp [hjt]⟩
  obtain ⟨st', hfold, _⟩ := optFold_total hstep ⟨[], rfl⟩
  exact ⟨st', hfold⟩

theorem addSubs_entry_exists {p : Term Program} {st st' : St} {sub : Term Sub}
    (h : addSubsToJumpTargets p st = some st')
    (hmem : sub ∈ p.term.subs) (hne : sub.term.blocks ≠ []) :
    ∃ v, (sub.tid, v) ∈ st'.jumpTargets := by
  obtain ⟨l1, l2, hsplit⟩ := List.append_of_mem hmem
  unfold addSubsToJumpTargets at h
  rw [hsplit] at h
  obtain ⟨stA, stB, _, hstep, hrest⟩ := optFold_some_decomp h
  obtain ⟨_, _, _, _, hcase⟩ := subStep_some_spec hstep
  rcases hcase with ⟨hnil, _⟩ | ⟨b, rest, v, _, _, hnew⟩
  · exact absurd hnil hne
  · have hard : ∃ pre, st'.jumpTargets = pre ++ stB.jumpTargets := by
      refine optFold_preserve (P := fun s => ∃ pre, s.jumpTargets = pre ++ stB.jumpTargets)
        ?_ hrest ⟨[], rfl⟩
      rintro s sub' s' _ ⟨pre, hjt⟩ hstep'
      obtain ⟨_, _, _, _, hcase'⟩ := subStep_some_spec hstep'
      rcases hcase' with ⟨_, hsame⟩ | ⟨b', rest', v', _, _, hnew'⟩
      · exact ⟨pre, hsame ▸ hjt⟩
      · exact ⟨(sub'.tid, v') :: pre, by simp [hnew', hjt]⟩
    obtain ⟨pre, hpre⟩ := hard
    refine ⟨v, ?_⟩
    rw [hpre, hnew]
    exact List.mem_append_right _ (List.mem_cons_self _ _)

/-! ## The state after Phases 1 and 2 -/

theorem addProgramBlocks_new (p : Term Program) (ext : List Tid) :
    addProgramBlocks p (GraphBuilder.new ext) =
      { externSubs := ext, nodes := blockNodes (allBlocks p),
        edges := blockEdges 0 (allBlocks p),
        jumpTargets := (blockTargets 0 (allBlocks p)).reverse, returnAddresses := [] } := by
  unfold addProgramBlocks GraphBuilder.new
  rw [foldl_addBlock_spec]
  simp

/-- Membership of a block's head in `allBlocks`. -/
theorem firstBlock_mem_allBlocks {p : Term Program} {sub : Term Sub} {b : Term Blk}
    {rest : List (Term Blk)} (hs : sub ∈ p.term.subs) (hb : sub.term.blocks = b :: rest) :
    b ∈ allBlocks p := by
  rw [allBlocks, List.mem_flatMap]
  exact ⟨sub, hs, by rw [hb]; exact List.mem_cons_self _ _⟩

theorem block_mem_allBlocks {p : Term Program} {sub : Term Sub} {b : Term Blk}
    (hs : sub ∈ p.term.subs) (hb : b ∈ sub.term.blocks) : b ∈ allBlocks p := by
  rw [allBlocks, List.mem_flatMap]
  exact ⟨sub, hs, hb⟩

theorem block_entry_mem_jt1 {p : Term Program} {b : Term Blk}
    (hb : b ∈ allBlocks p) :
    ∃ i, i < (allBlocks p).length ∧ (allBlocks p)[i]? = some b ∧
      (b.tid, (2 * i, 2 * i + 1)) ∈ (blockTargets 0 (allBlocks p)).reverse := by
  obtain ⟨i, hi, hget⟩ := List.mem_iff_getElem.mp hb
  refine ⟨i, hi, by rw [List.getElem?_eq_getElem hi, hget], ?_⟩
  rw [List.mem_reverse]
  rw [mem_blockTargets]
  exact ⟨i, hi, by rw [hget]; simp⟩

theorem buildPhase12_isSome (p : Term Program) (ext : List Tid) :
    ∃ st2, buildPhase12 p ext = some st2 := by
  unfold buildPhase12
  rw [addProgramBlocks_new]
  apply addSubs_total
  intro sub hs b rest hb
  obtain ⟨i, _, _, hmem⟩ := block_entry_mem_jt1 (firstBlock_mem_allBlocks hs hb)
  exact ⟨_, hmem⟩

theorem buildPhase12_spec {p : Term Program} {ext : List Tid} {st2 : St}
    (h : buildPhase12 p ext = some st2) :
    st2.externSubs = ext ∧ st2.nodes = blockNodes (allBlocks p) ∧
      st2.edges = blockEdges 0 (allBlocks p) ∧ st2.returnAddresses = [] ∧
      jtValuesOk (allBlocks p).length st2.jumpTargets ∧
      ∃ pre, st2.jumpTargets = pre ++ (blockTargets 0 (allBlocks p)).reverse ∧
        ∀ kv ∈ pre, ∃ sub ∈ p.term.subs, sub.term.blocks ≠ [] ∧ kv.1 = sub.tid := by
  unfold buildPhase12 at h
  rw [addProgramBlocks_new] at h
  obtain ⟨he, hn, hed, hra, pre, hjt, hpre⟩ := addSubs_fields h
  have hv : jtValuesOk (allBlocks p).length st2.jumpTargets := by
    refine addSubs_valuesOk h ?_
    intro kv hkv
    simp only [List.mem_reverse] at hkv
    obtain ⟨i, hi, hkv'⟩ := mem_blockTargets.mp hkv
    exact ⟨i, hi, by rw [hkv']; simp⟩
  exact ⟨he, hn, hed, hra, hv, pre, hjt, hpre⟩

/-- The key set of the jump-target table after Phase 2: all block identifiers
plus the identifiers of subroutines with at least one block. -/
def jumpTableKeys (p : Term Program) : List Tid :=
  ((allBlocks p).map (fun b => b.tid)) ++
    ((p.term.subs.filter (fun s => !s.term.blocks.isEmpty)).map (fun s => s.tid))

theorem buildPhase12_keys {p : Term Program} {ext : List Tid} {st2 : St}
    (h : buildPhase12 p ext = some st2) (t : Tid) :
    (hmGet t st2.jumpTargets).isSome = true ↔ t ∈ jumpTableKeys p := by
  obtain ⟨_, _, _, _, _, pre, hjt, hpre⟩ := buildPhase12_spec h
  constructor
  · intro hs
    obtain ⟨v, hv⟩ := hmGet_isSome_iff.mp hs
    rw [hjt] at hv
    rcases List.mem_append.mp hv with hv | hv
    · obtain ⟨sub, hsub, hne, htid⟩ := hpre _ hv
      refine List.mem_append_right _ ?_
      rw [List.mem_map]
      refine ⟨sub, ?_, htid.symm⟩
      rw [List.mem_filter]
      exact ⟨hsub, by simpa using hne⟩
    · rw [List.mem_reverse] at hv
      obtain ⟨i, hi, hkv⟩ := mem_blockTargets.mp hv
      refine List.mem_append_left _ ?_
      rw [List.mem_map]
      exact ⟨(allBlocks p)[i], List.getElem_mem hi, by
        have := congrArg Prod.fst hkv
        simpa using this.symm⟩
  · intro hk
    rw [hmGet_isSome_iff]
    rcases List.mem_append.mp hk with hk | hk
    · obtain ⟨b, hb, htid⟩ := List.mem_map.mp hk
      obtain ⟨i, _, _, hmem⟩ := block_entry_mem_jt1 hb
      refine ⟨(2 * i, 2 * i + 1), ?_⟩
      rw [hjt]
      exact List.mem_append_right _ (htid ▸ hmem)
    · obtain ⟨sub, hsub, htid⟩ := List.mem_map.mp hk
      rw [List.mem_filter] at hsub
      have h' : addSubsToJumpTargets p (addProgramBlocks p (GraphBuilder.new ext)) =
          some st2 := h
      obtain ⟨v, hv⟩ := addSubs_entry_exists h' hsub.1 (by simpa using hsub.2)
      exact ⟨v, htid ▸ hv⟩

/-! ## Identifier uniqueness (the upstream contract that all `Tid`s are
globally unique) and its consequences -/

/-- The identifiers of all subroutines and all blocks. -/
def subBlockTids (p : Term Program) : List Tid :=
  p.term.subs.flatMap (fun sub => sub.tid :: sub.term.blocks.map (fun b => b.tid))

/-- The identifiers of all subroutines, blocks and jump terms. -/
def allTids (p : Term Program) : List Tid :=
  p.term.subs.flatMap (fun sub =>
    sub.tid :: sub.term.blocks.flatMap (fun b => b.tid :: b.term.jmps.map (fun j => j.tid)))

theorem subBlockTids_sublist_allTids (p : Term Program) :
    (subBlockTids p).Sublist (allTids p) := by
  have hone : ∀ bl : List (Term Blk),
      (bl.map (fun b => b.tid)).Sublist
        (bl.flatMap (fun b => b.tid :: b.term.jmps.map (fun j => j.tid))) := by
    intro bl
    induction bl with
    | nil => exact List.Sublist.refl _
    | cons b bl ihb =>
      simp only [List.map_cons, List.flatMap_cons, List.cons_append]
      rw [List.cons_sublist_cons]
      exact ihb.trans (List.sublist_append_right _ _)
  unfold subBlockTids allTids
  induction p.term.subs with
  | nil => exact List.Sublist.refl _
  | cons sub rest ih =>
    simp only [List.flatMap_cons]
    refine List.Sublist.append ?_ ih
    rw [List.cons_sublist_cons]
    exact hone sub.term.blocks

theorem nodup_subTids {p : Term Program} (hnd : (subBlockTids p).Nodup) :
    (p.term.subs.map (fun s => s.tid)).Nodup := by
  have hpw := (List.nodup_flatMap.mp hnd).2
  have : List.Pairwise (fun a b : Term Sub => a.tid ≠ b.tid) p.term.subs := by
    refine hpw.imp ?_
    intro a b hdj heq
    exact hdj (List.mem_cons_self _ _) (heq ▸ List.mem_cons_self _ _)
  exact List.Pairwise.map _ (fun a b h => h) this

theorem nodup_blockTids {p : Term Program} (hnd : (subBlockTids p).Nodup) :
    ((allBlocks p).map (fun b => b.tid)).Nodup := by
  obtain ⟨hchunks, hpw⟩ := List.nodup_flatMap.mp hnd
  rw [allBlocks, List.map_flatMap]
  rw [List.nodup_flatMap]
  constructor
  · intro sub hs
    exact (hchunks sub hs).of_cons
  · refine hpw.imp ?_
    intro a b hdj x hxa hxb
    exact hdj (List.mem_cons_of_mem _ hxa) (List.mem_cons_of_mem _ hxb)

theorem subTid_ne_blockTid {p : Term Program} (hnd : (subBlockTids p).Nodup)
    {sub : Term Sub} {b : Term Blk}
    (hs : sub ∈ p.term.subs) (hb : b ∈ allBlocks p) : sub.tid ≠ b.tid := by
  obtain ⟨hchunks, hpw⟩ := List.nodup_flatMap.mp hnd
  rw [allBlocks, List.mem_flatMap] at hb
  obtain ⟨sub', hs', hb'⟩ := hb
  rcases eq_or_ne sub sub' with rfl | hne
  · have := hchunks sub hs
    rw [List.nodup_cons] at this
    intro heq
    exact this.1 (heq ▸ List.mem_map_of_mem _ hb')
  · have hdj := List.Pairwise.forall
      (R := fun a b : Term Sub =>
        List.Disjoint (a.tid :: a.term.blocks.map (fun x => x.tid))
          (b.tid :: b.term.blocks.map (fun x => x.tid)))
      (fun a b h => List.disjoint_comm.mp h) hpw hs hs' hne
    intro heq
    exact hdj (List.mem_cons_self _ _)
      (heq ▸ List.mem_cons_of_mem _ (List.mem_map_of_mem _ hb'))

/-! ## Phase-2 lookup characterization (under unique identifiers) -/

theorem addSubs_lookup_spec {subs : List (Term Sub)} {st : St}
    (hkeys : ∀ sub ∈ subs, ∀ b rest, sub.term.blocks = b :: rest →
      (hmGet b.tid st.jumpTargets).isSome = true)
    (hnodup : (subs.map (fun s => s.tid)).Nodup)
    (hdisj : ∀ sub ∈ subs, ∀ kv ∈ st.jumpTargets, sub.tid ≠ kv.1)
    (hcross : ∀ sub ∈ subs, ∀ sub' ∈ subs, ∀ b rest,
      sub'.term.blocks = b :: rest → sub.tid ≠ b.tid) :
    ∃ st', optFold subStep st subs = some st' ∧
      (∀ sub ∈ subs, ∀ b rest, sub.term.blocks = b :: rest →
        hmGet sub.tid st'.jumpTargets = hmGet b.tid st.jumpTargets ∧
        hmGet b.tid st'.jumpTargets = hmGet b.tid st.jumpTargets) ∧
      (∀ sub ∈ subs, sub.term.blocks = [] →
        hmGet sub.tid st'.jumpTargets = none) := by
  induction subs generalizing st with
  | nil =>
    refine ⟨st, rfl, by simp, ?_⟩
    intro sub hs
    exact absurd hs (List.not_mem_nil _)
  | cons sub rest ih =>
    have hsubtid_rest : ∀ s ∈ rest, s.tid ≠ sub.tid := by
      intro s hs heq
      rw [List.map_cons, List.nodup_cons] at hnodup
      exact hnodup.1 (heq ▸ List.mem_map_of_mem _ hs)
    cases hb : sub.term.blocks with
    | nil =>
      obtain ⟨st', hfold, hlook, hzero⟩ := ih
        (fun s hs => hkeys s (List.mem_cons_of_mem _ hs))
        (by rw [List.map_cons] at hnodup; exact hnodup.of_cons)
        (fun s hs => hdisj s (List.mem_cons_of_mem _ hs))
        (fun s hs s' hs' => hcross s (List.mem_cons_of_mem _ hs) s'
          (List.mem_cons_of_mem _ hs'))
      refine ⟨st', by simp only [optFold, subStep, hb]; exact hfold, ?_, ?_⟩
      · intro s hs b rst hbs
        rcases List.mem_cons.mp hs with rfl | hs'
        · rw [hb] at hbs; exact absurd hbs (by simp)
        · exact hlook s hs' b rst hbs
      · intro s hs hbs
        rcases List.mem_cons.mp hs with rfl | hs'
        · -- the sub with no blocks: its tid is not a key anywhere
          have hgrow : ∃ pre, st'.jumpTargets = pre ++ st.jumpTargets ∧
              ∀ kv ∈ pre, ∃ s' ∈ rest, s'.term.blocks ≠ [] ∧ kv.1 = s'.tid := by
            refine optFold_preserve (P := fun s2 => ∃ pre,
              s2.jumpTargets = pre ++ st.jumpTargets ∧
                ∀ kv ∈ pre, ∃ s' ∈ rest, s'.term.blocks ≠ [] ∧ kv.1 = s'.tid)
              ?_ hfold ⟨[], rfl, by simp⟩
            rintro s1 x s2 hx ⟨pre, hjt, hpre⟩ hstep
            obtain ⟨_, _, _, _, hcase⟩ := subStep_some_spec hstep
            rcases hcase with ⟨_, hsame⟩ | ⟨b', rest', v', hblocks, _, hnew⟩
            · exact ⟨pre, hsame ▸ hjt, hpre⟩
            · refine ⟨(x.tid, v') :: pre, by simp [hnew, hjt], ?_⟩
              intro kv hkv
              rcases List.mem_cons.mp hkv with heq | hkv'
              · subst heq
                exact ⟨x, hx, by simp [hblocks], rfl⟩
              · exact hpre kv hkv'
          obtain ⟨pre, hjt, hpre⟩ := hgrow
          rw [hjt, hmGet_append]
          have h1 : hmGet s.tid pre = none := by
            rw [hmGet_eq_none_iff]
            intro v hv
            obtain ⟨s', hs', _, htid⟩ := hpre _ hv
            exact hsubtid_rest s' hs' htid.symm
          have h2 : hmGet s.tid st.jumpTargets = none := by
            rw [hmGet_eq_none_iff]
            intro v hv
            exact hdisj s (List.mem_cons_self _ _) _ hv rfl
          rw [h1, h2, Option.none_or]
        · exact hzero s hs' hbs
    | cons b0 rest0 =>
      have hsome := hkeys sub (List.mem_cons_self _ _) b0 rest0 hb
      obtain ⟨v, hv⟩ := Option.isSome_iff_exists.mp hsome
      set st1 : St := { st with jumpTargets := (sub.tid, v) :: st.jumpTargets } with hst1
      have hkeys1 : ∀ s ∈ rest, ∀ b rst, s.term.blocks = b :: rst →
          (hmGet b.tid st1.jumpTargets).isSome = true := by
        intro s hs b rst hbs
        have := hkeys s (List.mem_cons_of_mem _ hs) b rst hbs
        rw [hst1]
        simp only [hmGet_cons]
        split
        · simp
        · exact this
      obtain ⟨st', hfold, hlook, hzero⟩ := @ih st1 hkeys1
        (by rw [List.map_cons] at hnodup; exact hnodup.of_cons)
        (by
          intro s hs kv hkv
          rw [hst1] at hkv
          rcases List.mem_cons.mp hkv with heq | hkv'
          · subst heq
            exact hsubtid_rest s hs
          · exact hdisj s (List.mem_cons_of_mem _ hs) kv hkv')
        (fun s hs s' hs' => hcross s (List.mem_cons_of_mem _ hs) s'
          (List.mem_cons_of_mem _ hs'))
      have hgrow : ∃ pre, st'.jumpTargets = pre ++ st1.jumpTargets ∧
          ∀ kv ∈ pre, ∃ s' ∈ rest, s'.term.blocks ≠ [] ∧ kv.1 = s'.tid := by
        refine optFold_preserve (P := fun s2 => ∃ pre,
          s2.jumpTargets = pre ++ st1.jumpTargets ∧
            ∀ kv ∈ pre, ∃ s' ∈ rest, s'.term.blocks ≠ [] ∧ kv.1 = s'.tid)
          ?_ hfold ⟨[], rfl, by simp⟩
        rintro s1 x s2 hx ⟨pre, hjt, hpre⟩ hstep
        obtain ⟨_, _, _, _, hcase⟩ := subStep_some_spec hstep
        rcases hcase with ⟨_, hsame⟩ | ⟨b', rest', v', hblocks, _, hnew⟩
        · exact ⟨pre, hsame ▸ hjt, hpre⟩
        · refine ⟨(x.tid, v') :: pre, by simp [hnew, hjt], ?_⟩
          intro kv hkv
          rcases List.mem_cons.mp hkv with heq | hkv'
          · subst heq
            exact ⟨x, hx, by simp [hblocks], rfl⟩
          · exact hpre kv hkv'
      obtain ⟨pre, hjt, hpre⟩ := hgrow
      refine ⟨st', ?_, ?_, ?_⟩
      · simp only [optFold, subStep, hb, hv]
        exact hfold
      · intro s hs b rst hbs
        rcases List.mem_cons.mp hs with rfl | hs'
        · -- the head sub itself
          rw [hb] at hbs
          obtain ⟨rfl, rfl⟩ : b0 = b ∧ rest0 = rst := by
            exact ⟨(List.cons_eq_cons.mp hbs).1, (List.cons_eq_cons.mp hbs).2⟩
          have h1 : hmGet s.tid pre = none := by
            rw [hmGet_eq_none_iff]
            intro w hw
            obtain ⟨s', hs', _, htid⟩ := hpre _ hw
            exact hsubtid_rest s' hs' htid.symm
          have hbtid : ∀ s' ∈ s :: rest, s'.tid ≠ b0.tid := by
            intro s' hs'
            exact hcross s' hs' s (List.mem_cons_self _ _) b0 rest0 hb
          have h2 : hmGet b0.tid pre = none := by
            rw [hmGet_eq_none_iff]
            intro w hw
            obtain ⟨s', hs', _, htid⟩ := hpre _ hw
            exact hbtid s' (List.mem_cons_of_mem _ hs') htid.symm
          constructor
          · rw [hjt, hmGet_append, h1, Option.none_or, hst1]
            simp only [hmGet_cons, if_pos rfl]
            exact hv.symm
          · rw [hjt, hmGet_append, h2, Option.none_or, hst1]
            simp only [hmGet_cons]
            rw [if_neg (hbtid s (List.mem_cons_self _ _))]
        · -- a later sub: reduce the st1-relative answer to st
          have hres := hlook s hs' b rst hbs
          have hb_st1 : hmGet b.tid st1.jumpTargets = hmGet b.tid st.jumpTargets := by
            rw [hst1]
            simp only [hmGet_cons]
            rw [if_neg (hcross sub (List.mem_cons_self _ _) s
              (List.mem_cons_of_mem _ hs') b rst hbs)]
          exact ⟨hres.1.trans hb_st1, hres.2.trans hb_st1⟩
      · intro s hs hbs
        rcases List.mem_cons.mp hs with rfl | hs'
        · rw [hb] at hbs; exact absurd hbs (by simp)
        · exact hzero s hs' hbs

/-! ## Claim C7 -/

/-- C7: For every subroutine with at least one block, the subroutine's
identifier resolves in the jump-target table to exactly the same
(BlkStart, BlkEnd) node pair as the identifier of its first block; a
subroutine with zero blocks has no entry in the table and causes no failure
(Phase 2 completes). -/
theorem C7_sub_alias_first_block (p : Term Program) (ext : List Tid)
    (hnd : (subBlockTids p).Nodup) :
    ∃ st2, buildPhase12 p ext = some st2 ∧
      (∀ sub ∈ p.term.subs, ∀ b rest, sub.term.blocks = b :: rest →
        hmGet sub.tid st2.jumpTargets = hmGet b.tid st2.jumpTargets ∧
        (hmGet sub.tid st2.jumpTargets).isSome = true) ∧
      (∀ sub ∈ p.term.subs, sub.term.blocks = [] →
        hmGet sub.tid st2.jumpTargets = none) := by
  set st1 : St :=
    { externSubs := ext, nodes := blockNodes (allBlocks p),
      edges := blockEdges 0 (allBlocks p),
      jumpTargets := (blockTargets 0 (allBlocks p)).reverse,
      returnAddresses := [] } with hst1
  have hkeys : ∀ sub ∈ p.term.subs, ∀ b rest, sub.term.blocks = b :: rest →
      (hmGet b.tid st1.jumpTargets).isSome = true := by
    intro sub hs b rest hb
    obtain ⟨i, _, _, hmem⟩ := block_entry_mem_jt1 (firstBlock_mem_allBlocks hs hb)
    exact hmGet_isSome_iff.mpr ⟨_, hmem⟩
  have hdisj : ∀ sub ∈ p.term.subs, ∀ kv ∈ st1.jumpTargets, sub.tid ≠ kv.1 := by
    intro sub hs kv hkv
    rw [hst1] at hkv
    simp only [List.mem_reverse] at hkv
    obtain ⟨i, hi, hkv'⟩ := mem_blockTargets.mp hkv
    have hfst : kv.1 = (allBlocks p)[i].tid := by rw [hkv']
    rw [hfst]
    exact subTid_ne_blockTid hnd hs (List.getElem_mem hi)
  have hcross : ∀ sub ∈ p.term.subs, ∀ sub' ∈ p.term.subs, ∀ b rest,
      sub'.term.blocks = b :: rest → sub.tid ≠ b.tid :=
    fun sub hs sub' hs' b rest hb =>
      subTid_ne_blockTid hnd hs (firstBlock_mem_allBlocks hs' hb)
  obtain ⟨st2, hfold, hlook, hzero⟩ :=
    addSubs_lookup_spec hkeys (nodup_subTids hnd) hdisj hcross
  refine ⟨st2, ?_, ?_, hzero⟩
  · unfold buildPhase12 addSubsToJumpTargets
    rw [addProgramBlocks_new]
    exact hfold
  · intro sub hs b rest hb
    obtain ⟨h1, h2⟩ := hlook sub hs b rest hb
    refine ⟨h1.trans h2.symm, ?_⟩
    rw [h1]
    exact hkeys sub hs b rest hb

/-- Witness for C7 at the mock program. -/
theorem C7_sub_alias_first_block_witness :
    ∃ st2, buildPhase12 mockProgram [] = some st2 ∧
      (∀ sub ∈ mockProgram.term.subs, ∀ b rest, sub.term.blocks = b :: rest →
        hmGet sub.tid st2.jumpTargets = hmGet b.tid st2.jumpTargets ∧
        (hmGet sub.tid st2.jumpTargets).isSome = true) ∧
      (∀ sub ∈ mockProgram.term.subs, sub.term.blocks = [] →
        hmGet sub.tid st2.jumpTargets = none) :=
  C7_sub_alias_first_block mockProgram [] (by decide)

/-! ## Claim C2 -/

def tidDangling : Tid := "nowhere"
def tidC2Sub : Tid := "c2sub"
def tidC2Blk : Tid := "c2blk"
def tidC2Goto : Tid := "c2goto"

def c2GotoTerm : Term Jmp :=
  { tid := tidC2Goto,
    term := { condition := none, kind := JmpKind.goto (Label.direct tidDangling) } }

def c2Blk : Term Blk :=
  { tid := tidC2Blk, term := { defs := [], jmps := [c2GotoTerm] } }

def c2Sub : Term Sub :=
  { tid := tidC2Sub, term := { name := "c2sub", blocks := [c2Blk] } }

def c2Program : Term Program :=
  { tid := "c2program",
    term := { subs := [c2Sub], extern_symbols := [], entry_points := [] } }

/-- C2 counterexample: a program containing a direct goto whose target
identifier is not a key of the jump-target table.  The claim says
construction does not abort and merely omits the edge; in fact the `HashMap`
indexing panics, i.e. the build returns no graph at all. -/
theorem C2_counterexample :
    c2GotoTerm ∈ c2Blk.term.jmps ∧
      c2GotoTerm.term.kind = JmpKind.goto (Label.direct tidDangling) ∧
      tidDangling ∉ jumpTableKeys c2Program ∧
      get_program_cfg c2Program [] = none := by
  decide

/-- C2 amended: a dangling direct goto target aborts the build; a direct call
whose direct return label is dangling aborts the build; only a dangling direct
in-program call target is tolerated, with the `Call` edge silently omitted
(and the return pair still recorded when the return label resolves). -/
theorem C2_amended_dangling_behaviour :
    (∀ (st : St) (source : Nat) (j : Term Jmp) (u : Option (Term Jmp)) (t : Tid),
      j.term.kind = JmpKind.goto (Label.direct t) →
      hmGet t st.jumpTargets = none →
      addJumpEdge st source j u = none) ∧
    (∀ (st : St) (source : Nat) (j : Term Jmp) (u : Option (Term Jmp))
        (c : Call) (t r : Tid),
      j.term.kind = JmpKind.call c →
      c.target = Label.direct t →
      c.return_ = some (Label.direct r) →
      hmGet r st.jumpTargets = none →
      addJumpEdge st source j u = none) ∧
    (∀ (st : St) (source : Nat) (j : Term Jmp) (u : Option (Term Jmp))
        (c : Call) (t : Tid),
      j.term.kind = JmpKind.call c →
      c.target = Label.direct t →
      st.externSubs.contains t = false →
      hmGet t st.jumpTargets = none →
      c.return_ = none →
      addJumpEdge st source j u = some st) := by
  refine ⟨?_, ?_, ?_⟩
  · intro st source j u t hk hmiss
    simp [addJumpEdge, hk, hmiss]
  · intro st source j u c t r hk ht hr hmiss
    simp only [addJumpEdge, hk, ht, hr]
    by_cases hext : st.externSubs.contains t
    all_goals
      simp [hext, hmiss]
    all_goals
      try intro hmem
    all_goals
      try (cases hg : hmGet t st.jumpTargets <;> simp [hg, hmiss])
  · intro st source j u c t hk ht hext hmiss hr
    simp [addJumpEdge, hk, ht, hext, hmiss, hr]

/-- Witness for the amended C2 at concrete inputs: a dangling goto target and
a dangling call-return label abort, a dangling in-program call target without
a return label is tolerated. -/
theorem C2_amended_dangling_behaviour_witness :
    addJumpEdge (GraphBuilder.new []) 1 c2GotoTerm none = none ∧
      addJumpEdge (GraphBuilder.new []) 1 mockCallTerm none = none ∧
      addJumpEdge (GraphBuilder.new []) 1
        { tid := "c2w",
          term := { condition := none,
                    kind := JmpKind.call { target := Label.direct "c2wtgt",
                                           return_ := none } } }
        none = some (GraphBuilder.new []) :=
  ⟨C2_amended_dangling_behaviour.1 (GraphBuilder.new []) 1 c2GotoTerm none
      tidDangling (by decide) (by decide),
   C2_amended_dangling_behaviour.2.1 (GraphBuilder.new []) 1 mockCallTerm none
      { target := Label.direct tidSub2,
        return_ := some (Label.direct tidSub1Blk2) }
      tidSub2 tidSub1Blk2 (by decide) (by decide) (by decide) (by decide),
   C2_amended_dangling_behaviour.2.2 (GraphBuilder.new []) 1
      { tid := "c2w",
        term := { condition := none,
                  kind := JmpKind.call { target := Label.direct "c2wtgt",
                                         return_ := none } } }
      none
      { target := Label.direct "c2wtgt", return_ := none } "c2wtgt"
      (by decide) (by decide) (by decide) (by decide) (by decide)⟩

/-! ## Claim C6 -/

/-- C6: for a direct in-program call whose target identifier is absent from
the jump-target table, no edge is added at all (in particular no `Call`
edge), but when the call has a direct return label that resolves, the
(callsite, return-target) pair is still recorded under the target
identifier. -/
theorem C6_dangling_call_target_still_records
    (st : St) (source : Nat) (j : Term Jmp) (u : Option (Term Jmp))
    (c : Call) (t r : Tid) (pr : Nat × Nat)
    (hk : j.term.kind = JmpKind.call c) (ht : c.target = Label.direct t)
    (hext : st.externSubs.contains t = false)
    (hmiss : hmGet t st.jumpTargets = none)
    (hr : c.return_ = some (Label.direct r))
    (hrt : hmGet r st.jumpTargets = some pr) :
    ∃ st', addJumpEdge st source j u = some st' ∧
      st'.edges = st.edges ∧ st'.nodes = st.nodes ∧
      st'.jumpTargets = st.jumpTargets ∧
      hmGet t st'.returnAddresses =
        some (((hmGet t st.returnAddresses).getD []) ++ [(source, pr.1)]) ∧
      (∀ t', t' ≠ t → hmGet t' st'.returnAddresses = hmGet t' st.returnAddresses) := by
  have hnotmem : t ∉ st.externSubs := by simpa using hext
  have hstep : addJumpEdge st source j u =
      some { st with
        returnAddresses := pushReturnAddress t (source, pr.1) st.returnAddresses } := by
    simp [addJumpEdge, hk, ht, hnotmem, hmiss, hr, hrt]
  refine ⟨_, hstep, rfl, rfl, rfl, ?_, ?_⟩
  · simp only [pushReturnAddress]
    cases hra : hmGet t st.returnAddresses with
    | none => simp [hmGet_cons]
    | some v => simp [hmGet_cons]
  · intro t' hne
    simp only [pushReturnAddress]
    cases hra : hmGet t st.returnAddresses with
    | none =>
      rw [hmGet_cons, if_neg (fun h => hne h.symm)]
    | some v =>
      rw [hmGet_cons, if_neg (fun h => hne h.symm)]

/-- Witness for C6 on a concrete state. -/
theorem C6_dangling_call_target_still_records_witness :
    ∃ st', addJumpEdge
        { externSubs := [], nodes := [Node.blkStart mockSub1Blk2, Node.blkEnd mockSub1Blk2],
          edges := [], jumpTargets := [(tidSub1Blk2, (0, 1))], returnAddresses := [] }
        7 mockCallTerm none = some st' ∧
      st'.edges = [] ∧ st'.nodes = [Node.blkStart mockSub1Blk2, Node.blkEnd mockSub1Blk2] ∧
      st'.jumpTargets = [(tidSub1Blk2, (0, 1))] ∧
      hmGet tidSub2 st'.returnAddresses = some ([] ++ [(7, 0)]) ∧
      (∀ t', t' ≠ tidSub2 → hmGet t' st'.returnAddresses = hmGet t' ([] :
        List (Tid × List (Nat × Nat)))) := by
  have h := C6_dangling_call_target_still_records
    { externSubs := [], nodes := [Node.blkStart mockSub1Blk2, Node.blkEnd mockSub1Blk2],
      edges := [], jumpTargets := [(tidSub1Blk2, (0, 1))], returnAddresses := [] }
    7 mockCallTerm none
    { target := Label.direct tidSub2, return_ := some (Label.direct tidSub1Blk2) }
    tidSub2 tidSub1Blk2 (0, 1) (by decide) (by decide) (by decide) (by decide)
    (by decide) (by decide)
  exact h

/-! ## Phase-3 invariant machinery -/

/-- The position of a jump inside its block's jump list, together with the
untaken-conditional reference it is emitted with (the content of claim C4):
a single jump or the first of two jumps carries no reference, the second of
two jumps carries the first. -/
def C4shape (b : Term Blk) (j : Term Jmp) (u : Option (Term Jmp)) : Prop :=
  (b.term.jmps = [j] ∧ u = none) ∨
    (∃ j2, b.term.jmps = [j, j2] ∧ u = none) ∨
    (∃ j1, b.term.jmps = [j1, j] ∧ u = some j1)

theorem C4shape_mem {b : Term Blk} {j : Term Jmp} {u : Option (Term Jmp)}
    (h : C4shape b j u) : j ∈ b.term.jmps := by
  rcases h with ⟨hj, _⟩ | ⟨j2, hj, _⟩ | ⟨j1, hj, _⟩ <;> rw [hj] <;> simp

/-- Everything Phase 3 guarantees about one emitted (non-`Block`) edge. -/
def EmitOk (bs : List (Term Blk)) (jt : List (Tid × (Nat × Nat))) (ext : List Tid)
    (e : GEdge) : Prop :=
  ∃ i, ∃ hi : i < bs.length, e.src = 2 * i + 1 ∧
    ((∃ j uu t prr, e.label = Edge.jump j uu ∧
        j.term.kind = JmpKind.goto (Label.direct t) ∧
        hmGet t jt = some prr ∧ e.dst = prr.1 ∧ C4shape bs[i] j uu) ∨
     (∃ j cc t prr, e.label = Edge.call j ∧ j ∈ bs[i].term.jmps ∧
        j.term.kind = JmpKind.call cc ∧ cc.target = Label.direct t ∧
        ext.contains t = false ∧ hmGet t jt = some prr ∧ e.dst = prr.1) ∨
     (∃ j cc t r prr, e.label = Edge.externCallStub j ∧ j ∈ bs[i].term.jmps ∧
        j.term.kind = JmpKind.call cc ∧ cc.target = Label.direct t ∧
        ext.contains t = true ∧ cc.return_ = some (Label.direct r) ∧
        hmGet r jt = some prr ∧ e.dst = prr.1))

/-- Everything Phase 3 guarantees about one recorded
(callsite, return-target) pair stored under key `t`. -/
def raPairOk (bs : List (Term Blk)) (ext : List Tid) (t : Tid) (pr : Nat × Nat) : Prop :=
  (∃ k, ∃ hk : k < bs.length, pr.1 = 2 * k + 1 ∧
     ∃ j ∈ bs[k].term.jmps, ∃ cc, j.term.kind = JmpKind.call cc ∧
       cc.target = Label.direct t ∧ ext.contains t = false ∧
       ∃ r, cc.return_ = some (Label.direct r)) ∧
  (∃ m, m < bs.length ∧ pr.2 = 2 * m)

def raOk (bs : List (Term Blk)) (ext : List Tid)
    (ra : List (Tid × List (Nat × Nat))) : Prop :=
  ∀ kv ∈ ra, ∀ pr ∈ kv.2, raPairOk bs ext kv.1 pr

/-- The invariant maintained throughout Phase 3. -/
structure P3Inv (bs : List (Term Blk)) (jt : List (Tid × (Nat × Nat))) (ext : List Tid)
    (st : St) : Prop where
  nodes_eq : st.nodes = blockNodes bs
  jt_eq : st.jumpTargets = jt
  ext_eq : st.externSubs = ext
  edges_shape : ∃ extra, st.edges = blockEdges 0 bs ++ extra ∧
    ∀ e ∈ extra, EmitOk bs jt ext e
  ra_ok : raOk bs ext st.returnAddresses

theorem pushReturnAddress_raOk {bs : List (Term Blk)} {ext : List Tid}
    {ra : List (Tid × List (Nat × Nat))} {t : Tid} {pr : Nat × Nat}
    (hra : raOk bs ext ra) (hnew : raPairOk bs ext t pr) :
    raOk bs ext (pushReturnAddress t pr ra) := by
  unfold pushReturnAddress
  cases hg : hmGet t ra with
  | none =>
    intro kv hkv
    rcases List.mem_cons.mp hkv with heq | hkv'
    · subst heq
      intro q hq
      rcases List.mem_singleton.mp hq with rfl
      exact hnew
    · exact hra kv hkv'
  | some v =>
    intro kv hkv
    rcases List.mem_cons.mp hkv with heq | hkv'
    · subst heq
      intro q hq
      rcases List.mem_append.mp hq with hq' | hq'
      · exact hra (t, v) (hmGet_mem hg) q hq'
      · rcases List.mem_singleton.mp hq' with rfl
        exact hnew
    · exact hra kv hkv'

theorem addJumpEdge_P3 {bs : List (Term Blk)} {jt : List (Tid × (Nat × Nat))}
    {ext : List Tid} {st st' : St} {i : Nat} (hi : i < bs.length)
    {j : Term Jmp} {u : Option (Term Jmp)}
    (hjt : jtValuesOk bs.length jt)
    (hinv : P3Inv bs jt ext st)
    (hC4 : C4shape bs[i] j u)
    (hstep : addJumpEdge st (2 * i + 1) j u = some st') :
    P3Inv bs jt ext st' := by
  obtain ⟨hnodes, hjteq, hexteq, ⟨extra, hedges, hemit⟩, hra⟩ := hinv
  cases hk : j.term.kind with
  | goto lbl =>
    cases lbl with
    | direct t =>
      simp only [addJumpEdge, hk, hjteq] at hstep
      cases hg : hmGet t jt with
      | none => rw [hg] at hstep; simp at hstep
      | some prr =>
        rw [hg] at hstep
        simp only [Option.some.injEq] at hstep
        subst hstep
        refine ⟨hnodes, rfl, hexteq, ?_, hra⟩
        refine ⟨extra ++ [{ src := 2 * i + 1, dst := prr.1, label := Edge.jump j u }],
          by simp only [hedges]; simp, ?_⟩
        intro e he
        rcases List.mem_append.mp he with he' | he'
        · exact hemit e he'
        · rcases List.mem_singleton.mp he' with rfl
          exact ⟨i, hi, rfl, Or.inl ⟨j, u, t, prr, rfl, hk, hg, rfl, hC4⟩⟩
    | indirect exp =>
      simp only [addJumpEdge, hk, Option.some.injEq] at hstep
      subst hstep
      exact ⟨hnodes, hjteq, hexteq, ⟨extra, hedges, hemit⟩, hra⟩
  | call c =>
    cases htg : c.target with
    | direct t =>
      simp only [addJumpEdge, hk, htg] at hstep
      by_cases hext : st.externSubs.contains t = true
      · rw [if_pos hext] at hstep
        cases hret : c.return_ with
        | none =>
          simp only [hret, Option.some.injEq] at hstep
          subst hstep
          exact ⟨hnodes, hjteq, hexteq, ⟨extra, hedges, hemit⟩, hra⟩
        | some rl =>
          cases rl with
          | direct r =>
            simp only [hret, hjteq] at hstep
            cases hg : hmGet r jt with
            | none => rw [hg] at hstep; simp at hstep
            | some prr =>
              rw [hg] at hstep
              simp only [Option.some.injEq] at hstep
              subst hstep
              refine ⟨hnodes, rfl, hexteq, ?_, hra⟩
              refine ⟨extra ++
                [{ src := 2 * i + 1, dst := prr.1, label := Edge.externCallStub j }],
                by simp only [hedges]; simp, ?_⟩
              intro e he
              rcases List.mem_append.mp he with he' | he'
              · exact hemit e he'
              · rcases List.mem_singleton.mp he' with rfl
                refine ⟨i, hi, rfl, Or.inr (Or.inr
                  ⟨j, c, t, r, prr, rfl, C4shape_mem hC4, hk, htg, ?_, hret, hg, rfl⟩)⟩
                rw [← hexteq]
                exact hext
          | indirect exp =>
            simp only [hret, Option.some.injEq] at hstep
            subst hstep
            exact ⟨hnodes, hjteq, hexteq, ⟨extra, hedges, hemit⟩, hra⟩
      · rw [if_neg hext] at hstep
        rw [Bool.not_eq_true] at hext
        cases hg : hmGet t jt with
        | some prr =>
          -- a Call edge is emitted first
          simp only [hjteq, hg] at hstep
          have hcallOk : EmitOk bs jt ext
              { src := 2 * i + 1, dst := prr.1, label := Edge.call j } := by
            refine ⟨i, hi, rfl, Or.inr (Or.inl
              ⟨j, c, t, prr, rfl, C4shape_mem hC4, hk, htg, ?_, hg, rfl⟩)⟩
            rw [← hexteq]; exact hext
          cases hret : c.return_ with
          | none =>
            simp only [hret, Option.some.injEq] at hstep
            subst hstep
            refine ⟨hnodes, rfl, hexteq, ?_, hra⟩
            refine ⟨extra ++ [{ src := 2 * i + 1, dst := prr.1, label := Edge.call j }],
              by simp only [hedges]; simp, ?_⟩
            intro e he
            rcases List.mem_append.mp he with he' | he'
            · exact hemit e he'
            · rcases List.mem_singleton.mp he' with rfl
              exact hcallOk
          | some rl =>
            cases rl with
            | direct r =>
              simp only [hret] at hstep
              cases hg2 : hmGet r jt with
              | none => rw [hg2] at hstep; simp at hstep
              | some prr2 =>
                rw [hg2] at hstep
                simp only [Option.some.injEq] at hstep
                subst hstep
                refine ⟨hnodes, rfl, hexteq, ?_, ?_⟩
                · refine ⟨extra ++
                    [{ src := 2 * i + 1, dst := prr.1, label := Edge.call j }],
                    by simp only [hedges]; simp, ?_⟩
                  intro e he
                  rcases List.mem_append.mp he with he' | he'
                  · exact hemit e he'
                  · rcases List.mem_singleton.mp he' with rfl
                    exact hcallOk
                · refine pushReturnAddress_raOk hra ?_
                  constructor
                  · refine ⟨i, hi, rfl, j, C4shape_mem hC4, c, hk, htg, ?_, r, hret⟩
                    rw [← hexteq]; exact hext
                  · obtain ⟨m, hm, hval⟩ := hjt (r, prr2) (hmGet_mem hg2)
                    refine ⟨m, hm, ?_⟩
                    simp only at hval
                    rw [hval]
            | indirect exp =>
              simp only [hret, Option.some.injEq] at hstep
              subst hstep
              refine ⟨hnodes, rfl, hexteq, ?_, hra⟩
              refine ⟨extra ++ [{ src := 2 * i + 1, dst := prr.1, label := Edge.call j }],
                by simp only [hedges]; simp, ?_⟩
              intro e he
              rcases List.mem_append.mp he with he' | he'
              · exact hemit e he'
              · rcases List.mem_singleton.mp he' with rfl
                exact hcallOk
        | none =>
          -- no Call edge
          simp only [hjteq, hg] at hstep
          cases hret : c.return_ with
          | none =>
            simp only [hret, Option.some.injEq] at hstep
            subst hstep
            exact ⟨hnodes, hjteq, hexteq, ⟨extra, hedges, hemit⟩, hra⟩
          | some rl =>
            cases rl with
            | direct r =>
              simp only [hret] at hstep
              cases hg2 : hmGet r jt with
              | none => rw [hg2] at hstep; simp at hstep
              | some prr2 =>
                rw [hg2] at hstep
                simp only [Option.some.injEq] at hstep
                subst hstep
                refine ⟨hnodes, rfl, hexteq, ⟨extra, by simp only [hedges], hemit⟩, ?_⟩
                refine pushReturnAddress_raOk hra ?_
                constructor
                · refine ⟨i, hi, rfl, j, C4shape_mem hC4, c, hk, htg, ?_, r, hret⟩
                  rw [← hexteq]; exact hext
                · obtain ⟨m, hm, hval⟩ := hjt (r, prr2) (hmGet_mem hg2)
                  refine ⟨m, hm, ?_⟩
                  simp only at hval
                  rw [hval]
            | indirect exp =>
              simp only [hret, Option.some.injEq] at hstep
              subst hstep
              exact ⟨hnodes, hjteq, hexteq, ⟨extra, hedges, hemit⟩, hra⟩
    | indirect exp =>
      simp only [addJumpEdge, hk, htg, Option.some.injEq] at hstep
      subst hstep
      exact ⟨hnodes, hjteq, hexteq, ⟨extra, hedges, hemit⟩, hra⟩
  | interrupt v ra' =>
    simp only [addJumpEdge, hk, Option.some.injEq] at hstep
    subst hstep
    exact ⟨hnodes, hjteq, hexteq, ⟨extra, hedges, hemit⟩, hra⟩
  | ret lbl =>
    simp only [addJumpEdge, hk, Option.some.injEq] at hstep
    subst hstep
    exact ⟨hnodes, hjteq, hexteq, ⟨extra, hedges, hemit⟩, hra⟩

theorem outgoingStep_P3 {bs : List (Term Blk)} {jt : List (Tid × (Nat × Nat))}
    {ext : List Tid} {st st' : St} {k : Nat}
    (hjt : jtValuesOk bs.length jt)
    (hinv : P3Inv bs jt ext st)
    (hstep : outgoingStep st k = some st') :
    P3Inv bs jt ext st' := by
  unfold outgoingStep at hstep
  cases hn : st.nodes[k]? with
  | none =>
    rw [hn] at hstep
    simp only [Option.some.injEq] at hstep
    subst hstep
    exact hinv
  | some nd =>
    rw [hn] at hstep
    cases nd with
    | blkStart b =>
      simp only [Option.some.injEq] at hstep
      subst hstep
      exact hinv
    | callReturn b =>
      simp only [Option.some.injEq] at hstep
      subst hstep
      exact hinv
    | blkEnd b =>
      obtain ⟨i, hi, hOr⟩ := blockNodes_getElem?_cases bs k (Node.blkEnd b)
        (by rw [← hinv.nodes_eq]; exact hn)
      rcases hOr with ⟨hk, hx⟩ | ⟨hk, hx⟩
      · exact absurd hx (by simp)
      · subst hk
        have hb : b = bs[i] := by injection hx
        unfold addOutgoingEdges at hstep
        rw [hn] at hstep
        simp only [Node.get_block] at hstep
        cases hj : b.term.jmps with
        | nil =>
          rw [hj] at hstep
          simp only [Option.some.injEq] at hstep
          subst hstep
          exact hinv
        | cons j1 tl =>
          cases htl : tl with
          | nil =>
            rw [htl] at hj
            simp only [hj] at hstep
            refine addJumpEdge_P3 hi hjt hinv ?_ hstep
            exact Or.inl ⟨by rw [← hb]; exact hj, rfl⟩
          | cons j2 tl2 =>
            cases htl2 : tl2 with
            | nil =>
              rw [htl, htl2] at hj
              simp only [hj] at hstep
              cases hmid : addJumpEdge st (2 * i + 1) j1 none with
              | none => rw [hmid] at hstep; simp at hstep
              | some st1 =>
                rw [hmid] at hstep
                have hinv1 : P3Inv bs jt ext st1 :=
                  addJumpEdge_P3 hi hjt hinv
                    (Or.inr (Or.inl ⟨j2, by rw [← hb]; exact hj, rfl⟩)) hmid
                exact addJumpEdge_P3 hi hjt hinv1
                  (Or.inr (Or.inr ⟨j1, by rw [← hb]; exact hj, rfl⟩)) hstep
            | cons j3 tl3 =>
              rw [htl, htl2] at hj
              simp only [hj] at hstep
              exact absurd hstep (by simp)

theorem addJumpAndCallEdges_P3 {bs : List (Term Blk)} {jt : List (Tid × (Nat × Nat))}
    {ext : List Tid} {st2 st3 : St}
    (hjt : jtValuesOk bs.length jt) (hinv : P3Inv bs jt ext st2)
    (h : addJumpAndCallEdges st2 = some st3) : P3Inv bs jt ext st3 := by
  unfold addJumpAndCallEdges at h
  exact optFold_preserve (P := fun s => P3Inv bs jt ext s)
    (fun s x s' _ hP hstep => outgoingStep_P3 hjt hP hstep) h hinv

theorem buildPhase123_inv {p : Term Program} {ext : List Tid} {st3 : St}
    (h : buildPhase123 p ext = some st3) :
    ∃ st2, buildPhase12 p ext = some st2 ∧ addJumpAndCallEdges st2 = some st3 ∧
      jtValuesOk (allBlocks p).length st2.jumpTargets ∧
      st3.jumpTargets = st2.jumpTargets ∧
      P3Inv (allBlocks p) st2.jumpTargets ext st3 := by
  unfold buildPhase123 at h
  cases h2 : buildPhase12 p ext with
  | none => rw [h2] at h; simp at h
  | some st2 =>
    rw [h2] at h
    have h3 : addJumpAndCallEdges st2 = some st3 := h
    obtain ⟨hext, hn, hed, hra, hv, _⟩ := buildPhase12_spec h2
    have hinv2 : P3Inv (allBlocks p) st2.jumpTargets ext st2 :=
      ⟨hn, rfl, hext, ⟨[], by rw [hed, List.append_nil], by simp⟩, by rw [hra]; simp [raOk]⟩
    have hinv3 := addJumpAndCallEdges_P3 hv hinv2 h3
    exact ⟨st2, rfl, h3, hv, hinv3.jt_eq, hinv3⟩

/-! ## Phase-4 invariant machinery -/

/-- Number of `CallReturn` nodes in a node list. -/
def countCR (nodes : List Node) : Nat :=
  (nodes.filter Node.isCallReturn).length

/-- Provenance of a `CallReturn` node: it carries a block of the program that
contains an in-program direct call with a direct return label. -/
def CRNodeOk (bs : List (Term Blk)) (ext : List Tid) (blk : Term Blk) : Prop :=
  ∃ k, ∃ hk : k < bs.length, blk = bs[k] ∧
    ∃ j ∈ bs[k].term.jmps, ∃ cc, j.term.kind = JmpKind.call cc ∧
      ∃ t, cc.target = Label.direct t ∧ ext.contains t = false ∧
        ∃ r', cc.return_ = some (Label.direct r')

/-- Everything Phase 4 guarantees about one appended edge, relative to a
predicate `rsP` describing the admissible `CRReturnStub` sources. -/
def CREdgeOk4 (bs : List (Term Blk)) (ext : List Tid) (rsP : Nat → Prop) (st : St)
    (e : GEdge) : Prop :=
  (e.label = Edge.crCallStub ∧ ∃ k, ∃ hk : k < bs.length, e.src = 2 * k + 1 ∧
    ∃ j ∈ bs[k].term.jmps, ∃ cc, j.term.kind = JmpKind.call cc ∧
      ∃ t', cc.target = Label.direct t' ∧ ext.contains t' = false ∧
        ∃ r', cc.return_ = some (Label.direct r')) ∨
  (e.label = Edge.crReturnStub ∧ rsP e.src) ∨
  (∃ j, e.label = Edge.crCombine j ∧ 2 * bs.length ≤ e.src ∧
    (∃ blk, st.nodes[e.src]? = some (Node.callReturn blk) ∧ j ∈ blk.term.jmps ∧
      j.term.kind.isCall = true) ∧
    ∃ m, m < bs.length ∧ e.dst = 2 * m)

/-- The wiring of one `CallReturn` node at index `c` carrying block `blk`. -/
def WiringP (rsP : Nat → Prop) (st : St) (c : Nat) (blk : Term Blk) : Prop :=
  ∃ a r d jterm,
    st.nodes[a]? = some (Node.blkEnd blk) ∧ rsP r ∧
    (∃ dblk, st.nodes[d]? = some (Node.blkStart dblk)) ∧
    jterm ∈ blk.term.jmps ∧ jterm.term.kind.isCall = true ∧
    st.edges.filter (fun e => e.dst == c && e.label.isCRCallStub) =
      [{ src := a, dst := c, label := Edge.crCallStub }] ∧
    st.edges.filter (fun e => e.dst == c && e.label.isCRReturnStub) =
      [{ src := r, dst := c, label := Edge.crReturnStub }] ∧
    st.edges.filter (fun e => e.src == c) =
      [{ src := c, dst := d, label := Edge.crCombine jterm }]

/-- The invariant maintained throughout Phase 4. -/
structure P4Inv (bs : List (Term Blk)) (ext : List Tid) (edges3 : List GEdge)
    (ra3 : List (Tid × List (Nat × Nat))) (jt : List (Tid × (Nat × Nat)))
    (rsP : Nat → Prop) (st : St) : Prop where
  nodes_shape : ∃ extraN, st.nodes = blockNodes bs ++ extraN ∧
    ∀ x ∈ extraN, x.isCallReturn = true
  edges_shape : ∃ ee, st.edges = edges3 ++ ee ∧ ∀ e ∈ ee, CREdgeOk4 bs ext rsP st e
  jt_eq : st.jumpTargets = jt
  ra_eq : st.returnAddresses = ra3
  bounded : ∀ e ∈ st.edges, e.src < st.nodes.length ∧ e.dst < st.nodes.length
  wiring : ∀ (c : Nat) (blk : Term Blk),
    st.nodes[c]? = some (Node.callReturn blk) → WiringP rsP st c blk
  crnodes : ∀ (c : Nat) (blk : Term Blk),
    st.nodes[c]? = some (Node.callReturn blk) → CRNodeOk bs ext blk

theorem nodes_shape_len {bs : List (Term Blk)} {extraN : List Node} {ns : List Node}
    (h : ns = blockNodes bs ++ extraN) : 2 * bs.length ≤ ns.length := by
  rw [h, List.length_append, length_blockNodes]
  omega

theorem nodes_shape_getElem_even {bs : List (Term Blk)} {extraN : List Node}
    {ns : List Node}
    (h : ns = blockNodes bs ++ extraN) {m : Nat} (hm : m < bs.length) :
    ns[2 * m]? = some (Node.blkStart bs[m]) := by
  rw [h, List.getElem?_append_left (by rw [length_blockNodes]; omega),
    blockNodes_getElem?_even, List.getElem?_eq_getElem hm]
  rfl

theorem nodes_shape_getElem_odd {bs : List (Term Blk)} {extraN : List Node}
    {ns : List Node}
    (h : ns = blockNodes bs ++ extraN) {m : Nat} (hm : m < bs.length) :
    ns[2 * m + 1]? = some (Node.blkEnd bs[m]) := by
  rw [h, List.getElem?_append_left (by rw [length_blockNodes]; omega),
    blockNodes_getElem?_odd, List.getElem?_eq_getElem hm]
  rfl

theorem nodes_shape_callReturn_ge {bs : List (Term Blk)} {extraN : List Node}
    {ns : List Node}
    (h : ns = blockNodes bs ++ extraN) {c : Nat} {blk : Term Blk}
    (hc : ns[c]? = some (Node.callReturn blk)) : 2 * bs.length ≤ c := by
  by_contra hlt
  push_neg at hlt
  rw [h, List.getElem?_append_left (by rw [length_blockNodes]; omega)] at hc
  obtain ⟨i, hi, hor⟩ := blockNodes_getElem?_cases bs c _ hc
  rcases hor with ⟨_, hx⟩ | ⟨_, hx⟩ <;> exact absurd hx (by simp)

theorem countCR_append_callReturn (nodes : List Node) (b : Term Blk) :
    countCR (nodes ++ [Node.callReturn b]) = countCR nodes + 1 := by
  unfold countCR
  rw [List.filter_append]
  simp [Node.isCallReturn]

theorem crStep_P4 {bs : List (Term Blk)} {ext : List Tid} {edges3 : List GEdge}
    {ra3 : List (Tid × List (Nat × Nat))} {jt : List (Tid × (Nat × Nat))}
    {rsP : Nat → Prop} {st : St} {returnSource : Nat} {t : Tid} {pr : Nat × Nat}
    (hrsP : ∀ s, rsP s → ∃ m, m < bs.length ∧ s = 2 * m + 1)
    (hpair : raPairOk bs ext t pr)
    (hrs : rsP returnSource)
    (hinv : P4Inv bs ext edges3 ra3 jt rsP st) :
    ∃ st', crStep returnSource st pr = some st' ∧
      P4Inv bs ext edges3 ra3 jt rsP st' ∧
      countCR st'.nodes = countCR st.nodes + 1 ∧
      st'.nodes.length = st.nodes.length + 1 := by
  obtain ⟨⟨k, hk, hsrc, j0, hj0mem, cc, hj0kind, ht, hext, r0, hret⟩, m, hm, hdst⟩ := hpair
  obtain ⟨extraN, hnodes, hcrN⟩ := hinv.nodes_shape
  have hlen2n : 2 * bs.length ≤ st.nodes.length := nodes_shape_len hnodes
  have hnode : st.nodes[pr.1]? = some (Node.blkEnd bs[k]) := by
    rw [hsrc]; exact nodes_shape_getElem_odd hnodes hk
  have hfind : (bs[k].term.jmps.find? (fun j => j.term.kind.isCall)).isSome = true := by
    rw [List.find?_isSome]
    exact ⟨j0, hj0mem, by simp [hj0kind, JmpKind.isCall]⟩
  obtain ⟨callTerm, hct⟩ := Option.isSome_iff_exists.mp hfind
  have hctmem : callTerm ∈ bs[k].term.jmps := List.mem_of_find?_eq_some hct
  have hctcall : callTerm.term.kind.isCall = true := by
    have h := List.find?_some hct
    simpa using h
  have hsrclt : pr.1 < st.nodes.length := by omega
  have hdstlt : pr.2 < st.nodes.length := by omega
  obtain ⟨m', hm', hrseq⟩ := hrsP returnSource hrs
  have hrslt : returnSource < st.nodes.length := by omega
  set cNew := st.nodes.length with hcNew
  set newEdges : List GEdge :=
    [{ src := pr.1, dst := cNew, label := Edge.crCallStub },
     { src := returnSource, dst := cNew, label := Edge.crReturnStub },
     { src := cNew, dst := pr.2, label := Edge.crCombine callTerm }] with hnewEdges
  set st' : St := { st with
      nodes := st.nodes ++ [Node.callReturn bs[k]],
      edges := st.edges ++ newEdges } with hst'
  have hstep : crStep returnSource st pr = some st' := by
    simp only [crStep, hnode, Node.get_block, hct, hst', hnewEdges]
  have hlen' : st'.nodes.length = st.nodes.length + 1 := by
    rw [hst']; simp
  have hgetOld : ∀ (c : Nat), c < st.nodes.length → st'.nodes[c]? = st.nodes[c]? := by
    intro c hc
    rw [hst']
    exact List.getElem?_append_left hc
  have hgetNew : st'.nodes[cNew]? = some (Node.callReturn bs[k]) := by
    rw [hst']
    exact List.getElem?_concat_length _ _
  have hnodes' : st'.nodes = blockNodes bs ++ (extraN ++ [Node.callReturn bs[k]]) := by
    rw [hst']
    simp only [hnodes, List.append_assoc]
  -- each old CR edge keeps its property
  have hmono : ∀ e, CREdgeOk4 bs ext rsP st e → CREdgeOk4 bs ext rsP st' e := by
    intro e he
    rcases he with h1 | h2 | ⟨j, hj, hge, ⟨blk, hblk, hjm, hjc⟩, hm2⟩
    · exact Or.inl h1
    · exact Or.inr (Or.inl h2)
    · refine Or.inr (Or.inr ⟨j, hj, hge, ⟨blk, ?_, hjm, hjc⟩, hm2⟩)
      have hlt : e.src < st.nodes.length := (List.getElem?_eq_some_iff.mp hblk).1
      rw [hgetOld e.src hlt]
      exact hblk
  -- old edges never touch the fresh node index
  have hOldNe : ∀ e ∈ st.edges, e.src ≠ cNew ∧ e.dst ≠ cNew := by
    intro e he
    have := hinv.bounded e he
    omega
  refine ⟨st', hstep, ?_, ?_, hlen'⟩
  swap
  · rw [hst']
    exact countCR_append_callReturn st.nodes bs[k]
  obtain ⟨ee, hee, heeOk⟩ := hinv.edges_shape
  refine ⟨?_, ?_, ?_, ?_, ?_, ?_, ?_⟩
  · refine ⟨extraN ++ [Node.callReturn bs[k]], hnodes', ?_⟩
    intro x hx
    rcases List.mem_append.mp hx with hx' | hx'
    · exact hcrN x hx'
    · rcases List.mem_singleton.mp hx' with rfl
      rfl
  · refine ⟨ee ++ newEdges, by rw [hst']; rw [hee, List.append_assoc], ?_⟩
    intro e he
    rcases List.mem_append.mp he with he' | he'
    · exact hmono e (heeOk e he')
    · rw [hnewEdges] at he'
      simp only [List.mem_cons, List.not_mem_nil, or_false] at he'
      rcases he' with rfl | rfl | rfl
      · exact Or.inl ⟨rfl, k, hk, hsrc, j0, hj0mem, cc, hj0kind, t, ht, hext, r0, hret⟩
      · exact Or.inr (Or.inl ⟨rfl, hrs⟩)
      · refine Or.inr (Or.inr ⟨callTerm, rfl, by simp only; omega,
          ⟨bs[k], hgetNew, hctmem, hctcall⟩, m, hm, hdst⟩)
  · rw [hst']; exact hinv.jt_eq
  · rw [hst']; exact hinv.ra_eq
  · intro e he
    rw [hst'] at he
    simp only at he
    rcases List.mem_append.mp he with he' | he'
    · have := hinv.bounded e he'
      rw [hlen']
      omega
    · rw [hnewEdges] at he'
      rw [hlen']
      simp only [List.mem_cons, List.not_mem_nil, or_false] at he'
      rcases he' with rfl | rfl | rfl
      · simp only
        omega
      · simp only
        omega
      · simp only
        omega
  · -- wiring
    intro c blk hc
    have hclt : c < st'.nodes.length := (List.getElem?_eq_some_iff.mp hc).1
    rcases Nat.lt_or_ge c st.nodes.length with hlt | hge
    · -- an old CallReturn node: its wiring is untouched
      rw [hgetOld c hlt] at hc
      obtain ⟨a, r, d, jterm, ha, hr, ⟨dblk, hd⟩, hjm, hjc, hf1, hf2, hf3⟩ :=
        hinv.wiring c blk hc
      have hcge : 2 * bs.length ≤ c := nodes_shape_callReturn_ge hnodes hc
      have hcne : cNew ≠ c := by omega
      have halt : a < st.nodes.length := (List.getElem?_eq_some_iff.mp ha).1
      have hdlt : d < st.nodes.length := (List.getElem?_eq_some_iff.mp hd).1
      refine ⟨a, r, d, jterm, by rw [hgetOld a halt]; exact ha, hr,
        ⟨dblk, by rw [hgetOld d hdlt]; exact hd⟩, hjm, hjc, ?_, ?_, ?_⟩
      · rw [hst']
        simp only [List.filter_append]
        rw [hf1, hnewEdges]
        have h1 : (cNew == c) = false := by simp [hcne]
        have h2 : (pr.2 == c) = false := by
          have : pr.2 ≠ c := by omega
          simp [this]
        simp [List.filter, h1, h2, Edge.isCRCallStub]
      · rw [hst']
        simp only [List.filter_append]
        rw [hf2, hnewEdges]
        have h1 : (cNew == c) = false := by simp [hcne]
        have h2 : (pr.2 == c) = false := by
          have : pr.2 ≠ c := by omega
          simp [this]
        simp [List.filter, h1, h2, Edge.isCRReturnStub]
      · rw [hst']
        simp only [List.filter_append]
        rw [hf3, hnewEdges]
        have h1 : (pr.1 == c) = false := by
          have : pr.1 ≠ c := by omega
          simp [this]
        have h2 : (returnSource == c) = false := by
          have : returnSource ≠ c := by omega
          simp [this]
        have h3 : (cNew == c) = false := by simp [hcne]
        simp [List.filter, h1, h2, h3]
    · -- the freshly created CallReturn node
      have hceq : c = cNew := by
        rw [hlen'] at hclt
        omega
      subst hceq
      rw [hgetNew] at hc
      have hblk : blk = bs[k] := by
        injection hc with h
        injection h with h2
        exact h2.symm
      subst hblk
      have hstf : ∀ (p : GEdge → Bool), (∀ e ∈ st.edges, p e = false) →
          st'.edges.filter p = newEdges.filter p := by
        intro p hp
        rw [hst']
        simp only [List.filter_append]
        rw [List.filter_eq_nil_iff.mpr (by intro e he; simp [hp e he]),
          List.nil_append]
      refine ⟨pr.1, returnSource, pr.2, callTerm,
        by rw [hgetOld pr.1 hsrclt]; exact hnode, hrs,
        ⟨bs[m], by rw [hdst, nodes_shape_getElem_even hnodes' hm]⟩,
        hctmem, hctcall, ?_, ?_, ?_⟩
      · rw [hstf _ (fun e he => by
          have := (hOldNe e he).2
          simp [this])]
        rw [hnewEdges]
        have h2 : (pr.2 == cNew) = false := by
          have : pr.2 ≠ cNew := by omega
          simp [this]
        simp [List.filter, h2, Edge.isCRCallStub, Edge.isCRReturnStub, Edge.isCRCombine]
      · rw [hstf _ (fun e he => by
          have := (hOldNe e he).2
          simp [this])]
        rw [hnewEdges]
        have h2 : (pr.2 == cNew) = false := by
          have : pr.2 ≠ cNew := by omega
          simp [this]
        simp [List.filter, h2, Edge.isCRCallStub, Edge.isCRReturnStub]
      · rw [hstf _ (fun e he => by
          have := (hOldNe e he).1
          simp [this])]
        rw [hnewEdges]
        have h1 : (pr.1 == cNew) = false := by
          have : pr.1 ≠ cNew := by omega
          simp [this]
        have h2 : (returnSource == cNew) = false := by
          have : returnSource ≠ cNew := by omega
          simp [this]
        simp [List.filter, h1, h2]
  · -- crnodes
    intro c blk hc
    rcases Nat.lt_or_ge c st.nodes.length with hlt | hge
    · rw [hgetOld c hlt] at hc
      exact hinv.crnodes c blk hc
    · have hclt : c < st'.nodes.length := (List.getElem?_eq_some_iff.mp hc).1
      have hceq : c = cNew := by
        rw [hlen'] at hclt
        omega
      subst hceq
      rw [hgetNew] at hc
      have hblk : blk = bs[k] := by
        injection hc with h
        injection h with h2
        exact h2.symm
      subst hblk
      exact ⟨k, hk, rfl, j0, hj0mem, cc, hj0kind, t, ht, hext, r0, hret⟩

theorem crPairsLoop_P4 {bs : List (Term Blk)} {ext : List Tid} {edges3 : List GEdge}
    {ra3 : List (Tid × List (Nat × Nat))} {jt : List (Tid × (Nat × Nat))}
    {rsP : Nat → Prop} {st : St} {returnSource : Nat} {t : Tid}
    {pairs : List (Nat × Nat)}
    (hrsP : ∀ s, rsP s → ∃ m, m < bs.length ∧ s = 2 * m + 1)
    (hpairs : ∀ pr ∈ pairs, raPairOk bs ext t pr)
    (hrs : rsP returnSource)
    (hinv : P4Inv bs ext edges3 ra3 jt rsP st) :
    ∃ st', optFold (crStep returnSource) st pairs = some st' ∧
      P4Inv bs ext edges3 ra3 jt rsP st' ∧
      countCR st'.nodes = countCR st.nodes + pairs.length := by
  induction pairs generalizing st with
  | nil => exact ⟨st, rfl, hinv, by simp⟩
  | cons pr rest ih =>
    obtain ⟨st1, hstep, hinv1, hcount1, _⟩ :=
      crStep_P4 hrsP (hpairs pr (List.mem_cons_self _ _)) hrs hinv
    obtain ⟨st', hfold, hinv', hcount'⟩ :=
      ih (fun q hq => hpairs q (List.mem_cons_of_mem _ hq)) hinv1
    refine ⟨st', ?_, hinv', ?_⟩
    · simp only [optFold, hstep]
      exact hfold
    · rw [hcount', hcount1]
      simp only [List.length_cons]
      omega

theorem addCallReturn_P4 {bs : List (Term Blk)} {ext : List Tid} {edges3 : List GEdge}
    {ra3 : List (Tid × List (Nat × Nat))} {jt : List (Tid × (Nat × Nat))}
    {rsP : Nat → Prop} {st : St} {sub : Term Sub} {returnSource : Nat}
    (hrsP : ∀ s, rsP s → ∃ m, m < bs.length ∧ s = 2 * m + 1)
    (hraOk : raOk bs ext ra3)
    (hrs : rsP returnSource)
    (hinv : P4Inv bs ext edges3 ra3 jt rsP st) :
    ∃ st', addCallReturnNodeAndEdges st sub returnSource = some st' ∧
      P4Inv bs ext edges3 ra3 jt rsP st' ∧
      countCR st'.nodes = countCR st.nodes + ((hmGet sub.tid ra3).getD []).length := by
  unfold addCallReturnNodeAndEdges
  rw [hinv.ra_eq]
  cases hg : hmGet sub.tid ra3 with
  | none => exact ⟨st, rfl, hinv, by simp⟩
  | some pairs =>
    have hall : ∀ pr ∈ pairs, raPairOk bs ext sub.tid pr :=
      hraOk (sub.tid, pairs) (hmGet_mem hg)
    obtain ⟨st', hfold, hinv', hcount⟩ := crPairsLoop_P4 hrsP hall hrs hinv
    exact ⟨st', hfold, hinv', by rw [hcount]; simp⟩

theorem returnBlockStep_P4 {bs : List (Term Blk)} {ext : List Tid} {edges3 : List GEdge}
    {ra3 : List (Tid × List (Nat × Nat))} {jt : List (Tid × (Nat × Nat))}
    {rsP : Nat → Prop} {st : St} (sub : Term Sub) {block : Term Blk}
    (hrsP : ∀ s, rsP s → ∃ m, m < bs.length ∧ s = 2 * m + 1)
    (hraOk : raOk bs ext ra3)
    (hkey : block.term.jmps.any (fun j => j.term.kind.isReturn) = true →
      ∃ v, hmGet block.tid jt = some v ∧ rsP v.2)
    (hinv : P4Inv bs ext edges3 ra3 jt rsP st) :
    ∃ st', returnBlockStep sub st block = some st' ∧
      P4Inv bs ext edges3 ra3 jt rsP st' ∧
      countCR st'.nodes = countCR st.nodes +
        (if block.term.jmps.any (fun j => j.term.kind.isReturn) then
          ((hmGet sub.tid ra3).getD []).length else 0) := by
  unfold returnBlockStep
  by_cases hret : block.term.jmps.any (fun j => j.term.kind.isReturn) = true
  · rw [if_pos hret]
    obtain ⟨v, hv, hrsv⟩ := hkey hret
    rw [hinv.jt_eq, hv]
    obtain ⟨st', hfold, hinv', hcount⟩ := addCallReturn_P4 hrsP hraOk hrsv hinv
    exact ⟨st', hfold, hinv', by rw [hcount, if_pos hret]⟩
  · rw [if_neg hret]
    refine ⟨st, rfl, hinv, ?_⟩
    rw [if_neg hret]
    omega

theorem returnBlocksLoop_P4 {bs : List (Term Blk)} {ext : List Tid} {edges3 : List GEdge}
    {ra3 : List (Tid × List (Nat × Nat))} {jt : List (Tid × (Nat × Nat))}
    {rsP : Nat → Prop} {st : St} (sub : Term Sub) {blocks : List (Term Blk)}
    (hrsP : ∀ s, rsP s → ∃ m, m < bs.length ∧ s = 2 * m + 1)
    (hraOk : raOk bs ext ra3)
    (hkeys : ∀ block ∈ blocks,
      block.term.jmps.any (fun j => j.term.kind.isReturn) = true →
      ∃ v, hmGet block.tid jt = some v ∧ rsP v.2)
    (hinv : P4Inv bs ext edges3 ra3 jt rsP st) :
    ∃ st', optFold (returnBlockStep sub) st blocks = some st' ∧
      P4Inv bs ext edges3 ra3 jt rsP st' ∧
      countCR st'.nodes = countCR st.nodes +
        (blocks.countP (fun b => b.term.jmps.any (fun j => j.term.kind.isReturn))) *
          ((hmGet sub.tid ra3).getD []).length := by
  induction blocks generalizing st with
  | nil => exact ⟨st, rfl, hinv, by simp⟩
  | cons b rest ih =>
    obtain ⟨st1, hstep, hinv1, hcount1⟩ :=
      returnBlockStep_P4 sub hrsP hraOk (hkeys b (List.mem_cons_self _ _)) hinv
    obtain ⟨st', hfold, hinv', hcount'⟩ :=
      ih (fun q hq => hkeys q (List.mem_cons_of_mem _ hq)) hinv1
    refine ⟨st', ?_, hinv', ?_⟩
    · simp only [optFold]
      rw [hstep]
      exact hfold
    · rw [hcount', hcount1, List.countP_cons]
      by_cases hret : b.term.jmps.any (fun j => j.term.kind.isReturn) = true
      · rw [if_pos hret]
        simp only [hret, if_true]
        ring
      · rw [if_neg hret]
        simp only [Bool.not_eq_true] at hret
        simp only [hret]
        simp

theorem returnSubsLoop_P4 {bs : List (Term Blk)} {ext : List Tid} {edges3 : List GEdge}
    {ra3 : List (Tid × List (Nat × Nat))} {jt : List (Tid × (Nat × Nat))}
    {rsP : Nat → Prop} {st : St} {subs : List (Term Sub)}
    (hrsP : ∀ s, rsP s → ∃ m, m < bs.length ∧ s = 2 * m + 1)
    (hraOk : raOk bs ext ra3)
    (hkeys : ∀ sub ∈ subs, ∀ block ∈ sub.term.blocks,
      block.term.jmps.any (fun j => j.term.kind.isReturn) = true →
      ∃ v, hmGet block.tid jt = some v ∧ rsP v.2)
    (hinv : P4Inv bs ext edges3 ra3 jt rsP st) :
    ∃ st', optFold (fun s sub => optFold (returnBlockStep sub) s sub.term.blocks) st subs
        = some st' ∧
      P4Inv bs ext edges3 ra3 jt rsP st' ∧
      countCR st'.nodes = countCR st.nodes +
        (subs.map (fun sub =>
          (sub.term.blocks.countP
            (fun b => b.term.jmps.any (fun j => j.term.kind.isReturn))) *
            ((hmGet sub.tid ra3).getD []).length)).sum := by
  induction subs generalizing st with
  | nil => exact ⟨st, rfl, hinv, by simp⟩
  | cons sub rest ih =>
    obtain ⟨st1, hstep, hinv1, hcount1⟩ :=
      returnBlocksLoop_P4 sub hrsP hraOk (hkeys sub (List.mem_cons_self _ _)) hinv
    obtain ⟨st', hfold, hinv', hcount'⟩ :=
      ih (fun q hq => hkeys q (List.mem_cons_of_mem _ hq)) hinv1
    refine ⟨st', ?_, hinv', ?_⟩
    · simp only [optFold]
      rw [hstep]
      exact hfold
    · rw [hcount', hcount1]
      simp only [List.map_cons, List.sum_cons]
      omega

/-- The Phase-4 invariant holds at the start of Phase 4. -/
theorem P4Inv_start {p : Term Program} {ext : List Tid} {st2 st3 : St}
    (hinv3 : P3Inv (allBlocks p) st2.jumpTargets ext st3)
    (hjt : jtValuesOk (allBlocks p).length st2.jumpTargets)
    (rsP : Nat → Prop) :
    P4Inv (allBlocks p) ext st3.edges st3.returnAddresses st2.jumpTargets rsP st3 := by
  obtain ⟨hnodes, hjteq, hexteq, ⟨extra, hedges, hemit⟩, hra⟩ := hinv3
  have hnoCR : ∀ (c : Nat) (blk : Term Blk),
      st3.nodes[c]? = some (Node.callReturn blk) → False := by
    intro c blk hc
    rw [hnodes] at hc
    obtain ⟨i, hi, hor⟩ := blockNodes_getElem?_cases _ c _ hc
    rcases hor with ⟨_, hx⟩ | ⟨_, hx⟩ <;> exact absurd hx (by simp)
  refine ⟨⟨[], by rw [hnodes, List.append_nil], by simp⟩,
    ⟨[], by rw [List.append_nil], by simp⟩, hjteq, rfl, ?_, ?_, ?_⟩
  · intro e he
    rw [hedges] at he
    rw [hnodes, length_blockNodes]
    rcases List.mem_append.mp he with he' | he'
    · obtain ⟨i, hi, heq⟩ := mem_blockEdges.mp he'
      rw [heq]
      simp only
      omega
    · obtain ⟨i, hi, hsrc, hcase⟩ := hemit e he'
      constructor
      · omega
      · rcases hcase with ⟨j, uu, t, prr, _, _, hg, hdst, _⟩ |
          ⟨j, cc, t, prr, _, _, _, _, _, hg, hdst⟩ |
          ⟨j, cc, t, r, prr, _, _, _, _, _, _, hg, hdst⟩ <;>
        · obtain ⟨mm, hmm, hval⟩ := hjt _ (hmGet_mem hg)
          rw [hdst]
          have hval' : prr = (2 * mm, 2 * mm + 1) := hval
          have hfst : prr.1 = 2 * mm := by rw [hval']
          omega
  · intro c blk hc
    exact absurd hc (by intro h; exact hnoCR c blk h)
  · intro c blk hc
    exact absurd hc (by intro h; exact hnoCR c blk h)

/-! ## Assembled structure of a successfully built graph -/

/-- Odd node indices below `2n`: the `BlkEnd` indices. -/
def rsOdd (n : Nat) (s : Nat) : Prop := ∃ m, m < n ∧ s = 2 * m + 1

theorem build_parts {p : Term Program} {ext : List Tid} {g : Graph}
    (h : get_program_cfg p ext = some g) :
    ∃ st3 st4, buildPhase123 p ext = some st3 ∧ addReturnEdges p st3 = some st4 ∧
      g.nodes = st4.nodes ∧ g.edges = st4.edges := by
  unfold get_program_cfg build at h
  cases h3 : buildPhase123 p ext with
  | none => rw [h3] at h; simp at h
  | some st3 =>
    simp only [h3] at h
    cases h4 : addReturnEdges p st3 with
    | none => simp only [h4] at h; exact absurd h (by simp)
    | some st4 =>
      simp only [h4, Option.some.injEq] at h
      subst h
      exact ⟨st3, st4, rfl, h4, rfl, rfl⟩

theorem block_key_lookup {p : Term Program} {ext : List Tid} {st2 : St}
    (h2 : buildPhase12 p ext = some st2) {block : Term Blk}
    (hb : block ∈ allBlocks p) :
    ∃ v, hmGet block.tid st2.jumpTargets = some v ∧
      ∃ m, m < (allBlocks p).length ∧ v = (2 * m, 2 * m + 1) := by
  have hk : (hmGet block.tid st2.jumpTargets).isSome = true := by
    rw [buildPhase12_keys h2]
    exact List.mem_append_left _ (List.mem_map_of_mem _ hb)
  obtain ⟨v, hv⟩ := Option.isSome_iff_exists.mp hk
  obtain ⟨_, _, _, _, hval, _⟩ := buildPhase12_spec h2
  obtain ⟨m, hm, heq⟩ := hval _ (hmGet_mem hv)
  exact ⟨v, hv, m, hm, heq⟩

theorem build_struct {p : Term Program} {ext : List Tid} {g : Graph}
    (h : get_program_cfg p ext = some g) :
    ∃ st2 st3 st4,
      buildPhase12 p ext = some st2 ∧
      addJumpAndCallEdges st2 = some st3 ∧
      addReturnEdges p st3 = some st4 ∧
      g.nodes = st4.nodes ∧ g.edges = st4.edges ∧
      jtValuesOk (allBlocks p).length st2.jumpTargets ∧
      P3Inv (allBlocks p) st2.jumpTargets ext st3 ∧
      P4Inv (allBlocks p) ext st3.edges st3.returnAddresses st2.jumpTargets
        (rsOdd (allBlocks p).length) st4 := by
  obtain ⟨st3, st4, h3, h4, hgn, hge⟩ := build_parts h
  obtain ⟨st2, h2, h3', hjt, hjte, hinv3⟩ := buildPhase123_inv h3
  have hstart := P4Inv_start hinv3 hjt (rsOdd (allBlocks p).length)
  have hrsP : ∀ s, rsOdd (allBlocks p).length s →
      ∃ m, m < (allBlocks p).length ∧ s = 2 * m + 1 := fun s hs => hs
  have hkeys : ∀ sub ∈ p.term.subs, ∀ block ∈ sub.term.blocks,
      block.term.jmps.any (fun j => j.term.kind.isReturn) = true →
      ∃ v, hmGet block.tid st2.jumpTargets = some v ∧
        rsOdd (allBlocks p).length v.2 := by
    intro sub hs block hb _
    obtain ⟨v, hv, m, hm, heq⟩ := block_key_lookup h2 (block_mem_allBlocks hs hb)
    refine ⟨v, hv, m, hm, ?_⟩
    rw [heq]
  obtain ⟨st4', hfold, hinv4, _⟩ :=
    returnSubsLoop_P4 hrsP hinv3.ra_ok hkeys hstart
  have hst4 : st4' = st4 := by
    unfold addReturnEdges at h4
    rw [hfold] at h4
    injection h4
  subst hst4
  exact ⟨st2, st3, st4', h2, h3', h4, hgn, hge, hjt, hinv3, hinv4⟩

/-! ## Claim C3 -/

theorem isBlkStart_false_of_callReturn {x : Node} (h : x.isCallReturn = true) :
    x.isBlkStart = false := by
  cases x <;> simp_all [Node.isCallReturn, Node.isBlkStart]

theorem isBlkEnd_false_of_callReturn {x : Node} (h : x.isCallReturn = true) :
    x.isBlkEnd = false := by
  cases x <;> simp_all [Node.isCallReturn, Node.isBlkEnd]

theorem EmitOk_label_not_block {bs : List (Term Blk)} {jt : List (Tid × (Nat × Nat))}
    {ext : List Tid} {e : GEdge} (h : EmitOk bs jt ext e) : e.label.isBlock = false := by
  obtain ⟨i, hi, _, hcase⟩ := h
  rcases hcase with ⟨j, uu, t, prr, hl, _⟩ | ⟨j, cc, t, prr, hl, _⟩ |
    ⟨j, cc, t, r, prr, hl, _⟩ <;> rw [hl] <;> rfl

theorem CREdgeOk4_label_not_block {bs : List (Term Blk)} {ext : List Tid}
    {rsP : Nat → Prop} {st : St} {e : GEdge} (h : CREdgeOk4 bs ext rsP st e) :
    e.label.isBlock = false := by
  rcases h with ⟨hl, _⟩ | ⟨hl, _⟩ | ⟨j, hl, _⟩ <;> rw [hl] <;> rfl

/-- C3: For every basic block of every subroutine in the input program, the
constructed graph contains exactly one `BlkStart` node, exactly one `BlkEnd`
node, and exactly one `Block` edge, which runs from that `BlkStart` (at index
`2i`) to that `BlkEnd` (at index `2i+1`); no block's node pair is ever
duplicated. -/
theorem C3_one_node_pair_per_block (p : Term Program) (ext : List Tid) (g : Graph)
    (h : get_program_cfg p ext = some g) :
    g.nodes.filter Node.isBlkStart = (allBlocks p).map Node.blkStart ∧
    g.nodes.filter Node.isBlkEnd = (allBlocks p).map Node.blkEnd ∧
    g.edges.filter (fun e => e.label.isBlock) =
      (List.range (allBlocks p).length).map
        (fun i => { src := 2 * i, dst := 2 * i + 1, label := Edge.block }) ∧
    ∀ i, ∀ _ : i < (allBlocks p).length,
      g.nodes[2 * i]? = some (Node.blkStart (allBlocks p)[i]) ∧
      g.nodes[2 * i + 1]? = some (Node.blkEnd (allBlocks p)[i]) := by
  obtain ⟨st2, st3, st4, h2, h3, h4, hgn, hge, hjt, hinv3, hinv4⟩ := build_struct h
  obtain ⟨extraN, hnodes, hcrN⟩ := hinv4.nodes_shape
  obtain ⟨ee, hee, heeOk⟩ := hinv4.edges_shape
  obtain ⟨extra, hedges3, hemit⟩ := hinv3.edges_shape
  have hedges4 : g.edges = (blockEdges 0 (allBlocks p) ++ extra) ++ ee := by
    rw [hge, hee, hedges3]
  have hnodes4 : g.nodes = blockNodes (allBlocks p) ++ extraN := by
    rw [hgn, hnodes]
  refine ⟨?_, ?_, ?_, ?_⟩
  · rw [hnodes4, List.filter_append, blockNodes_filter_blkStart,
      List.filter_eq_nil_iff.mpr (fun x hx => by
        rw [isBlkStart_false_of_callReturn (hcrN x hx)]; simp),
      List.append_nil]
  · rw [hnodes4, List.filter_append, blockNodes_filter_blkEnd,
      List.filter_eq_nil_iff.mpr (fun x hx => by
        rw [isBlkEnd_false_of_callReturn (hcrN x hx)]; simp),
      List.append_nil]
  · have hf1 : (blockEdges 0 (allBlocks p)).filter (fun e => e.label.isBlock) =
        blockEdges 0 (allBlocks p) :=
      List.filter_eq_self.mpr (fun e he => by
        obtain ⟨i, hi, heq⟩ := mem_blockEdges.mp he
        rw [heq]; rfl)
    have hf2 : extra.filter (fun e => e.label.isBlock) = [] :=
      List.filter_eq_nil_iff.mpr (fun e he => by
        rw [EmitOk_label_not_block (hemit e he)]; simp)
    have hf3 : ee.filter (fun e => e.label.isBlock) = [] :=
      List.filter_eq_nil_iff.mpr (fun e he => by
        rw [CREdgeOk4_label_not_block (heeOk e he)]; simp)
    rw [hedges4, List.filter_append, List.filter_append, hf1, hf2, hf3,
      List.append_nil, List.append_nil, blockEdges_eq_map]
    apply List.map_congr_left
    intro i _
    simp [GEdge.mk.injEq]
  · intro i hi
    rw [hgn]
    exact ⟨nodes_shape_getElem_even hnodes hi, nodes_shape_getElem_odd hnodes hi⟩

/-- Witness for C3 at the mock program. -/
theorem C3_one_node_pair_per_block_witness :
    ∃ g, get_program_cfg mockProgram [] = some g ∧
      g.nodes.filter Node.isBlkStart = (allBlocks mockProgram).map Node.blkStart := by
  cases hg : get_program_cfg mockProgram [] with
  | none => exact absurd hg (by decide)
  | some g =>
    exact ⟨g, rfl, (C3_one_node_pair_per_block mockProgram [] g hg).1⟩

/-! ## Claim C4 -/

/-- C4: every `Jump` edge of a built graph originates from the `BlkEnd` node
of the block containing its jump term, and its untaken-conditional field is
`none` when the jump is the block's only jump or the first of two jumps, and
references the first jump when it is the second of two jumps. -/
theorem C4_untaken_conditional_reference (p : Term Program) (ext : List Tid) (g : Graph)
    (h : get_program_cfg p ext = some g) :
    ∀ e ∈ g.edges, ∀ (j : Term Jmp) (u : Option (Term Jmp)), e.label = Edge.jump j u →
      ∃ i, ∃ _ : i < (allBlocks p).length, e.src = 2 * i + 1 ∧
        (((allBlocks p)[i].term.jmps = [j] ∧ u = none) ∨
         (∃ j2, (allBlocks p)[i].term.jmps = [j, j2] ∧ u = none) ∨
         (∃ j1, (allBlocks p)[i].term.jmps = [j1, j] ∧ u = some j1)) := by
  obtain ⟨st2, st3, st4, h2, h3, h4, hgn, hge, hjt, hinv3, hinv4⟩ := build_struct h
  obtain ⟨ee, hee, heeOk⟩ := hinv4.edges_shape
  obtain ⟨extra, hedges3, hemit⟩ := hinv3.edges_shape
  intro e he j u hl
  rw [hge, hee, hedges3] at he
  rcases List.mem_append.mp he with he' | he'
  · rcases List.mem_append.mp he' with he'' | he''
    · obtain ⟨i, hi, heq⟩ := mem_blockEdges.mp he''
      rw [heq] at hl
      exact absurd hl (by simp)
    · obtain ⟨i, hi, hsrc, hcase⟩ := hemit e he''
      rcases hcase with ⟨j', uu, t, prr, hl', hkind, hg', hdst, hC4⟩ |
        ⟨j', cc, t, prr, hl', _⟩ | ⟨j', cc, t, r, prr, hl', _⟩
      · rw [hl] at hl'
        obtain ⟨rfl, rfl⟩ : j = j' ∧ u = uu := by
          injection hl' with e1 e2
          exact ⟨e1, e2⟩
        exact ⟨i, hi, hsrc, hC4⟩
      · rw [hl] at hl'; exact absurd hl' (by simp)
      · rw [hl] at hl'; exact absurd hl' (by simp)
  · have := heeOk e he'
    rcases this with ⟨hl', _⟩ | ⟨hl', _⟩ | ⟨j', hl', _⟩ <;>
      rw [hl] at hl' <;> exact absurd hl' (by simp)

/-- Witness for C4 at the mock program: the edge emitted for the single goto
of `sub1_blk2`. -/
theorem C4_untaken_conditional_reference_witness :
    ∃ g, get_program_cfg mockProgram [] = some g ∧
      ∃ e ∈ g.edges, ∃ (j : Term Jmp) (u : Option (Term Jmp)),
        e.label = Edge.jump j u ∧
        ∃ i, ∃ _ : i < (allBlocks mockProgram).length, e.src = 2 * i + 1 ∧
          (((allBlocks mockProgram)[i].term.jmps = [j] ∧ u = none) ∨
           (∃ j2, (allBlocks mockProgram)[i].term.jmps = [j, j2] ∧ u = none) ∨
           (∃ j1, (allBlocks mockProgram)[i].term.jmps = [j1, j] ∧ u = some j1)) := by
  refine ⟨(get_program_cfg mockProgram []).getD { nodes := [], edges := [] }, ?_,
    { src := 3, dst := 0, label := Edge.jump mockJmpTerm none }, ?_,
    mockJmpTerm, none, rfl, ?_⟩
  · decide
  · decide
  · exact C4_untaken_conditional_reference mockProgram []
      ((get_program_cfg mockProgram []).getD { nodes := [], edges := [] })
      (by decide)
      { src := 3, dst := 0, label := Edge.jump mockJmpTerm none }
      (by decide) mockJmpTerm none rfl

/-! ## The build under globally unique identifiers -/

/-- Odd node indices of blocks that contain a return jump. -/
def rsRet (bs : List (Term Blk)) (s : Nat) : Prop :=
  ∃ m, ∃ hm : m < bs.length, s = 2 * m + 1 ∧
    bs[m].term.jmps.any (fun j => j.term.kind.isReturn) = true

/-- Under unique identifiers, looking up a block's identifier yields the
block's own node pair. -/
theorem block_own_lookup {p : Term Program} {ext : List Tid} {st2 : St}
    (h2 : buildPhase12 p ext = some st2) (hnd : (subBlockTids p).Nodup)
    {m : Nat} (hm : m < (allBlocks p).length) :
    hmGet ((allBlocks p)[m]).tid st2.jumpTargets = some (2 * m, 2 * m + 1) := by
  obtain ⟨_, _, _, _, _, pre, hjt, hpre⟩ := buildPhase12_spec h2
  rw [hjt, hmGet_append]
  have h1 : hmGet ((allBlocks p)[m]).tid pre = none := by
    rw [hmGet_eq_none_iff]
    intro v hv
    obtain ⟨sub, hs, _, htid⟩ := hpre _ hv
    exact subTid_ne_blockTid hnd hs (List.getElem_mem hm) htid.symm
  rw [h1, Option.none_or]
  apply hmGet_eq_some_of_unique
  · rw [List.mem_reverse, mem_blockTargets]
    exact ⟨m, hm, by simp⟩
  · intro w hw
    rw [List.mem_reverse, mem_blockTargets] at hw
    obtain ⟨i, hi, heq⟩ := hw
    have htid : (allBlocks p)[i].tid = (allBlocks p)[m].tid := by
      have := congrArg Prod.fst heq
      simpa using this.symm
    have hbt := nodup_blockTids hnd
    have hli : i < ((allBlocks p).map (fun b => b.tid)).length := by
      rw [List.length_map]; omega
    have hlm : m < ((allBlocks p).map (fun b => b.tid)).length := by
      rw [List.length_map]; omega
    have hinj := List.nodup_iff_injective_get.mp hbt
    have hgi : ((allBlocks p).map (fun b => b.tid)).get ⟨i, hli⟩ =
        ((allBlocks p).map (fun b => b.tid)).get ⟨m, hlm⟩ := by
      simp only [List.get_eq_getElem, List.getElem_map]
      exact htid
    have him : i = m := by
      have := hinj hgi
      simpa using this
    subst him
    have := congrArg Prod.snd heq
    simpa using this

theorem build_struct_nodup {p : Term Program} {ext : List Tid} {g : Graph}
    (hnd : (subBlockTids p).Nodup)
    (h : get_program_cfg p ext = some g) :
    ∃ st2 st3 st4,
      buildPhase12 p ext = some st2 ∧
      addJumpAndCallEdges st2 = some st3 ∧
      addReturnEdges p st3 = some st4 ∧
      g.nodes = st4.nodes ∧ g.edges = st4.edges ∧
      jtValuesOk (allBlocks p).length st2.jumpTargets ∧
      P3Inv (allBlocks p) st2.jumpTargets ext st3 ∧
      P4Inv (allBlocks p) ext st3.edges st3.returnAddresses st2.jumpTargets
        (rsRet (allBlocks p)) st4 ∧
      countCR st4.nodes =
        (p.term.subs.map (fun sub =>
          (sub.term.blocks.countP
            (fun b => b.term.jmps.any (fun j => j.term.kind.isReturn))) *
            ((hmGet sub.tid st3.returnAddresses).getD []).length)).sum := by
  obtain ⟨st3, st4, h3, h4, hgn, hge⟩ := build_parts h
  obtain ⟨st2, h2, h3', hjt, hjte, hinv3⟩ := buildPhase123_inv h3
  have hstart := P4Inv_start hinv3 hjt (rsRet (allBlocks p))
  have hrsP : ∀ s, rsRet (allBlocks p) s →
      ∃ m, m < (allBlocks p).length ∧ s = 2 * m + 1 := by
    rintro s ⟨m, hm, hs, _⟩
    exact ⟨m, hm, hs⟩
  have hkeys : ∀ sub ∈ p.term.subs, ∀ block ∈ sub.term.blocks,
      block.term.jmps.any (fun j => j.term.kind.isReturn) = true →
      ∃ v, hmGet block.tid st2.jumpTargets = some v ∧ rsRet (allBlocks p) v.2 := by
    intro sub hs block hb hret
    obtain ⟨m, hm, hget⟩ := List.mem_iff_getElem.mp (block_mem_allBlocks hs hb)
    refine ⟨(2 * m, 2 * m + 1), ?_, m, hm, rfl, ?_⟩
    · have := block_own_lookup h2 hnd hm
      rw [hget] at this
      exact this
    · rw [hget]
      exact hret
  obtain ⟨st4', hfold, hinv4, hcount⟩ :=
    returnSubsLoop_P4 hrsP hinv3.ra_ok hkeys hstart
  have hst4 : st4' = st4 := by
    unfold addReturnEdges at h4
    rw [hfold] at h4
    injection h4
  subst hst4
  have hzero : countCR st3.nodes = 0 := by
    unfold countCR
    rw [hinv3.nodes_eq, blockNodes_filter_callReturn]
    rfl
  rw [hzero, Nat.zero_add] at hcount
  exact ⟨st2, st3, st4', h2, h3', h4, hgn, hge, hjt, hinv3, hinv4, hcount⟩

/-! ## Claim C8 -/

/-- The Phase-3 invariant holds at the end of Phase 2. -/
theorem P3Inv_start {p : Term Program} {ext : List Tid} {st2 : St}
    (h2 : buildPhase12 p ext = some st2) :
    P3Inv (allBlocks p) st2.jumpTargets ext st2 := by
  obtain ⟨hext, hn, hed, hra, _, _⟩ := buildPhase12_spec h2
  exact ⟨hn, rfl, hext, ⟨[], by rw [hed, List.append_nil], by simp⟩,
    by rw [hra]; simp [raOk]⟩

/-- A block with more than two jumps always makes the build abort. -/
theorem build_none_of_bad_block {p : Term Program} {ext : List Tid} {b : Term Blk}
    (hb : b ∈ allBlocks p) (hj : 2 < b.term.jmps.length) :
    get_program_cfg p ext = none := by
  obtain ⟨st2, h2⟩ := buildPhase12_isSome p ext
  obtain ⟨hext, hn, _, _, hv, _⟩ := buildPhase12_spec h2
  have h123 : buildPhase123 p ext = none := by
    unfold buildPhase123
    rw [h2]
    show addJumpAndCallEdges st2 = none
    unfold addJumpAndCallEdges
    obtain ⟨i, hi, hget⟩ := List.mem_iff_getElem.mp hb
    have hlen : st2.nodes.length = 2 * (allBlocks p).length := by
      rw [hn, length_blockNodes]
    have hmem : 2 * i + 1 ∈ List.range st2.nodes.length := by
      rw [hlen]
      exact List.mem_range.mpr (by omega)
    obtain ⟨l1, l2, hsplit⟩ := List.append_of_mem hmem
    rw [hsplit]
    refine optFold_none (P := fun s => P3Inv (allBlocks p) st2.jumpTargets ext s)
      (fun s y s' _ hP hstep => outgoingStep_P3 hv hP hstep) ?_ (P3Inv_start h2)
    intro s hP
    have hnode : s.nodes[2 * i + 1]? = some (Node.blkEnd b) := by
      rw [hP.nodes_eq, blockNodes_getElem?_odd, List.getElem?_eq_getElem hi, hget]
      rfl
    unfold outgoingStep
    rw [hnode]
    unfold addOutgoingEdges
    rw [hnode]
    simp only [Node.get_block]
    obtain ⟨a1, a2, a3, tl, hjl⟩ :
        ∃ a1 a2 a3 tl, b.term.jmps = a1 :: a2 :: a3 :: tl := by
      cases h1 : b.term.jmps with
      | nil => rw [h1] at hj; simp at hj
      | cons a1 l1 =>
        cases h2' : l1 with
        | nil => rw [h1, h2'] at hj; simp at hj
        | cons a2 l2 =>
          cases h3' : l2 with
          | nil => rw [h1, h2', h3'] at hj; simp at hj
          | cons a3 tl => exact ⟨a1, a2, a3, tl, rfl⟩
    simp only [hjl]
  unfold get_program_cfg build
  rw [h123]

/-- C8: a block with more than two jump terms aborts the whole build (no
graph is produced), while a block with zero jump terms yields zero outgoing
edges from its `BlkEnd` node and never aborts. -/
theorem C8_jump_count_limits :
    (∀ (p : Term Program) (ext : List Tid) (b : Term Blk), b ∈ allBlocks p →
      2 < b.term.jmps.length → get_program_cfg p ext = none) ∧
    (∀ (p : Term Program) (ext : List Tid) (g : Graph),
      (subBlockTids p).Nodup → get_program_cfg p ext = some g →
      ∀ i, ∀ _ : i < (allBlocks p).length, (allBlocks p)[i].term.jmps = [] →
        g.edges.filter (fun e => e.src == 2 * i + 1) = []) := by
  constructor
  · exact fun p ext b hb hj => build_none_of_bad_block hb hj
  · intro p ext g hnd h i hi hempty
    obtain ⟨st2, st3, st4, h2, h3, h4, hgn, hge, hjt, hinv3, hinv4, _⟩ :=
      build_struct_nodup hnd h
    obtain ⟨ee, hee, heeOk⟩ := hinv4.edges_shape
    obtain ⟨extra, hedges3, hemit⟩ := hinv3.edges_shape
    rw [hge, hee, hedges3]
    rw [List.filter_eq_nil_iff]
    intro e he
    suffices hne : e.src ≠ 2 * i + 1 by simp [hne]
    rcases List.mem_append.mp he with he' | he'
    · rcases List.mem_append.mp he' with he'' | he''
      · obtain ⟨k, hk, heq⟩ := mem_blockEdges.mp he''
        rw [heq]
        simp only
        omega
      · obtain ⟨i', hi', hsrc, hcase⟩ := hemit e he''
        rw [hsrc]
        intro heq
        have hieq : i' = i := by omega
        subst hieq
        rcases hcase with ⟨j, uu, t, prr, _, _, _, _, hC4⟩ |
          ⟨j, cc, t, prr, _, hmem', _⟩ | ⟨j, cc, t, r, prr, _, hmem', _⟩
        · rcases hC4 with ⟨hl, _⟩ | ⟨j2, hl, _⟩ | ⟨j1, hl, _⟩ <;>
            rw [hempty] at hl <;> exact absurd hl (by simp)
        · rw [hempty] at hmem'; exact absurd hmem' (List.not_mem_nil _)
        · rw [hempty] at hmem'; exact absurd hmem' (List.not_mem_nil _)
    · rcases heeOk e he' with ⟨_, k, hk, hsrc, j, hjmem, _⟩ |
        ⟨_, m, hm, hsrc, hret⟩ | ⟨j, _, hge', _, _⟩
      · rw [hsrc]
        intro heq
        have hieq : k = i := by omega
        subst hieq
        rw [hempty] at hjmem
        exact absurd hjmem (List.not_mem_nil _)
      · rw [hsrc]
        intro heq
        have hieq : m = i := by omega
        subst hieq
        rw [hempty] at hret
        exact absurd hret (by simp)
      · omega

/-- Witness for C8 on concrete programs. -/
def tidBad : Tid := "bad"
def badJmp1 : Term Jmp :=
  { tid := "bj1", term := { condition := none, kind := JmpKind.ret (Label.direct tidBad) } }
def badJmp2 : Term Jmp :=
  { tid := "bj2", term := { condition := none, kind := JmpKind.ret (Label.direct tidBad) } }
def badJmp3 : Term Jmp :=
  { tid := "bj3", term := { condition := none, kind := JmpKind.ret (Label.direct tidBad) } }
def badBlk : Term Blk :=
  { tid := "badblk", term := { defs := [], jmps := [badJmp1, badJmp2, badJmp3] } }
def badSub : Term Sub :=
  { tid := "badsub", term := { name := "badsub", blocks := [badBlk] } }
def badProgram : Term Program :=
  { tid := "badprog", term := { subs := [badSub], extern_symbols := [], entry_points := [] } }

def emptyBlk : Term Blk :=
  { tid := "emptyblk", term := { defs := [], jmps := [] } }
def emptySub : Term Sub :=
  { tid := "emptysub", term := { name := "emptysub", blocks := [emptyBlk] } }
def emptyProgram : Term Program :=
  { tid := "emptyprog",
    term := { subs := [emptySub], extern_symbols := [], entry_points := [] } }

theorem C8_jump_count_limits_witness :
    get_program_cfg badProgram [] = none ∧
    ((get_program_cfg emptyProgram []).getD { nodes := [], edges := [] }).edges.filter
      (fun e => e.src == 2 * 0 + 1) = [] := by
  constructor
  · exact C8_jump_count_limits.1 badProgram [] badBlk (by decide) (by decide)
  · exact C8_jump_count_limits.2 emptyProgram []
      ((get_program_cfg emptyProgram []).getD { nodes := [], edges := [] })
      (by decide) (by decide) 0 (by decide) (by decide)

/-! ## Claim C10 -/

theorem hkeys_rsOdd {p : Term Program} {ext : List Tid} {st2 : St}
    (h2 : buildPhase12 p ext = some st2) :
    ∀ sub ∈ p.term.subs, ∀ block ∈ sub.term.blocks,
      block.term.jmps.any (fun j => j.term.kind.isReturn) = true →
      ∃ v, hmGet block.tid st2.jumpTargets = some v ∧
        rsOdd (allBlocks p).length v.2 := by
  intro sub hs block hb _
  obtain ⟨v, hv, m, hm, heq⟩ := block_key_lookup h2 (block_mem_allBlocks hs hb)
  refine ⟨v, hv, m, hm, ?_⟩
  rw [heq]

/-- C10: every recorded (callsite, return-target) pair refers to a callsite
block whose `BlkEnd` node it names and which contains at least one Call-kind
jump, so Phase 4's search for the call term never fails: given a build that
reached Phase 4, Phase 4 always succeeds, and every `CRCombine` edge is
tagged with a Call-kind jump belonging to the callsite block carried by its
`CallReturn` source node. -/
theorem C10_recorded_callsites_have_call (p : Term Program) (ext : List Tid) (st3 : St)
    (h3 : buildPhase123 p ext = some st3) :
    (∀ kv ∈ st3.returnAddresses, ∀ pr ∈ kv.2,
      ∃ b, st3.nodes[pr.1]? = some (Node.blkEnd b) ∧
        ∃ j ∈ b.term.jmps, j.term.kind.isCall = true) ∧
    ∃ st4, addReturnEdges p st3 = some st4 ∧
      ∀ e ∈ st4.edges, ∀ j : Term Jmp, e.label = Edge.crCombine j →
        ∃ blk, st4.nodes[e.src]? = some (Node.callReturn blk) ∧
          j ∈ blk.term.jmps ∧ j.term.kind.isCall = true := by
  obtain ⟨st2, h2, h3', hjt, hjte, hinv3⟩ := buildPhase123_inv h3
  constructor
  · intro kv hkv pr hpr
    obtain ⟨⟨k, hk, hsrc, j0, hj0mem, cc, hj0kind, _⟩, _⟩ :=
      hinv3.ra_ok kv hkv pr hpr
    refine ⟨(allBlocks p)[k], ?_, j0, hj0mem, by simp [hj0kind, JmpKind.isCall]⟩
    rw [hsrc, hinv3.nodes_eq, blockNodes_getElem?_odd, List.getElem?_eq_getElem hk]
    rfl
  · have hstart := P4Inv_start hinv3 hjt (rsOdd (allBlocks p).length)
    have hrsP : ∀ s, rsOdd (allBlocks p).length s →
        ∃ m, m < (allBlocks p).length ∧ s = 2 * m + 1 := fun s hs => hs
    obtain ⟨st4, hfold, hinv4, _⟩ :=
      returnSubsLoop_P4 hrsP hinv3.ra_ok (hkeys_rsOdd h2) hstart
    refine ⟨st4, hfold, ?_⟩
    intro e he j hl
    obtain ⟨ee, hee, heeOk⟩ := hinv4.edges_shape
    rw [hee] at he
    rcases List.mem_append.mp he with he' | he'
    · obtain ⟨extra, hedges3, hemit⟩ := hinv3.edges_shape
      rw [hedges3] at he'
      rcases List.mem_append.mp he' with he'' | he''
      · obtain ⟨i, hi, heq⟩ := mem_blockEdges.mp he''
        rw [heq] at hl
        exact absurd hl (by simp)
      · obtain ⟨i, hi, _, hcase⟩ := hemit e he''
        rcases hcase with ⟨j', uu, t, prr, hl', _⟩ | ⟨j', cc, t, prr, hl', _⟩ |
          ⟨j', cc, t, r, prr, hl', _⟩ <;> rw [hl] at hl' <;> exact absurd hl' (by simp)
    · rcases heeOk e he' with ⟨hl', _⟩ | ⟨hl', _⟩ |
        ⟨j', hl', _, ⟨blk, hblk, hjm, hjc⟩, _⟩
      · rw [hl] at hl'; exact absurd hl' (by simp)
      · rw [hl] at hl'; exact absurd hl' (by simp)
      · rw [hl] at hl'
        have hj : j = j' := by injection hl'
        subst hj
        exact ⟨blk, hblk, hjm, hjc⟩

def mockSt3 : St := (buildPhase123 mockProgram []).getD (GraphBuilder.new [])

/-- Witness for C10 at the mock program. -/
theorem C10_recorded_callsites_have_call_witness :
    (∀ kv ∈ mockSt3.returnAddresses, ∀ pr ∈ kv.2,
      ∃ b, mockSt3.nodes[pr.1]? = some (Node.blkEnd b) ∧
        ∃ j ∈ b.term.jmps, j.term.kind.isCall = true) ∧
    ∃ st4, addReturnEdges mockProgram mockSt3 = some st4 ∧
      ∀ e ∈ st4.edges, ∀ j : Term Jmp, e.label = Edge.crCombine j →
        ∃ blk, st4.nodes[e.src]? = some (Node.callReturn blk) ∧
          j ∈ blk.term.jmps ∧ j.term.kind.isCall = true :=
  C10_recorded_callsites_have_call mockProgram [] mockSt3 (by decide)

/-! ## Claim C1 -/

def tidCxSub1 : Tid := "cxsub1"
def tidCxSub2 : Tid := "cxsub2"
def tidCxBlkA : Tid := "cxblkA"
def tidCxBlkB : Tid := "cxblkB"
def tidCxBlkR : Tid := "cxblkR"

def cxCallTerm : Term Jmp :=
  { tid := "cxcall",
    term := { condition := none,
              kind := JmpKind.call { target := Label.direct tidCxSub2,
                                     return_ := some (Label.direct tidCxBlkB) } } }

def cxRet1 : Term Jmp :=
  { tid := "cxret1",
    term := { condition := some "cond", kind := JmpKind.ret (Label.direct tidCxBlkB) } }

def cxRet2 : Term Jmp :=
  { tid := "cxret2",
    term := { condition := none, kind := JmpKind.ret (Label.direct tidCxBlkB) } }

def cxBlkA : Term Blk :=
  { tid := tidCxBlkA, term := { defs := [], jmps := [cxCallTerm] } }

def cxBlkB : Term Blk :=
  { tid := tidCxBlkB, term := { defs := [], jmps := [] } }

/-- A single callee block ending in two return jumps (a conditional return
followed by an unconditional one). -/
def cxBlkR : Term Blk :=
  { tid := tidCxBlkR, term := { defs := [], jmps := [cxRet1, cxRet2] } }

def cxSub1 : Term Sub :=
  { tid := tidCxSub1, term := { name := "cxsub1", blocks := [cxBlkA, cxBlkB] } }

def cxSub2 : Term Sub :=
  { tid := tidCxSub2, term := { name := "cxsub2", blocks := [cxBlkR] } }

def cxProgram : Term Program :=
  { tid := "cxprog",
    term := { subs := [cxSub1, cxSub2], extern_symbols := [], entry_points := [] } }

/-- C1 counterexample: the callee `cxSub2` contains N = 2 Return instructions
(both in the same block) and has M = 1 recorded caller pair, but the built
graph contains exactly 1 `CallReturn` node, not N×M = 2: `add_return_edges`
fires once per block containing at least one return, not once per return
instruction. -/
theorem C1_counterexample :
    (cxSub2.term.blocks.map
      (fun b => b.term.jmps.countP (fun j => j.term.kind.isReturn))).sum = 2 ∧
    (buildPhase123 cxProgram []).map
      (fun st => ((hmGet tidCxSub2 st.returnAddresses).getD []).length) = some 1 ∧
    (get_program_cfg cxProgram []).map (fun g => countCR g.nodes) = some 1 ∧
    (1 : Nat) ≠ 2 * 1 := by
  refine ⟨by decide, by decide, by decide, by decide⟩

theorem hkeys_rsRet {p : Term Program} {ext : List Tid} {st2 : St}
    (h2 : buildPhase12 p ext = some st2) (hnd : (subBlockTids p).Nodup) :
    ∀ sub ∈ p.term.subs, ∀ block ∈ sub.term.blocks,
      block.term.jmps.any (fun j => j.term.kind.isReturn) = true →
      ∃ v, hmGet block.tid st2.jumpTargets = some v ∧ rsRet (allBlocks p) v.2 := by
  intro sub hs block hb hret
  obtain ⟨m, hm, hget⟩ := List.mem_iff_getElem.mp (block_mem_allBlocks hs hb)
  refine ⟨(2 * m, 2 * m + 1), ?_, m, hm, rfl, ?_⟩
  · have := block_own_lookup h2 hnd hm
    rw [hget] at this
    exact this
  · rw [hget]
    exact hret

/-- The three edges `add_call_return_node_and_edges` appends for one
`CallReturn` node at index `c`: the `CRCallStub` from the recorded callsite
`pr.1`, the `CRReturnStub` from the returning block's `BlkEnd` `rsrc`, and
the `CRCombine` to the recorded return target `pr.2`. -/
def crTriple (c rsrc : Nat) (pr : Nat × Nat) (jterm : Term Jmp) : List GEdge :=
  [{ src := pr.1, dst := c, label := Edge.crCallStub },
   { src := rsrc, dst := c, label := Edge.crReturnStub },
   { src := c, dst := pr.2, label := Edge.crCombine jterm }]

/-- The bookkeeping of one `CallReturn` node created in Phase 4: its node
index, the `BlkEnd` index of the returning block that spawned it, the
recorded (callsite, return-target) pair it serves, the callsite block, and
the call term found in that block. -/
structure CRItem where
  idx : Nat
  rsrc : Nat
  pr : Nat × Nat
  cblk : Term Blk
  jterm : Term Jmp
deriving DecidableEq, Repr

def crItemNode (w : CRItem) : Node := Node.callReturn w.cblk

def crItemEdges (w : CRItem) : List GEdge := crTriple w.idx w.rsrc w.pr w.jterm

/-- The (return-source, recorded pair) stitchings one block of a subroutine
contributes in Phase 4: nothing unless the block has a Return jump, else one
stitching per pair recorded under the subroutine's identifier, each sourced
at the block's own `BlkEnd` index from the jump-target table. -/
def blockStitch (jt : List (Tid × (Nat × Nat))) (ra : List (Tid × List (Nat × Nat)))
    (sub : Term Sub) (b : Term Blk) : List (Nat × (Nat × Nat)) :=
  if b.term.jmps.any (fun j2 => j2.term.kind.isReturn) then
    ((hmGet sub.tid ra).getD []).map
      (fun pr => (((hmGet b.tid jt).getD (0, 0)).2, pr))
  else []

/-- All stitchings of Phase 4 in creation order: subroutines in program
order, blocks in subroutine order, recorded pairs in recording order. -/
def programStitch (jt : List (Tid × (Nat × Nat)))
    (ra : List (Tid × List (Nat × Nat))) (p : Term Program) :
    List (Nat × (Nat × Nat)) :=
  p.term.subs.flatMap (fun sub => sub.term.blocks.flatMap (blockStitch jt ra sub))

/-- A segment of the Phase-4 computation from `st` to `st'` described exactly
by the work list `work`: the appended nodes and edge triples, the consecutive
node indices, the untouched lookup tables, and each item's callsite block and
call term. -/
def CRSegment (bs : List (Term Blk)) (st st' : St) (work : List CRItem) : Prop :=
  st'.nodes = st.nodes ++ work.map crItemNode ∧
  st'.edges = st.edges ++ work.flatMap crItemEdges ∧
  work.map (fun w => w.idx) = List.range' st.nodes.length work.length ∧
  st'.jumpTargets = st.jumpTargets ∧
  st'.returnAddresses = st.returnAddresses ∧
  st'.externSubs = st.externSubs ∧
  ∀ w ∈ work, (blockNodes bs)[w.pr.1]? = some (Node.blkEnd w.cblk) ∧
    w.cblk.term.jmps.find? (fun j2 => j2.term.kind.isCall) = some w.jterm

theorem range1_append :
    ∀ (l1 b l2 : Nat),
      List.range' b l1 ++ List.range' (b + l1) l2 = List.range' b (l1 + l2) := by
  intro l1
  induction l1 with
  | zero => intro b l2; simp
  | succ n ih =>
    intro b l2
    have h1 : b + (n + 1) = (b + 1) + n := by omega
    calc List.range' b (n + 1) ++ List.range' (b + (n + 1)) l2
        = b :: (List.range' (b + 1) n ++ List.range' ((b + 1) + n) l2) := by
          rw [h1]; rfl
      _ = b :: List.range' (b + 1) (n + l2) := by rw [ih]
      _ = List.range' b (n + 1 + l2) := by
          rw [show n + 1 + l2 = (n + l2) + 1 from by omega]; rfl

theorem CRSegment_refl (bs : List (Term Blk)) (st : St) : CRSegment bs st st [] := by
  refine ⟨by simp, by simp, by simp, rfl, rfl, rfl, by simp⟩

theorem CRSegment_append {bs : List (Term Blk)} {st st1 st2 : St}
    {w1 w2 : List CRItem}
    (h1 : CRSegment bs st st1 w1) (h2 : CRSegment bs st1 st2 w2) :
    CRSegment bs st st2 (w1 ++ w2) := by
  obtain ⟨hn1, he1, hi1, hj1, hr1, hx1, hw1⟩ := h1
  obtain ⟨hn2, he2, hi2, hj2, hr2, hx2, hw2⟩ := h2
  have hlen1 : st1.nodes.length = st.nodes.length + w1.length := by
    rw [hn1, List.length_append, List.length_map]
  refine ⟨?_, ?_, ?_, hj2.trans hj1, hr2.trans hr1, hx2.trans hx1, ?_⟩
  · rw [hn2, hn1, List.map_append, List.append_assoc]
  · rw [he2, he1, List.flatMap_append, List.append_assoc]
  · rw [List.map_append, hi1, hi2, hlen1, List.length_append,
      range1_append w1.length st.nodes.length w2.length]
  · intro w hw
    rcases List.mem_append.mp hw with hw' | hw'
    · exact hw1 w hw'
    · exact hw2 w hw'

/-- One `crStep` on a pair satisfying `raPairOk` succeeds and is exactly one
work item: the new node carries the callsite block found at the recorded
callsite index, and the three edges are the pair's triple. -/
theorem crStep_seg {bs : List (Term Blk)} {ext : List Tid} {st : St}
    {extra : List Node} (hn : st.nodes = blockNodes bs ++ extra)
    {t : Tid} {pr : Nat × Nat} (rsrc : Nat)
    (hpr : raPairOk bs ext t pr) :
    ∃ st' w, crStep rsrc st pr = some st' ∧ CRSegment bs st st' [w] ∧
      w.rsrc = rsrc ∧ w.pr = pr := by
  obtain ⟨⟨k2, hk2, hpr1, j2, hj2, cc, hkd, htg2, hextf, r2, hret2⟩, _⟩ := hpr
  have hbn : blockNodes bs = blockNodes bs ++ ([] : List Node) :=
    (List.append_nil _).symm
  have hnodeB : (blockNodes bs)[pr.1]? = some (Node.blkEnd bs[k2]) := by
    rw [hpr1]
    exact nodes_shape_getElem_odd hbn hk2
  have hnode : st.nodes[pr.1]? = some (Node.blkEnd bs[k2]) := by
    rw [hpr1]
    exact nodes_shape_getElem_odd hn hk2
  have hfs : (bs[k2].term.jmps.find? (fun j3 => j3.term.kind.isCall)).isSome = true :=
    List.find?_isSome.mpr ⟨j2, hj2, by rw [hkd]; rfl⟩
  obtain ⟨jterm, hjterm⟩ := Option.isSome_iff_exists.mp hfs
  refine ⟨{ st with
      nodes := st.nodes ++ [Node.callReturn bs[k2]],
      edges := st.edges ++
        [{ src := pr.1, dst := st.nodes.length, label := Edge.crCallStub },
         { src := rsrc, dst := st.nodes.length, label := Edge.crReturnStub },
         { src := st.nodes.length, dst := pr.2, label := Edge.crCombine jterm }] },
    ⟨st.nodes.length, rsrc, pr, bs[k2], jterm⟩, ?_, ?_, rfl, rfl⟩
  · unfold crStep
    simp only [hnode, Node.get_block, hjterm]
  · refine ⟨rfl, ?_, by simp, rfl, rfl, rfl, ?_⟩
    · simp [crItemEdges, crTriple]
    · intro w hw
      rcases List.mem_singleton.mp hw with rfl
      exact ⟨hnodeB, hjterm⟩

/-- The fold of `crStep` over a recorded pair list is exactly one work item
per pair, in order, all sourced at the given return source. -/
theorem crPairs_seg {bs : List (Term Blk)} {ext : List Tid} {t : Tid} {rsrc : Nat} :
    ∀ (pairs : List (Nat × Nat)) (st st' : St) (extra : List Node),
      (∀ pr ∈ pairs, raPairOk bs ext t pr) →
      st.nodes = blockNodes bs ++ extra →
      optFold (crStep rsrc) st pairs = some st' →
      ∃ work, CRSegment bs st st' work ∧
        work.map (fun w => (w.rsrc, w.pr)) = pairs.map (fun pr => (rsrc, pr)) := by
  intro pairs
  induction pairs with
  | nil =>
    intro st st' extra hpairs hn h
    simp only [optFold, Option.some.injEq] at h
    subst h
    exact ⟨[], CRSegment_refl _ _, by simp⟩
  | cons pr rest ih =>
    intro st st' extra hpairs hn h
    simp only [optFold] at h
    obtain ⟨st1, w0, hstep, hseg0, hw0r, hw0p⟩ :=
      crStep_seg hn rsrc (hpairs pr (List.mem_cons_self _ _))
    simp only [hstep] at h
    have hn1 : st1.nodes = blockNodes bs ++ (extra ++ [crItemNode w0]) := by
      obtain ⟨hnodes, _⟩ := hseg0
      rw [hnodes, hn, List.append_assoc]
      simp
    obtain ⟨work, hseg, hmap⟩ :=
      ih st1 st' (extra ++ [crItemNode w0])
        (fun pr2 h2 => hpairs pr2 (List.mem_cons_of_mem _ h2)) hn1 h
    refine ⟨w0 :: work, ?_, ?_⟩
    · have := CRSegment_append hseg0 hseg
      simpa using this
    · simp [hw0r, hw0p, hmap]

/-- One `returnBlockStep` is described exactly by the block's stitch list. -/
theorem returnBlockStep_seg {bs : List (Term Blk)} {ext : List Tid}
    {jt : List (Tid × (Nat × Nat))} {ra : List (Tid × List (Nat × Nat))}
    {sub : Term Sub} {b : Term Blk} {st st' : St} {extra : List Node}
    (hjt : st.jumpTargets = jt) (hra : st.returnAddresses = ra)
    (hraOk : raOk bs ext ra)
    (hn : st.nodes = blockNodes bs ++ extra)
    (h : returnBlockStep sub st b = some st') :
    ∃ work, CRSegment bs st st' work ∧
      work.map (fun w => (w.rsrc, w.pr)) = blockStitch jt ra sub b := by
  unfold returnBlockStep at h
  by_cases hret : b.term.jmps.any (fun j2 => j2.term.kind.isReturn) = true
  · rw [if_pos hret] at h
    cases hg : hmGet b.tid st.jumpTargets with
    | none => rw [hg] at h; simp at h
    | some target =>
      simp only [hg] at h
      unfold addCallReturnNodeAndEdges at h
      cases hg2 : hmGet sub.tid st.returnAddresses with
      | none =>
        simp only [hg2, Option.some.injEq] at h
        subst h
        refine ⟨[], CRSegment_refl _ _, ?_⟩
        unfold blockStitch
        rw [if_pos hret, ← hra, hg2]
        simp
      | some pairs =>
        simp only [hg2] at h
        have hg2' : hmGet sub.tid ra = some pairs := by rw [← hra]; exact hg2
        have hpok : ∀ pr ∈ pairs, raPairOk bs ext sub.tid pr := by
          intro pr hp
          exact hraOk (sub.tid, pairs) (hmGet_mem hg2') pr hp
        obtain ⟨work, hseg, hmap⟩ := crPairs_seg pairs st st' extra hpok hn h
        refine ⟨work, hseg, ?_⟩
        rw [hmap]
        unfold blockStitch
        rw [if_pos hret, hg2']
        have hg' : hmGet b.tid jt = some target := by rw [← hjt]; exact hg
        rw [hg']
        simp
  · rw [if_neg hret] at h
    simp only [Option.some.injEq] at h
    subst h
    refine ⟨[], CRSegment_refl _ _, ?_⟩
    unfold blockStitch
    rw [if_neg hret]
    simp

/-- The inner Phase-4 fold over a subroutine's blocks is described exactly by
the concatenation of the blocks' stitch lists. -/
theorem returnBlocks_seg {bs : List (Term Blk)} {ext : List Tid}
    {jt : List (Tid × (Nat × Nat))} {ra : List (Tid × List (Nat × Nat))}
    {sub : Term Sub} (hraOk : raOk bs ext ra) :
    ∀ (blocks : List (Term Blk)) (st st' : St) (extra : List Node),
      st.jumpTargets = jt → st.returnAddresses = ra →
      st.nodes = blockNodes bs ++ extra →
      optFold (returnBlockStep sub) st blocks = some st' →
      ∃ work, CRSegment bs st st' work ∧
        work.map (fun w => (w.rsrc, w.pr)) = blocks.flatMap (blockStitch jt ra sub) := by
  intro blocks
  induction blocks with
  | nil =>
    intro st st' extra hjt hra hn h
    simp only [optFold, Option.some.injEq] at h
    subst h
    exact ⟨[], CRSegment_refl _ _, by simp⟩
  | cons b rest ih =>
    intro st st' extra hjt hra hn h
    simp only [optFold] at h
    cases hstep : returnBlockStep sub st b with
    | none => rw [hstep] at h; simp at h
    | some st1 =>
      simp only [hstep] at h
      obtain ⟨w0, hseg0, hmap0⟩ := returnBlockStep_seg hjt hra hraOk hn hstep
      have hseg0c := hseg0
      obtain ⟨hn0, _, _, hj0, hr0, _, _⟩ := hseg0c
      obtain ⟨work, hseg, hmap⟩ :=
        ih st1 st' (extra ++ w0.map crItemNode) (hj0.trans hjt) (hr0.trans hra)
          (by rw [hn0, hn, List.append_assoc]) h
      refine ⟨w0 ++ work, CRSegment_append hseg0 hseg, ?_⟩
      rw [List.map_append, hmap0, hmap, List.flatMap_cons]

/-- The outer Phase-4 fold over the program's subroutines is described
exactly by the program's stitch list. -/
theorem returnSubs_seg {bs : List (Term Blk)} {ext : List Tid}
    {jt : List (Tid × (Nat × Nat))} {ra : List (Tid × List (Nat × Nat))}
    (hraOk : raOk bs ext ra) :
    ∀ (subs : List (Term Sub)) (st st' : St) (extra : List Node),
      st.jumpTargets = jt → st.returnAddresses = ra →
      st.nodes = blockNodes bs ++ extra →
      optFold (fun st sub => optFold (returnBlockStep sub) st sub.term.blocks)
        st subs = some st' →
      ∃ work, CRSegment bs st st' work ∧
        work.map (fun w => (w.rsrc, w.pr)) =
          subs.flatMap (fun sub => sub.term.blocks.flatMap (blockStitch jt ra sub)) := by
  intro subs
  induction subs with
  | nil =>
    intro st st' extra hjt hra hn h
    simp only [optFold, Option.some.injEq] at h
    subst h
    exact ⟨[], CRSegment_refl _ _, by simp⟩
  | cons sub rest ih =>
    intro st st' extra hjt hra hn h
    simp only [optFold] at h
    cases hstep : optFold (returnBlockStep sub) st sub.term.blocks with
    | none => rw [hstep] at h; simp at h
    | some st1 =>
      simp only [hstep] at h
      obtain ⟨w0, hseg0, hmap0⟩ :=
        returnBlocks_seg hraOk sub.term.blocks st st1 extra hjt hra hn hstep
      have hseg0c := hseg0
      obtain ⟨hn0, _, _, hj0, hr0, _, _⟩ := hseg0c
      obtain ⟨work, hseg, hmap⟩ :=
        ih st1 st' (extra ++ w0.map crItemNode) (hj0.trans hjt) (hr0.trans hra)
          (by rw [hn0, hn, List.append_assoc]) h
      refine ⟨w0 ++ work, CRSegment_append hseg0 hseg, ?_⟩
      rw [List.map_append, hmap0, hmap, List.flatMap_cons]

/-- The wiring of one `CallReturn` node at index `c` carrying callsite block
`blk` (the content of claim C1): exactly one incoming `CRCallStub` edge from
a `BlkEnd` node of the callsite block, exactly one incoming `CRReturnStub`
edge from the `BlkEnd` node of a block containing a return jump, and exactly
one outgoing edge, a `CRCombine` edge tagged with a Call-kind jump of the
callsite block and pointing to a `BlkStart` node. -/
def CallReturnWiring (st : St) (c : Nat) (blk : Term Blk) : Prop :=
  ∃ a r d jterm,
    st.nodes[a]? = some (Node.blkEnd blk) ∧
    (∃ rblk, st.nodes[r]? = some (Node.blkEnd rblk) ∧
      rblk.term.jmps.any (fun j => j.term.kind.isReturn) = true) ∧
    (∃ dblk, st.nodes[d]? = some (Node.blkStart dblk)) ∧
    jterm ∈ blk.term.jmps ∧ jterm.term.kind.isCall = true ∧
    st.edges.filter (fun e => e.dst == c && e.label.isCRCallStub) =
      [{ src := a, dst := c, label := Edge.crCallStub }] ∧
    st.edges.filter (fun e => e.dst == c && e.label.isCRReturnStub) =
      [{ src := r, dst := c, label := Edge.crReturnStub }] ∧
    st.edges.filter (fun e => e.src == c) =
      [{ src := c, dst := d, label := Edge.crCombine jterm }]

/-- C1 amended: with N counted as the number of *blocks* of the callee that
contain at least one Return instruction (not the number of Return
instructions), a callee with N returning blocks and M recorded caller pairs
yields exactly N×M `CallReturn` nodes, each carrying exactly the three
incident edges described by the claim; moreover Phase 4 is exactly the work
list `work`: item i creates the `CallReturn` node at index
`st3.nodes.length + i` for one (returning block, recorded pair) stitching —
its `CRCallStub` edge comes from the recorded callsite `BlkEnd` `pr.1`, its
`CRReturnStub` edge from the spawning returning block's own `BlkEnd`, and
its `CRCombine` edge goes to the recorded return target `pr.2` — and the
stitching sequence is exactly the nested enumeration of subroutines,
returning blocks and recorded pairs (`programStitch`), so exactly one triple
exists per recorded pair and returning block, tied to that pair. -/
theorem C1_amended_call_return_per_return_block (p : Term Program) (ext : List Tid)
    (st3 st4 : St)
    (hnd : (subBlockTids p).Nodup)
    (h3 : buildPhase123 p ext = some st3)
    (h4 : addReturnEdges p st3 = some st4) :
    countCR st4.nodes =
      (p.term.subs.map (fun sub =>
        (sub.term.blocks.countP
          (fun b => b.term.jmps.any (fun j => j.term.kind.isReturn))) *
          ((hmGet sub.tid st3.returnAddresses).getD []).length)).sum ∧
    (∀ (c : Nat) (blk : Term Blk), st4.nodes[c]? = some (Node.callReturn blk) →
      CallReturnWiring st4 c blk) ∧
    (∃ work : List CRItem,
      st4.nodes = st3.nodes ++ work.map crItemNode ∧
      st4.edges = st3.edges ++ work.flatMap crItemEdges ∧
      work.map (fun w => w.idx) = List.range' st3.nodes.length work.length ∧
      work.map (fun w => (w.rsrc, w.pr)) =
        programStitch st3.jumpTargets st3.returnAddresses p ∧
      ∀ w ∈ work, st3.nodes[w.pr.1]? = some (Node.blkEnd w.cblk) ∧
        w.cblk.term.jmps.find? (fun j2 => j2.term.kind.isCall) = some w.jterm) ∧
    (∀ sub ∈ p.term.subs, ∀ b ∈ sub.term.blocks,
      ∃ m, ∃ _ : m < (allBlocks p).length,
        hmGet b.tid st3.jumpTargets = some (2 * m, 2 * m + 1) ∧
        st3.nodes[2 * m + 1]? = some (Node.blkEnd b)) := by
  obtain ⟨st2, h2, h3', hjt, hjte, hinv3⟩ := buildPhase123_inv h3
  have hrsP : ∀ s, rsRet (allBlocks p) s →
      ∃ m, m < (allBlocks p).length ∧ s = 2 * m + 1 := by
    rintro s ⟨m, hm, hs, _⟩
    exact ⟨m, hm, hs⟩
  obtain ⟨st4', hfold, hinv4, hcount⟩ := returnSubsLoop_P4 hrsP hinv3.ra_ok
    (hkeys_rsRet h2 hnd) (P4Inv_start hinv3 hjt (rsRet (allBlocks p)))
  have heq4 : st4' = st4 := by
    unfold addReturnEdges at h4
    rw [hfold] at h4
    injection h4
  subst heq4
  have hzero : countCR st3.nodes = 0 := by
    unfold countCR
    rw [hinv3.nodes_eq, blockNodes_filter_callReturn]
    rfl
  refine ⟨?_, ?_, ?_, ?_⟩
  · rw [hcount, hzero, Nat.zero_add]
  · intro c blk hc
    obtain ⟨a, r, d, jterm, ha, hr, hd, hjm, hjc, hf1, hf2, hf3⟩ :=
      hinv4.wiring c blk hc
    obtain ⟨extraN, hnodes, _⟩ := hinv4.nodes_shape
    obtain ⟨m, hm, hre, hret⟩ := hr
    refine ⟨a, r, d, jterm, ha, ?_, hd, hjm, hjc, hf1, hf2, hf3⟩
    refine ⟨(allBlocks p)[m], ?_, hret⟩
    rw [hre]
    exact nodes_shape_getElem_odd hnodes hm
  · have hn3 : st3.nodes = blockNodes (allBlocks p) ++ ([] : List Node) := by
      rw [hinv3.nodes_eq, List.append_nil]
    have h4' := h4
    unfold addReturnEdges at h4'
    obtain ⟨work, hseg, hmap⟩ :=
      returnSubs_seg hinv3.ra_ok p.term.subs st3 _ [] rfl rfl hn3 h4'
    obtain ⟨hnW, heW, hiW, _, _, _, hitems⟩ := hseg
    refine ⟨work, hnW, heW, hiW, hmap, ?_⟩
    intro w hw
    obtain ⟨hlook, hfind⟩ := hitems w hw
    refine ⟨?_, hfind⟩
    rw [hinv3.nodes_eq]
    exact hlook
  · intro sub hs b hb
    obtain ⟨m, hm, hget⟩ := List.mem_iff_getElem.mp (block_mem_allBlocks hs hb)
    refine ⟨m, hm, ?_, ?_⟩
    · have := block_own_lookup h2 hnd hm
      rw [hget] at this
      rw [hinv3.jt_eq]
      exact this
    · have hn3 : st3.nodes = blockNodes (allBlocks p) ++ ([] : List Node) := by
        rw [hinv3.nodes_eq, List.append_nil]
      have := nodes_shape_getElem_odd hn3 hm
      rw [hget] at this
      exact this

def mockSt4 : St := (addReturnEdges mockProgram mockSt3).getD (GraphBuilder.new [])

/-- Witness for the amended C1 at the mock program. -/
theorem C1_amended_call_return_per_return_block_witness :
    countCR mockSt4.nodes =
      (mockProgram.term.subs.map (fun sub =>
        (sub.term.blocks.countP
          (fun b => b.term.jmps.any (fun j => j.term.kind.isReturn))) *
          ((hmGet sub.tid mockSt3.returnAddresses).getD []).length)).sum ∧
    (∀ (c : Nat) (blk : Term Blk), mockSt4.nodes[c]? = some (Node.callReturn blk) →
      CallReturnWiring mockSt4 c blk) ∧
    (∃ work : List CRItem,
      mockSt4.nodes = mockSt3.nodes ++ work.map crItemNode ∧
      mockSt4.edges = mockSt3.edges ++ work.flatMap crItemEdges ∧
      work.map (fun w => w.idx) = List.range' mockSt3.nodes.length work.length ∧
      work.map (fun w => (w.rsrc, w.pr)) =
        programStitch mockSt3.jumpTargets mockSt3.returnAddresses mockProgram ∧
      ∀ w ∈ work, mockSt3.nodes[w.pr.1]? = some (Node.blkEnd w.cblk) ∧
        w.cblk.term.jmps.find? (fun j2 => j2.term.kind.isCall) = some w.jterm) ∧
    (∀ sub ∈ mockProgram.term.subs, ∀ b ∈ sub.term.blocks,
      ∃ m, ∃ _ : m < (allBlocks mockProgram).length,
        hmGet b.tid mockSt3.jumpTargets = some (2 * m, 2 * m + 1) ∧
        mockSt3.nodes[2 * m + 1]? = some (Node.blkEnd b)) :=
  C1_amended_call_return_per_return_block mockProgram [] mockSt3 mockSt4
    (by decide) (by decide) (by decide)

/-! ## Claim C9 -/

theorem find?_eq_some_of_unique {α : Type} {p : α → Bool} {l : List α} {a : α}
    (ha : a ∈ l) (hpa : p a = true) (huniq : ∀ b ∈ l, p b = true → b = a) :
    l.find? p = some a := by
  have hs : (l.find? p).isSome = true := List.find?_isSome.mpr ⟨a, ha, hpa⟩
  obtain ⟨b, hb⟩ := Option.isSome_iff_exists.mp hs
  rw [hb]
  exact congrArg some (huniq b (List.mem_of_find?_eq_some hb) (List.find?_some hb))

/-- In a built graph, the unique outgoing edge of the `BlkStart` node `2k` is
its `Block` edge leading to `2k+1`, so `neighbors(..).next()` returns the
`BlkEnd` index. -/
theorem firstNeighbor_of_built {p : Term Program} {ext : List Tid} {g : Graph}
    (h : get_program_cfg p ext = some g) {k : Nat}
    (hk : k < (allBlocks p).length) :
    firstNeighbor g (2 * k) = some (2 * k + 1) := by
  obtain ⟨st2, st3, st4, h2, h3, h4, hgn, hge, hjt, hinv3, hinv4⟩ := build_struct h
  obtain ⟨ee, hee, heeOk⟩ := hinv4.edges_shape
  obtain ⟨extra, hedges3, hemit⟩ := hinv3.edges_shape
  have hgedges : g.edges = (blockEdges 0 (allBlocks p) ++ extra) ++ ee := by
    rw [hge, hee, hedges3]
  unfold firstNeighbor
  rw [hgedges, List.reverse_append, List.reverse_append, List.find?_append,
    List.find?_append]
  have h1 : ee.reverse.find? (fun e => e.src == 2 * k) = none := by
    rw [List.find?_eq_none]
    intro e he hbeq
    rw [List.mem_reverse] at he
    have hsrc : e.src = 2 * k := by simpa using hbeq
    rcases heeOk e he with ⟨_, k', hk', hs, _⟩ | ⟨_, hrs⟩ | ⟨j, _, hge', _⟩
    · omega
    · obtain ⟨m', hm', hs⟩ := hrs
      omega
    · rw [hsrc] at hge'
      omega
  have h2' : extra.reverse.find? (fun e => e.src == 2 * k) = none := by
    rw [List.find?_eq_none]
    intro e he hbeq
    rw [List.mem_reverse] at he
    have hsrc : e.src = 2 * k := by simpa using hbeq
    obtain ⟨i, hi, hs, _⟩ := hemit e he
    omega
  have h3' : (blockEdges 0 (allBlocks p)).reverse.find? (fun e => e.src == 2 * k) =
      some { src := 2 * k, dst := 2 * k + 1, label := Edge.block } := by
    apply find?_eq_some_of_unique
    · rw [List.mem_reverse, mem_blockEdges]
      exact ⟨k, hk, by simp⟩
    · simp
    · intro b hb hpb
      rw [List.mem_reverse, mem_blockEdges] at hb
      obtain ⟨i, hi, heq⟩ := hb
      rw [heq] at hpb ⊢
      have : 0 + 2 * i = 2 * k := by simpa using hpb
      have hik : i = k := by omega
      subst hik
      simp
  rw [h1, h2', h3', Option.none_or, Option.none_or]
  rfl

/-- C9: for a built graph and any list of block identifiers, the
node-resolution helper never fails and returns a map sending each given
identifier of a block of the program to exactly that block's
(BlkStart, BlkEnd) index pair; identifiers naming no block, or not given,
are absent. -/
theorem C9_get_indices_of_block_nodes (p : Term Program) (ext : List Tid) (g : Graph)
    (blockTids : List Tid)
    (hnd : ((allBlocks p).map (fun b => b.tid)).Nodup)
    (h : get_program_cfg p ext = some g) :
    ∃ m, get_indices_of_block_nodes g blockTids = some m ∧
      (∀ t k, ∀ _ : k < (allBlocks p).length, t ∈ blockTids →
        ((allBlocks p)[k]).tid = t → hmGet t m = some (2 * k, 2 * k + 1)) ∧
      (∀ t, (∀ k, ∀ _ : k < (allBlocks p).length, ((allBlocks p)[k]).tid ≠ t) →
        hmGet t m = none) ∧
      (∀ t, t ∉ blockTids → hmGet t m = none) := by
  obtain ⟨st2, st3, st4, h2, h3, h4, hgn, hge, hjt, hinv3, hinv4⟩ := build_struct h
  obtain ⟨extraN, hnodes, hcrN⟩ := hinv4.nodes_shape
  have hgnodes : g.nodes = blockNodes (allBlocks p) ++ extraN := by
    rw [hgn, hnodes]
  have hlen2n : 2 * (allBlocks p).length ≤ g.nodes.length := nodes_shape_len hgnodes
  -- soundness invariant: every accumulated binding is a correct one
  set Snd : List (Tid × (Nat × Nat)) → Prop := fun m =>
    ∀ kv ∈ m, ∃ k, ∃ _ : k < (allBlocks p).length,
      ((allBlocks p)[k]).tid ∈ blockTids ∧
      kv = (((allBlocks p)[k]).tid, (2 * k, 2 * k + 1)) with hSnd
  have hstep_sound : ∀ (m : List (Tid × (Nat × Nat))), ∀ i ∈ List.range g.nodes.length,
      Snd m → ∃ m', indicesStep g blockTids m i = some m' ∧ Snd m' := by
    intro m i hi hm
    have hilen : i < g.nodes.length := List.mem_range.mp hi
    have hsome : (g.nodes[i]?).isSome = true := by
      rw [List.getElem?_eq_getElem hilen]
      rfl
    obtain ⟨nd, hnd'⟩ := Option.isSome_iff_exists.mp hsome
    cases nd with
    | blkStart b =>
      simp only [indicesStep, hnd', Node.get_block]
      by_cases hmem : blockTids.contains b.tid
      · rw [if_pos hmem]
        -- i is even and b is the i/2-th block
        have hcase : ∃ k, ∃ _ : k < (allBlocks p).length,
            i = 2 * k ∧ b = (allBlocks p)[k] := by
          rw [hgnodes] at hnd'
          rcases Nat.lt_or_ge i (2 * (allBlocks p).length) with hlt | hge2
          · rw [List.getElem?_append_left (by rw [length_blockNodes]; omega)] at hnd'
            obtain ⟨k, hk, hor⟩ := blockNodes_getElem?_cases _ i _ hnd'
            rcases hor with ⟨hk2, hx⟩ | ⟨_, hx⟩
            · exact ⟨k, hk, hk2, by injection hx with hx'⟩
            · exact absurd hx (by simp)
          · exfalso
            rw [List.getElem?_append_right (by rw [length_blockNodes]; omega)] at hnd'
            have hxmem : Node.blkStart b ∈ extraN :=
              List.getElem?_mem hnd'
            have := hcrN _ hxmem
            simp [Node.isCallReturn] at this
        obtain ⟨k, hk, hieq, hbeq⟩ := hcase
        subst hieq
        rw [firstNeighbor_of_built h hk]
        refine ⟨_, rfl, ?_⟩
        intro kv hkv
        rcases List.mem_cons.mp hkv with heq | hkv'
        · subst heq
          exact ⟨k, hk, by rw [← hbeq]; simpa using hmem, by rw [hbeq]⟩
        · exact hm kv hkv'
      · rw [if_neg hmem]
        exact ⟨m, rfl, hm⟩
    | blkEnd b =>
      simp only [indicesStep, hnd', Node.get_block]
      by_cases hmem : blockTids.contains b.tid
      · rw [if_pos hmem]; exact ⟨m, rfl, hm⟩
      · rw [if_neg hmem]; exact ⟨m, rfl, hm⟩
    | callReturn b =>
      simp only [indicesStep, hnd', Node.get_block]
      by_cases hmem : blockTids.contains b.tid
      · rw [if_pos hmem]; exact ⟨m, rfl, hm⟩
      · rw [if_neg hmem]; exact ⟨m, rfl, hm⟩
  obtain ⟨m, hm, hmSnd⟩ :=
    optFold_total (f := indicesStep g blockTids) hstep_sound
      (show Snd ([] : List (Tid × (Nat × Nat))) by
        intro kv hkv; exact absurd hkv (List.not_mem_nil _))
  have hcomplete : ∀ k, ∀ _ : k < (allBlocks p).length,
      ((allBlocks p)[k]).tid ∈ blockTids →
      (((allBlocks p)[k]).tid, (2 * k, 2 * k + 1)) ∈ m := by
    intro k hk hmem
    have hmemrange : 2 * k ∈ List.range g.nodes.length :=
      List.mem_range.mpr (by omega)
    obtain ⟨l1, l2, hsplit⟩ := List.append_of_mem hmemrange
    rw [hsplit] at hm
    obtain ⟨mA, mB, hA, hB, hC⟩ := optFold_some_decomp hm
    have hnodek : g.nodes[2 * k]? = some (Node.blkStart ((allBlocks p)[k])) :=
      nodes_shape_getElem_even hgnodes hk
    have hBeq : mB = (((allBlocks p)[k]).tid, (2 * k, 2 * k + 1)) :: mA := by
      simp only [indicesStep, hnodek, Node.get_block] at hB
      rw [if_pos (by simpa using hmem)] at hB
      rw [firstNeighbor_of_built h hk] at hB
      simp only [Option.some.injEq] at hB
      exact hB.symm
    have hgrow : ∃ pre, m = pre ++ mB := by
      refine optFold_preserve (P := fun mm => ∃ pre, mm = pre ++ mB) ?_ hC ⟨[], rfl⟩
      rintro mm i mm' hi ⟨pre, hpre⟩ hstep
      cases hn : g.nodes[i]? with
      | none =>
        simp only [indicesStep, hn] at hstep
        exact absurd hstep (by simp)
      | some nd =>
        cases nd with
        | blkStart b =>
          simp only [indicesStep, hn, Node.get_block] at hstep
          by_cases hmem2 : blockTids.contains b.tid
          · rw [if_pos hmem2] at hstep
            cases hfn : firstNeighbor g i with
            | none => rw [hfn] at hstep; exact absurd hstep (by simp)
            | some stop =>
              rw [hfn] at hstep
              simp only [Option.some.injEq] at hstep
              subst hstep
              exact ⟨_ :: pre, by rw [hpre]; rfl⟩
          · rw [if_neg hmem2] at hstep
            simp only [Option.some.injEq] at hstep
            subst hstep
            exact ⟨pre, hpre⟩
        | blkEnd b =>
          simp only [indicesStep, hn, Node.get_block] at hstep
          by_cases hmem2 : blockTids.contains b.tid
          · rw [if_pos hmem2] at hstep
            simp only [Option.some.injEq] at hstep
            subst hstep
            exact ⟨pre, hpre⟩
          · rw [if_neg hmem2] at hstep
            simp only [Option.some.injEq] at hstep
            subst hstep
            exact ⟨pre, hpre⟩
        | callReturn b =>
          simp only [indicesStep, hn, Node.get_block] at hstep
          by_cases hmem2 : blockTids.contains b.tid
          · rw [if_pos hmem2] at hstep
            simp only [Option.some.injEq] at hstep
            subst hstep
            exact ⟨pre, hpre⟩
          · rw [if_neg hmem2] at hstep
            simp only [Option.some.injEq] at hstep
            subst hstep
            exact ⟨pre, hpre⟩
    obtain ⟨pre, hpre⟩ := hgrow
    rw [hpre, hBeq]
    exact List.mem_append_right _ (List.mem_cons_self _ _)
  refine ⟨m, hm, ?_, ?_, ?_⟩
  · intro t k hk htmem htid
    apply hmGet_eq_some_of_unique
    · have := hcomplete k hk (htid ▸ htmem)
      rw [htid] at this
      exact this
    · intro w hw
      obtain ⟨k', hk', _, heq⟩ := hmSnd _ hw
      have htid' : ((allBlocks p)[k']).tid = t := by
        have := congrArg Prod.fst heq
        simpa using this.symm
      have hkk : k' = k := by
        have hli : k' < ((allBlocks p).map (fun b => b.tid)).length := by
          rw [List.length_map]; omega
        have hlk : k < ((allBlocks p).map (fun b => b.tid)).length := by
          rw [List.length_map]; omega
        have hinj := List.nodup_iff_injective_get.mp hnd
        have hgi : ((allBlocks p).map (fun b => b.tid)).get ⟨k', hli⟩ =
            ((allBlocks p).map (fun b => b.tid)).get ⟨k, hlk⟩ := by
          simp only [List.get_eq_getElem, List.getElem_map]
          rw [htid', htid]
        have := hinj hgi
        simpa using this
      subst hkk
      have := congrArg Prod.snd heq
      simpa using this
  · intro t hnone
    rw [hmGet_eq_none_iff]
    intro v hv
    obtain ⟨k, hk, _, heq⟩ := hmSnd _ hv
    have : ((allBlocks p)[k]).tid = t := by
      have := congrArg Prod.fst heq
      simpa using this.symm
    exact hnone k hk this
  · intro t htnot
    rw [hmGet_eq_none_iff]
    intro v hv
    obtain ⟨k, hk, hmem, heq⟩ := hmSnd _ hv
    have : ((allBlocks p)[k]).tid = t := by
      have := congrArg Prod.fst heq
      simpa using this.symm
    exact htnot (this ▸ hmem)

/-- Witness for C9 at the mock program. -/
theorem C9_get_indices_of_block_nodes_witness :
    ∃ m, get_indices_of_block_nodes
        ((get_program_cfg mockProgram []).getD { nodes := [], edges := [] })
        [tidSub1Blk2] = some m ∧
      (∀ t k, ∀ _ : k < (allBlocks mockProgram).length, t ∈ [tidSub1Blk2] →
        ((allBlocks mockProgram)[k]).tid = t → hmGet t m = some (2 * k, 2 * k + 1)) ∧
      (∀ t, (∀ k, ∀ _ : k < (allBlocks mockProgram).length,
        ((allBlocks mockProgram)[k]).tid ≠ t) → hmGet t m = none) ∧
      (∀ t, t ∉ [tidSub1Blk2] → hmGet t m = none) :=
  C9_get_indices_of_block_nodes mockProgram []
    ((get_program_cfg mockProgram []).getD { nodes := [], edges := [] })
    [tidSub1Blk2] (by decide) (by decide)

/-! ## Claim C5: calls to external subroutines -/

/-- The edge labels Phase 3 can emit for one particular jump term. -/
def EdgeForJump (e : GEdge) (j2 : Term Jmp) : Prop :=
  (∃ uu, e.label = Edge.jump j2 uu) ∨ e.label = Edge.call j2 ∨
    e.label = Edge.externCallStub j2

/-- The identifiers of all jump terms, block by block. -/
def blockJmpTids (p : Term Program) : List Tid :=
  (allBlocks p).flatMap (fun b => b.term.jmps.map (fun j2 => j2.tid))

theorem sublist_flatMap_of_sublist {A B : Type} (l : List A) (f g : A → List B)
    (h : ∀ a ∈ l, (f a).Sublist (g a)) : (l.flatMap f).Sublist (l.flatMap g) := by
  induction l with
  | nil => exact List.Sublist.refl _
  | cons a l ih =>
    rw [List.flatMap_cons, List.flatMap_cons]
    exact List.Sublist.append (h a (List.mem_cons_self _ _))
      (ih (fun a2 h2 => h a2 (List.mem_cons_of_mem _ h2)))

theorem blockJmpTids_sublist_allTids (p : Term Program) :
    (blockJmpTids p).Sublist (allTids p) := by
  unfold blockJmpTids allTids allBlocks
  rw [List.flatMap_assoc]
  refine sublist_flatMap_of_sublist _ _ _ ?_
  intro sub _
  refine List.Sublist.trans ?_ (List.sublist_cons_self _ _)
  refine sublist_flatMap_of_sublist _ _ _ ?_
  intro b _
  exact List.sublist_cons_self _ _

theorem nodup_blockJmpTids {p : Term Program} (hnd : (allTids p).Nodup) :
    (blockJmpTids p).Nodup :=
  (blockJmpTids_sublist_allTids p).nodup hnd

/-- Under globally unique identifiers, the jump list of each block has no
repeated identifiers. -/
theorem jmpTids_nodup_of_mem_block {p : Term Program} (hnd : (allTids p).Nodup)
    {b : Term Blk} (hb : b ∈ allBlocks p) :
    (b.term.jmps.map (fun j2 => j2.tid)).Nodup :=
  (List.nodup_flatMap.mp (nodup_blockJmpTids hnd)).1 b hb

/-- Under globally unique identifiers, a jump term occurs in the jump list of
at most one block of the program. -/
theorem jump_block_unique {p : Term Program} (hnd : (allTids p).Nodup)
    {i k : Nat} (hi : i < (allBlocks p).length) (hk : k < (allBlocks p).length)
    {j2 : Term Jmp} (hji : j2 ∈ ((allBlocks p)[i]).term.jmps)
    (hjk : j2 ∈ ((allBlocks p)[k]).term.jmps) : i = k := by
  have hpw := (List.nodup_flatMap.mp (nodup_blockJmpTids hnd)).2
  rw [List.pairwise_iff_getElem] at hpw
  rcases Nat.lt_trichotomy i k with hlt | heq | hlt
  · exact absurd (hpw i k hi hk hlt) (by
      intro hdj
      exact hdj (List.mem_map_of_mem _ hji) (List.mem_map_of_mem _ hjk))
  · exact heq
  · exact absurd (hpw k i hk hi hlt) (by
      intro hdj
      exact hdj (List.mem_map_of_mem _ hjk) (List.mem_map_of_mem _ hji))

/-- A successful `add_jump_edge` call appends only edges sourced at the given
node and labelled for the given jump, and leaves nodes, jump targets and
extern list unchanged. -/
theorem addJumpEdge_src {st st' : St} {s : Nat} {j : Term Jmp}
    {u : Option (Term Jmp)}
    (h : addJumpEdge st s j u = some st') :
    st'.nodes = st.nodes ∧ st'.jumpTargets = st.jumpTargets ∧
      st'.externSubs = st.externSubs ∧
      ∃ ex, st'.edges = st.edges ++ ex ∧
        ∀ e ∈ ex, e.src = s ∧ EdgeForJump e j := by
  cases hk : j.term.kind with
  | goto lbl =>
    cases lbl with
    | direct t =>
      simp only [addJumpEdge, hk] at h
      cases hg : hmGet t st.jumpTargets with
      | none => rw [hg] at h; simp at h
      | some prr =>
        rw [hg] at h
        simp only [Option.some.injEq] at h
        subst h
        refine ⟨rfl, rfl, rfl,
          [{ src := s, dst := prr.1, label := Edge.jump j u }], rfl, ?_⟩
        intro e he
        rcases List.mem_singleton.mp he with rfl
        exact ⟨rfl, Or.inl ⟨u, rfl⟩⟩
    | indirect exp =>
      simp only [addJumpEdge, hk, Option.some.injEq] at h
      subst h
      exact ⟨rfl, rfl, rfl, [], by simp, by simp⟩
  | call c =>
    cases htg : c.target with
    | direct t =>
      simp only [addJumpEdge, hk, htg] at h
      by_cases hex : st.externSubs.contains t = true
      · rw [if_pos hex] at h
        cases hret : c.return_ with
        | none =>
          simp only [hret, Option.some.injEq] at h
          subst h
          exact ⟨rfl, rfl, rfl, [], by simp, by simp⟩
        | some rl =>
          cases rl with
          | direct r =>
            simp only [hret] at h
            cases hg : hmGet r st.jumpTargets with
            | none => rw [hg] at h; simp at h
            | some prr =>
              rw [hg] at h
              simp only [Option.some.injEq] at h
              subst h
              refine ⟨rfl, rfl, rfl,
                [{ src := s, dst := prr.1, label := Edge.externCallStub j }], rfl, ?_⟩
              intro e he
              rcases List.mem_singleton.mp he with rfl
              exact ⟨rfl, Or.inr (Or.inr rfl)⟩
          | indirect exp =>
            simp only [hret, Option.some.injEq] at h
            subst h
            exact ⟨rfl, rfl, rfl, [], by simp, by simp⟩
      · rw [if_neg hex] at h
        cases hg : hmGet t st.jumpTargets with
        | some prr =>
          simp only [hg] at h
          cases hret : c.return_ with
          | none =>
            simp only [hret, Option.some.injEq] at h
            subst h
            refine ⟨rfl, rfl, rfl,
              [{ src := s, dst := prr.1, label := Edge.call j }], rfl, ?_⟩
            intro e he
            rcases List.mem_singleton.mp he with rfl
            exact ⟨rfl, Or.inr (Or.inl rfl)⟩
          | some rl =>
            cases rl with
            | direct r =>
              simp only [hret] at h
              cases hg2 : hmGet r st.jumpTargets with
              | none => rw [hg2] at h; simp at h
              | some prr2 =>
                rw [hg2] at h
                simp only [Option.some.injEq] at h
                subst h
                refine ⟨rfl, rfl, rfl,
                  [{ src := s, dst := prr.1, label := Edge.call j }], rfl, ?_⟩
                intro e he
                rcases List.mem_singleton.mp he with rfl
                exact ⟨rfl, Or.inr (Or.inl rfl)⟩
            | indirect exp =>
              simp only [hret, Option.some.injEq] at h
              subst h
              refine ⟨rfl, rfl, rfl,
                [{ src := s, dst := prr.1, label := Edge.call j }], rfl, ?_⟩
              intro e he
              rcases List.mem_singleton.mp he with rfl
              exact ⟨rfl, Or.inr (Or.inl rfl)⟩
        | none =>
          simp only [hg] at h
          cases hret : c.return_ with
          | none =>
            simp only [hret, Option.some.injEq] at h
            subst h
            exact ⟨rfl, rfl, rfl, [], by simp, by simp⟩
          | some rl =>
            cases rl with
            | direct r =>
              simp only [hret] at h
              cases hg2 : hmGet r st.jumpTargets with
              | none => rw [hg2] at h; simp at h
              | some prr2 =>
                rw [hg2] at h
                simp only [Option.some.injEq] at h
                subst h
                exact ⟨rfl, rfl, rfl, [], by simp, by simp⟩
            | indirect exp =>
              simp only [hret, Option.some.injEq] at h
              subst h
              exact ⟨rfl, rfl, rfl, [], by simp, by simp⟩
    | indirect exp =>
      simp only [addJumpEdge, hk, htg, Option.some.injEq] at h
      subst h
      exact ⟨rfl, rfl, rfl, [], by simp, by simp⟩
  | interrupt v ra2 =>
    simp only [addJumpEdge, hk, Option.some.injEq] at h
    subst h
    exact ⟨rfl, rfl, rfl, [], by simp, by simp⟩
  | ret lbl =>
    simp only [addJumpEdge, hk, Option.some.injEq] at h
    subst h
    exact ⟨rfl, rfl, rfl, [], by simp, by simp⟩

/-- One step of the Phase-3 loop appends only edges sourced at the processed
node index, which must be a `BlkEnd` node, each labelled for one of the jumps
of that node's block. -/
theorem outgoingStep_src {st st' : St} {i : Nat}
    (h : outgoingStep st i = some st') :
    st'.nodes = st.nodes ∧ st'.jumpTargets = st.jumpTargets ∧
      st'.externSubs = st.externSubs ∧
      ∃ ex, st'.edges = st.edges ++ ex ∧
        ∀ e ∈ ex, e.src = i ∧ ∃ b2, st.nodes[i]? = some (Node.blkEnd b2) ∧
          ∃ j2 ∈ b2.term.jmps, EdgeForJump e j2 := by
  unfold outgoingStep at h
  cases hn : st.nodes[i]? with
  | none =>
    simp only [hn, Option.some.injEq] at h
    subst h
    exact ⟨rfl, rfl, rfl, [], by simp, by simp⟩
  | some nd =>
    cases nd with
    | blkStart b =>
      simp only [hn, Option.some.injEq] at h
      subst h
      exact ⟨rfl, rfl, rfl, [], by simp, by simp⟩
    | blkEnd b =>
      simp only [hn] at h
      unfold addOutgoingEdges at h
      simp only [hn, Node.get_block] at h
      cases hj : b.term.jmps with
      | nil =>
        simp only [hj, Option.some.injEq] at h
        subst h
        exact ⟨rfl, rfl, rfl, [], by simp, by simp⟩
      | cons j1 rest =>
        cases rest with
        | nil =>
          simp only [hj] at h
          obtain ⟨hn1, hj1, he1, ex1, hed1, hinfo1⟩ := addJumpEdge_src h
          refine ⟨hn1, hj1, he1, ex1, hed1, ?_⟩
          intro e he
          obtain ⟨hsrc, hEF⟩ := hinfo1 e he
          exact ⟨hsrc, b, rfl, j1, by rw [hj]; exact List.mem_cons_self _ _, hEF⟩
        | cons j2 rest2 =>
          cases rest2 with
          | nil =>
            simp only [hj] at h
            cases h1 : addJumpEdge st i j1 none with
            | none => simp only [h1] at h; exact absurd h (by simp)
            | some st1 =>
              simp only [h1] at h
              obtain ⟨hn1, hj1, he1, ex1, hed1, hinfo1⟩ := addJumpEdge_src h1
              obtain ⟨hn2, hj2, he2, ex2, hed2, hinfo2⟩ := addJumpEdge_src h
              refine ⟨hn2.trans hn1, hj2.trans hj1, he2.trans he1, ex1 ++ ex2, ?_, ?_⟩
              · rw [hed2, hed1, List.append_assoc]
              · intro e he
                rcases List.mem_append.mp he with h2 | h2
                · obtain ⟨hsrc, hEF⟩ := hinfo1 e h2
                  exact ⟨hsrc, b, rfl, j1, by rw [hj]; exact List.mem_cons_self _ _, hEF⟩
                · obtain ⟨hsrc, hEF⟩ := hinfo2 e h2
                  refine ⟨hsrc, b, rfl, j2, ?_, hEF⟩
                  rw [hj]
                  exact List.mem_cons_of_mem _ (List.mem_cons_self _ _)
          | cons j3 rest3 =>
            simp only [hj] at h
            exact absurd h (by simp)
    | callReturn b =>
      simp only [hn, Option.some.injEq] at h
      subst h
      exact ⟨rfl, rfl, rfl, [], by simp, by simp⟩

/-- C5: in a built graph with globally unique identifiers, every direct call
to an identifier marked external emits, when it has a direct return label
naming a block, exactly one `ExternCallStub` edge — from the callsite's
`BlkEnd` to the return label's `BlkStart` — and, when it has no direct
return label, no edge at all; no `Call` edge ever carries that call, and
every piece of `CallReturn` machinery at that callsite's block belongs to a
different, non-external call of the block, so none is created for that
callsite. -/
theorem C5_extern_call_stub (p : Term Program) (ext : List Tid) (g : Graph)
    (hnd : (allTids p).Nodup)
    (h : get_program_cfg p ext = some g)
    (k : Nat) (hk : k < (allBlocks p).length) (j : Term Jmp) (c : Call)
    (hjm : j ∈ ((allBlocks p)[k]).term.jmps)
    (hkind : j.term.kind = JmpKind.call c)
    (t : Tid) (htgt : c.target = Label.direct t)
    (hext : ext.contains t = true) :
    (∀ r k', ∀ _ : k' < (allBlocks p).length,
        c.return_ = some (Label.direct r) → ((allBlocks p)[k']).tid = r →
        g.edges.filter (fun e => e.label == Edge.externCallStub j) =
          [{ src := 2 * k + 1, dst := 2 * k', label := Edge.externCallStub j }]) ∧
      ((∀ r, c.return_ ≠ some (Label.direct r)) →
        ∀ e ∈ g.edges, (∀ u, e.label ≠ Edge.jump j u) ∧
          e.label ≠ Edge.call j ∧ e.label ≠ Edge.externCallStub j) ∧
      (∀ e ∈ g.edges, e.label ≠ Edge.call j) ∧
      (∀ e ∈ g.edges, e.label.isCRCallStub = true → e.src = 2 * k + 1 →
        ∃ j2 ∈ ((allBlocks p)[k]).term.jmps, j2 ≠ j ∧
          ∃ cc2 t2, j2.term.kind = JmpKind.call cc2 ∧
            cc2.target = Label.direct t2 ∧ ext.contains t2 = false) ∧
      (∀ (i : Nat) (blk : Term Blk), g.nodes[i]? = some (Node.callReturn blk) →
        blk = (allBlocks p)[k] →
        ∃ j2 ∈ blk.term.jmps, j2 ≠ j ∧
          ∃ cc2 t2, j2.term.kind = JmpKind.call cc2 ∧
            cc2.target = Label.direct t2 ∧ ext.contains t2 = false) := by
  have hndsb : (subBlockTids p).Nodup := (subBlockTids_sublist_allTids p).nodup hnd
  obtain ⟨st2, st3, st4, h2, h3, h4, hgn, hge, hjtv, hinv3, hinv4, _⟩ :=
    build_struct_nodup hndsb h
  obtain ⟨hext2, hn2, hed2, hra2, _, _⟩ := buildPhase12_spec h2
  obtain ⟨extra3, hed3, hemit⟩ := hinv3.edges_shape
  obtain ⟨ee, hed4, heeOk⟩ := hinv4.edges_shape
  -- soundness of every edge label with respect to this jump
  have hlabel3 : ∀ e ∈ g.edges,
      (∀ u2, e.label ≠ Edge.jump j u2) ∧ e.label ≠ Edge.call j ∧
        (e.label = Edge.externCallStub j →
          ∃ r2, c.return_ = some (Label.direct r2)) := by
    intro e he
    rw [hge, hed4] at he
    rcases List.mem_append.mp he with he3 | hee
    · rw [hed3] at he3
      rcases List.mem_append.mp he3 with heb | hex
      · obtain ⟨i2, hi2, rfl⟩ := mem_blockEdges.mp heb
        exact ⟨fun u2 hcontra => Edge.noConfusion hcontra,
          fun hcontra => Edge.noConfusion hcontra,
          fun hcontra => Edge.noConfusion hcontra⟩
      · obtain ⟨i2, hi2, hsrc2, hcases⟩ := hemit e hex
        rcases hcases with ⟨j2, uu, t2, prr, hl, hkd, _⟩ |
          ⟨j2, cc2, t2, prr, hl, hjm2, hkd, htg2, hextf, _⟩ |
          ⟨j2, cc2, t2, r2, prr, hl, hjm2, hkd, htg2, hex2, hret2, _⟩
        · refine ⟨?_, ?_, ?_⟩
          · intro u2 hcontra
            rw [hl] at hcontra
            injection hcontra with hjj _
            subst hjj
            rw [hkind] at hkd
            exact JmpKind.noConfusion hkd
          · intro hcontra
            rw [hl] at hcontra
            exact Edge.noConfusion hcontra
          · intro hcontra
            rw [hl] at hcontra
            exact Edge.noConfusion hcontra
        · refine ⟨?_, ?_, ?_⟩
          · intro u2 hcontra
            rw [hl] at hcontra
            exact Edge.noConfusion hcontra
          · intro hcontra
            rw [hl] at hcontra
            injection hcontra with hjj
            subst hjj
            rw [hkind] at hkd
            injection hkd with hcc
            subst hcc
            rw [htgt] at htg2
            injection htg2 with ht2
            subst ht2
            rw [hextf] at hext
            exact absurd hext (by simp)
          · intro hcontra
            rw [hl] at hcontra
            exact Edge.noConfusion hcontra
        · refine ⟨?_, ?_, ?_⟩
          · intro u2 hcontra
            rw [hl] at hcontra
            exact Edge.noConfusion hcontra
          · intro hcontra
            rw [hl] at hcontra
            exact Edge.noConfusion hcontra
          · intro hcontra
            rw [hl] at hcontra
            injection hcontra with hjj
            subst hjj
            rw [hkind] at hkd
            injection hkd with hcc
            subst hcc
            exact ⟨r2, hret2⟩
    · rcases heeOk e hee with ⟨hl, _⟩ | ⟨hl, _⟩ | ⟨j2, hl, _⟩
      · exact ⟨fun u2 hcontra => by rw [hl] at hcontra; exact Edge.noConfusion hcontra,
          by intro hcontra; rw [hl] at hcontra; exact Edge.noConfusion hcontra,
          by intro hcontra; rw [hl] at hcontra; exact Edge.noConfusion hcontra⟩
      · exact ⟨fun u2 hcontra => by rw [hl] at hcontra; exact Edge.noConfusion hcontra,
          by intro hcontra; rw [hl] at hcontra; exact Edge.noConfusion hcontra,
          by intro hcontra; rw [hl] at hcontra; exact Edge.noConfusion hcontra⟩
      · exact ⟨fun u2 hcontra => by rw [hl] at hcontra; exact Edge.noConfusion hcontra,
          by intro hcontra; rw [hl] at hcontra; exact Edge.noConfusion hcontra,
          by intro hcontra; rw [hl] at hcontra; exact Edge.noConfusion hcontra⟩
  -- decompose the Phase-3 loop at the callsite's BlkEnd node
  have hlen : st2.nodes.length = 2 * (allBlocks p).length := by
    rw [hn2, length_blockNodes]
  have hmem : 2 * k + 1 ∈ List.range st2.nodes.length :=
    List.mem_range.mpr (by omega)
  obtain ⟨l1, l2, hsplit⟩ := List.append_of_mem hmem
  have hndr : (l1 ++ (2 * k + 1) :: l2).Nodup := by
    rw [← hsplit]; exact List.nodup_range _
  obtain ⟨hndl1, hndl2, hdisj12⟩ := List.nodup_append.mp hndr
  have hnotl1 : (2 * k + 1) ∉ l1 := fun hmem1 =>
    hdisj12 hmem1 (List.mem_cons_self _ _)
  have hnotl2 : (2 * k + 1) ∉ l2 := (List.nodup_cons.mp hndl2).1
  have h3' := h3
  unfold addJumpAndCallEdges at h3'
  rw [hsplit] at h3'
  obtain ⟨stA, stB, hA, hB, hC⟩ := optFold_some_decomp h3'
  have hinvA : stA.nodes = st2.nodes ∧ stA.jumpTargets = st2.jumpTargets ∧
      stA.externSubs = st2.externSubs ∧
      ∃ ex, stA.edges = st2.edges ++ ex ∧ ∀ e ∈ ex, e.src ∈ l1 ∧
        ∃ b2, st2.nodes[e.src]? = some (Node.blkEnd b2) ∧
          ∃ j2 ∈ b2.term.jmps, EdgeForJump e j2 := by
    refine optFold_preserve (P := fun s => s.nodes = st2.nodes ∧
      s.jumpTargets = st2.jumpTargets ∧ s.externSubs = st2.externSubs ∧
      ∃ ex, s.edges = st2.edges ++ ex ∧ ∀ e ∈ ex, e.src ∈ l1 ∧
        ∃ b2, st2.nodes[e.src]? = some (Node.blkEnd b2) ∧
          ∃ j2 ∈ b2.term.jmps, EdgeForJump e j2) ?_ hA
      ⟨rfl, rfl, rfl, [], by simp, by simp⟩
    rintro s x s' hx ⟨hsn, hsj, hse, ex, hsed, hinfo⟩ hstep
    obtain ⟨hn1, hj1, he1, ex2, hed1, hinfo2⟩ := outgoingStep_src hstep
    refine ⟨hn1.trans hsn, hj1.trans hsj, he1.trans hse, ex ++ ex2, ?_, ?_⟩
    · rw [hed1, hsed, List.append_assoc]
    · intro e he
      rcases List.mem_append.mp he with he2 | he2
      · exact hinfo e he2
      · obtain ⟨hsrc, b2, hnd2, hrest⟩ := hinfo2 e he2
        refine ⟨hsrc ▸ hx, b2, ?_, hrest⟩
        rw [hsrc, ← hsn]
        exact hnd2
  obtain ⟨hAn, hAj, hAe, exA, hAed, hAinfo⟩ := hinvA
  have hAex : stA.externSubs = ext := hAe.trans hext2
  have hnodeA : stA.nodes[2 * k + 1]? = some (Node.blkEnd ((allBlocks p)[k])) := by
    have hns : stA.nodes = blockNodes (allBlocks p) ++ [] := by
      rw [hAn, hn2, List.append_nil]
    exact nodes_shape_getElem_odd hns hk
  have hBstep : addOutgoingEdges stA (2 * k + 1) = some stB := by
    unfold outgoingStep at hB
    simp only [hnodeA] at hB
    exact hB
  obtain ⟨hBn0, hBjt0, hBex0, exB0, _, _⟩ := outgoingStep_src hB
  have hCinv : ∃ ex, st3.edges = stB.edges ++ ex ∧ ∀ e ∈ ex, e.src ∈ l2 ∧
      ∃ b2, st2.nodes[e.src]? = some (Node.blkEnd b2) ∧
        ∃ j2 ∈ b2.term.jmps, EdgeForJump e j2 := by
    have hgoal := optFold_preserve (P := fun s => s.nodes = st2.nodes ∧
      ∃ ex, s.edges = stB.edges ++ ex ∧ ∀ e ∈ ex, e.src ∈ l2 ∧
        ∃ b2, st2.nodes[e.src]? = some (Node.blkEnd b2) ∧
          ∃ j2 ∈ b2.term.jmps, EdgeForJump e j2) ?_ hC
      ⟨hBn0.trans hAn, [], by simp, by simp⟩
    · exact hgoal.2
    · rintro s x s' hx ⟨hsn, ex, hsed, hinfo⟩ hstep
      obtain ⟨hn1, _, _, ex2, hed1, hinfo2⟩ := outgoingStep_src hstep
      refine ⟨hn1.trans hsn, ex ++ ex2, ?_, ?_⟩
      · rw [hed1, hsed, List.append_assoc]
      · intro e he
        rcases List.mem_append.mp he with he2 | he2
        · exact hinfo e he2
        · obtain ⟨hsrc, b2, hnd2, hrest⟩ := hinfo2 e he2
          refine ⟨hsrc ▸ hx, b2, ?_, hrest⟩
          rw [hsrc, ← hsn]
          exact hnd2
  obtain ⟨exC, hCed, hCinfo⟩ := hCinv
  -- filters of the edge families that never carry this call's stub
  have hfb : (blockEdges 0 (allBlocks p)).filter
      (fun e => e.label == Edge.externCallStub j) = [] := by
    rw [List.filter_eq_nil_iff]
    intro e he hp
    obtain ⟨i2, hi2, rfl⟩ := mem_blockEdges.mp he
    rw [beq_iff_eq] at hp
    exact Edge.noConfusion hp
  have hfee : ee.filter (fun e => e.label == Edge.externCallStub j) = [] := by
    rw [List.filter_eq_nil_iff]
    intro e he hp
    rw [beq_iff_eq] at hp
    rcases heeOk e he with ⟨hl, _⟩ | ⟨hl, _⟩ | ⟨j2, hl, _⟩ <;>
      rw [hp] at hl <;> exact Edge.noConfusion hl
  have hfar : ∀ (ex : List GEdge) (lx : List Nat), (2 * k + 1) ∉ lx →
      (∀ e ∈ ex, e.src ∈ lx ∧
        ∃ b2, st2.nodes[e.src]? = some (Node.blkEnd b2) ∧
          ∃ j2 ∈ b2.term.jmps, EdgeForJump e j2) →
      ex.filter (fun e => e.label == Edge.externCallStub j) = [] := by
    intro ex lx hnotin hinfo
    rw [List.filter_eq_nil_iff]
    intro e he hp
    rw [beq_iff_eq] at hp
    obtain ⟨hsl, b2, hnd2, j2, hj2mem, hEF⟩ := hinfo e he
    have hj2j : j2 = j := by
      rcases hEF with ⟨uu, hl⟩ | hl | hl
      · rw [hp] at hl; exact Edge.noConfusion hl
      · rw [hp] at hl; exact Edge.noConfusion hl
      · rw [hp] at hl
        injection hl with hjj
        exact hjj.symm
    subst hj2j
    have hnd2' : (blockNodes (allBlocks p))[e.src]? = some (Node.blkEnd b2) := by
      rw [← hn2]
      exact hnd2
    obtain ⟨i2, hi2, hor⟩ := blockNodes_getElem?_cases _ e.src _ hnd2'
    rcases hor with ⟨hsrce, hx⟩ | ⟨hsrce, hx⟩
    · exact Node.noConfusion hx
    · have hb2 : b2 = (allBlocks p)[i2] := by
        injection hx with hb2
      have hik : i2 = k := jump_block_unique hnd hi2 hk (hb2 ▸ hj2mem) hjm
      rw [hsrce, hik] at hsl
      exact hnotin hsl
  have hfA : exA.filter (fun e => e.label == Edge.externCallStub j) = [] :=
    hfar exA l1 hnotl1 hAinfo
  have hfC : exC.filter (fun e => e.label == Edge.externCallStub j) = [] :=
    hfar exC l2 hnotl2 hCinfo
  refine ⟨?_, ?_, ?_, ?_, ?_⟩
  · -- exactly one ExternCallStub edge for this call
    intro r k' hk' hret hrtid
    have hlook : hmGet r st2.jumpTargets = some (2 * k', 2 * k' + 1) := by
      rw [← hrtid]
      exact block_own_lookup h2 hndsb hk'
    have hstub : ∀ (s0 : St) (u : Option (Term Jmp)) (st5 : St),
        s0.jumpTargets = st2.jumpTargets → s0.externSubs = ext →
        addJumpEdge s0 (2 * k + 1) j u = some st5 →
        st5.edges = s0.edges ++
          [{ src := 2 * k + 1, dst := 2 * k',
             label := Edge.externCallStub j }] ∧
          st5.jumpTargets = s0.jumpTargets ∧ st5.externSubs = s0.externSubs := by
      intro s0 u st5 hjt0 hex0 hstep
      simp only [addJumpEdge, hkind, htgt] at hstep
      rw [hex0] at hstep
      rw [if_pos hext] at hstep
      simp only [hret] at hstep
      rw [hjt0] at hstep
      simp only [hlook, Option.some.injEq] at hstep
      exact ⟨(congrArg St.edges hstep).symm.trans rfl,
        (congrArg St.jumpTargets hstep).symm.trans hjt0.symm,
        (congrArg St.externSubs hstep).symm.trans hex0.symm⟩
    have hBstep' := hBstep
    unfold addOutgoingEdges at hBstep'
    simp only [hnodeA, Node.get_block] at hBstep'
    cases hjl : ((allBlocks p)[k]).term.jmps with
    | nil =>
      rw [hjl] at hjm
      exact absurd hjm (List.not_mem_nil _)
    | cons a rest =>
      cases rest with
      | nil =>
        have hja : j = a := by
          rw [hjl] at hjm
          simpa using hjm
        subst hja
        simp only [hjl] at hBstep'
        obtain ⟨hBed, _, _⟩ := hstub stA none stB hAj hAex hBstep'
        rw [hge, hed4, hCed, hBed, hAed, hed2]
        simp only [List.filter_append, hfb, hfA, hfC, hfee,
          List.nil_append, List.append_nil]
        simp
      | cons b2 rest2 =>
        cases rest2 with
        | nil =>
          simp only [hjl] at hBstep'
          cases h1 : addJumpEdge stA (2 * k + 1) a none with
          | none =>
            simp only [h1] at hBstep'
            exact absurd hBstep' (by simp)
          | some stM =>
            simp only [h1] at hBstep'
            have hnd_blk : (((allBlocks p)[k]).term.jmps.map
                (fun j2 => j2.tid)).Nodup :=
              jmpTids_nodup_of_mem_block hnd (List.getElem_mem hk)
            rw [hjl] at hnd_blk
            have hjmem : j = a ∨ j = b2 := by
              rw [hjl] at hjm
              simpa using hjm
            rcases hjmem with hja | hjb
            · subst hja
              obtain ⟨hMed, hMjt, hMex⟩ := hstub stA none stM hAj hAex h1
              obtain ⟨_, _, _, exR, hRed, hRinfo⟩ := addJumpEdge_src hBstep'
              have hjb2 : b2 ≠ j := by
                intro heq
                rw [heq] at hnd_blk
                simp at hnd_blk
              have hfR : exR.filter
                  (fun e => e.label == Edge.externCallStub j) = [] := by
                rw [List.filter_eq_nil_iff]
                intro e he hp
                rw [beq_iff_eq] at hp
                obtain ⟨_, hEF⟩ := hRinfo e he
                rcases hEF with ⟨uu, hl⟩ | hl | hl
                · rw [hp] at hl; exact Edge.noConfusion hl
                · rw [hp] at hl; exact Edge.noConfusion hl
                · rw [hp] at hl
                  injection hl with hjj
                  exact hjb2 hjj.symm
              rw [hge, hed4, hCed, hRed, hMed, hAed, hed2]
              simp only [List.filter_append, hfb, hfA, hfC, hfee, hfR,
                List.nil_append, List.append_nil]
              simp
            · subst hjb
              have hja2 : a ≠ j := by
                intro heq
                rw [heq] at hnd_blk
                simp at hnd_blk
              obtain ⟨_, hj1', he1', exF, hFed, hFinfo⟩ := addJumpEdge_src h1
              obtain ⟨hMed2, _, _⟩ := hstub stM (some a) stB
                (hj1'.trans hAj) (he1'.trans hAex) hBstep'
              have hfF : exF.filter
                  (fun e => e.label == Edge.externCallStub j) = [] := by
                rw [List.filter_eq_nil_iff]
                intro e he hp
                rw [beq_iff_eq] at hp
                obtain ⟨_, hEF⟩ := hFinfo e he
                rcases hEF with ⟨uu, hl⟩ | hl | hl
                · rw [hp] at hl; exact Edge.noConfusion hl
                · rw [hp] at hl; exact Edge.noConfusion hl
                · rw [hp] at hl
                  injection hl with hjj
                  exact hja2 hjj.symm
              rw [hge, hed4, hCed, hMed2, hFed, hAed, hed2]
              simp only [List.filter_append, hfb, hfA, hfC, hfee, hfF,
                List.nil_append, List.append_nil]
              simp
        | cons c3 rest3 =>
          simp only [hjl] at hBstep'
          exact absurd hBstep' (by simp)
  · -- no direct return label: no edge at all for this call
    intro hnone e he
    obtain ⟨hnj, hnc, hne⟩ := hlabel3 e he
    refine ⟨hnj, hnc, ?_⟩
    intro hcontra
    obtain ⟨r2, hr2⟩ := hne hcontra
    exact hnone r2 hr2
  · -- no Call edge for this call
    intro e he
    exact (hlabel3 e he).2.1
  · -- CR call stubs at this BlkEnd belong to a different, non-extern call
    intro e he hcr hsrceq
    rw [hge, hed4] at he
    rcases List.mem_append.mp he with he3 | hee
    · rw [hed3] at he3
      rcases List.mem_append.mp he3 with heb | hex
      · obtain ⟨i2, hi2, rfl⟩ := mem_blockEdges.mp heb
        exact absurd hcr (by simp [Edge.isCRCallStub])
      · obtain ⟨i2, hi2, _, hcases⟩ := hemit e hex
        rcases hcases with ⟨j2, uu, t2, prr, hl, _⟩ |
          ⟨j2, cc2, t2, prr, hl, _⟩ | ⟨j2, cc2, t2, r2, prr, hl, _⟩ <;>
          rw [hl] at hcr <;>
          exact absurd hcr (by simp [Edge.isCRCallStub])
    · rcases heeOk e hee with
        ⟨hl, k2, hk2, hs, j2, hjm2, cc2, hkd2, t2, htg2, hextf, r2, hret2⟩ |
        ⟨hl, _⟩ | ⟨j2, hl, _⟩
      · have hkk : k2 = k := by omega
        subst hkk
        refine ⟨j2, hjm2, ?_, cc2, t2, hkd2, htg2, hextf⟩
        intro hj2eq
        subst hj2eq
        rw [hkind] at hkd2
        injection hkd2 with hcc
        subst hcc
        rw [htgt] at htg2
        injection htg2 with ht2
        subst ht2
        rw [hextf] at hext
        exact absurd hext (by simp)
      · rw [hl] at hcr
        exact absurd hcr (by simp [Edge.isCRCallStub])
      · rw [hl] at hcr
        exact absurd hcr (by simp [Edge.isCRCallStub])
  · -- CallReturn nodes carrying this block belong to a different call
    intro i2 blk hcb hblkeq
    rw [hgn] at hcb
    obtain ⟨k2, hk2, hblk, j2, hjm2, cc2, hkd2, t2, htg2, hextf, r2, _⟩ :=
      hinv4.crnodes i2 blk hcb
    refine ⟨j2, ?_, ?_, cc2, t2, hkd2, htg2, hextf⟩
    · rw [hblk]
      exact hjm2
    · intro hj2eq
      subst hj2eq
      rw [hkind] at hkd2
      injection hkd2 with hcc
      subst hcc
      rw [htgt] at htg2
      injection htg2 with ht2
      subst ht2
      rw [hextf] at hext
      exact absurd hext (by simp)

/-- Witness for C5: the mock program with `sub2` marked external. -/
theorem C5_extern_call_stub_witness :
    (∀ r k', ∀ _ : k' < (allBlocks mockProgram).length,
        ({ target := Label.direct tidSub2,
           return_ := some (Label.direct tidSub1Blk2) } : Call).return_ =
            some (Label.direct r) →
        ((allBlocks mockProgram)[k']).tid = r →
        ((get_program_cfg mockProgram [tidSub2]).getD
            { nodes := [], edges := [] }).edges.filter
            (fun e => e.label == Edge.externCallStub mockCallTerm) =
          [{ src := 2 * 0 + 1, dst := 2 * k',
             label := Edge.externCallStub mockCallTerm }]) ∧
      ((∀ r, ({ target := Label.direct tidSub2,
                 return_ := some (Label.direct tidSub1Blk2) } : Call).return_ ≠
            some (Label.direct r)) →
        ∀ e ∈ ((get_program_cfg mockProgram [tidSub2]).getD
            { nodes := [], edges := [] }).edges,
          (∀ u, e.label ≠ Edge.jump mockCallTerm u) ∧
            e.label ≠ Edge.call mockCallTerm ∧
            e.label ≠ Edge.externCallStub mockCallTerm) ∧
      (∀ e ∈ ((get_program_cfg mockProgram [tidSub2]).getD
          { nodes := [], edges := [] }).edges,
        e.label ≠ Edge.call mockCallTerm) ∧
      (∀ e ∈ ((get_program_cfg mockProgram [tidSub2]).getD
          { nodes := [], edges := [] }).edges,
        e.label.isCRCallStub = true → e.src = 2 * 0 + 1 →
        ∃ j2 ∈ ((allBlocks mockProgram)[0]).term.jmps, j2 ≠ mockCallTerm ∧
          ∃ cc2 t2, j2.term.kind = JmpKind.call cc2 ∧
            cc2.target = Label.direct t2 ∧ [tidSub2].contains t2 = false) ∧
      (∀ (i : Nat) (blk : Term Blk),
        ((get_program_cfg mockProgram [tidSub2]).getD
          { nodes := [], edges := [] }).nodes[i]? =
            some (Node.callReturn blk) →
        blk = (allBlocks mockProgram)[0] →
        ∃ j2 ∈ blk.term.jmps, j2 ≠ mockCallTerm ∧
          ∃ cc2 t2, j2.term.kind = JmpKind.call cc2 ∧
            cc2.target = Label.direct t2 ∧ [tidSub2].contains t2 = false) :=
  C5_extern_call_stub mockProgram [tidSub2]
    ((get_program_cfg mockProgram [tidSub2]).getD { nodes := [], edges := [] })
    (by decide) (by decide) 0 (by decide) mockCallTerm
    { target := Label.direct tidSub2, return_ := some (Label.direct tidSub1Blk2) }
    (by decide) (by decide) tidSub2 (by decide) (by decide)

end CweGraph
